import Mathlib

/-!
# kgsl_debugfs.c: the per-process memory listing

A shallow embedding of `drivers/gpu/msm/kgsl_debugfs.c`.  The seq_file callbacks
(`process_mem_seq_start`, `process_mem_seq_next`, `process_mem_seq_stop`,
`process_mem_seq_show`), the scan `process_mem_seq_find`, the formatter
`print_mem_entry` and the file operations `process_mem_open` and
`process_mem_release` are translated function by function.  State is passed
explicitly: the process private structure carries the idr of memory entries, and
every entry carries its own reference count.
-/

namespace KgslDebugfs

/-! ## Data model -/

/-- The scatter-gather table of a memory descriptor; only `nents` is read. -/
structure sg_table where
  nents : Nat
deriving DecidableEq, Repr

/-- The fields of `struct kgsl_memdesc` that the file reads. -/
structure kgsl_memdesc where
  gpuaddr : Nat
  size : Nat
  flags : Nat
  priv : Nat
  sgt : Option sg_table
deriving DecidableEq, Repr

/-- The fields of `struct kgsl_mem_entry` that the file reads, with the kref
`refcount` as a plain counter.  `id` and `map_count` are C `int`s. -/
structure kgsl_mem_entry where
  refcount : Nat
  memdesc : kgsl_memdesc
  id : Int
  metadata : String
  map_count : Int
deriving DecidableEq, Repr

/-- Calls on the collaborators of `process_mem_seq_find`, in program order. -/
inductive kgsl_event where
  | spin_lock
  | spin_unlock
  | idr_get_next (id : Int)
  | kgsl_mem_entry_get (id : Int) (ok : Bool)
  | kgsl_mem_entry_put (id : Int)
deriving DecidableEq, Repr

/-- The part of `struct kgsl_process_private` that the file uses: its kref, its
pid and `mem_idr`, written as the list of its populated slots in increasing id
order.  The entry objects live in the idr: a pointer to an entry is the id under
which the idr holds it.  `trace` records the collaborator calls made on this
process (the lock `mem_lock` appears through its lock and unlock events). -/
structure kgsl_process_private where
  refcount : Nat
  pid : Int
  mem_idr : List kgsl_mem_entry
  trace : List kgsl_event
deriving DecidableEq, Repr

/-- The `void *` values that travel through the seq_file callbacks. -/
inductive seq_ptr where
  | NULL
  | SEQ_START_TOKEN
  | entry (id : Int)
deriving DecidableEq, Repr

/-- Two's complement wrap of a C `int` (the kernel is built with wrapping
signed arithmetic). -/
def wrap_int (x : Int) : Int :=
  (x + 2147483648) % 4294967296 - 2147483648

/-- Representation invariant of the idr: slots in strictly increasing id order,
every id a non-negative `int`. -/
def idr_wf (idr : List kgsl_mem_entry) : Prop :=
  idr.Pairwise (fun a b => a.id < b.id) ∧ ∀ e ∈ idr, 0 ≤ e.id ∧ e.id ≤ 2147483647

instance (idr : List kgsl_mem_entry) : Decidable (idr_wf idr) := by
  unfold idr_wf; infer_instance

/-! ## Collaborators of the scan -/

/-- Appends one event to the trace of the process. -/
def record (s : kgsl_process_private) (ev : kgsl_event) : kgsl_process_private :=
  { s with trace := s.trace ++ [ev] }

/-- Modelled from the spec: `spin_lock(&private->mem_lock)`, the registry lock
of the process context; kernel code that is not part of this file. -/
def spin_lock (s : kgsl_process_private) : kgsl_process_private :=
  record s .spin_lock

/-- Modelled from the spec: `spin_unlock(&private->mem_lock)`. -/
def spin_unlock (s : kgsl_process_private) : kgsl_process_private :=
  record s .spin_unlock

/-- Modelled from the spec: `idr_get_next`, the registry's "next entry with
ID ≥ X" (`registry_next(registry, minID) -> entry reference | None`); kernel
library code that is not part of this file.  Ids are non-negative, so a negative
start finds nothing.  On success the caller's `id` becomes the id of the entry
found, which is the `id` field of the result. -/
def idr_get_next (s : kgsl_process_private) (id : Int) :
    kgsl_process_private × Option kgsl_mem_entry :=
  (record s (.idr_get_next id),
   if id < 0 then none else s.mem_idr.find? (fun e => decide (id ≤ e.id)))

/-- Modelled from the spec: `entry_acquire_ref` (`kgsl_mem_entry_get` of
kgsl.h, not part of this file): takes a reference unless the count is already
zero, and says whether it did. -/
def kgsl_mem_entry_get (s : kgsl_process_private) (entry : kgsl_mem_entry) :
    kgsl_process_private × Bool :=
  if entry.refcount = 0 then
    (record s (.kgsl_mem_entry_get entry.id false), false)
  else
    (record { s with mem_idr := s.mem_idr.map (fun e =>
        if e.id = entry.id then { e with refcount := e.refcount + 1 } else e) }
      (.kgsl_mem_entry_get entry.id true), true)

/-- Modelled from the spec: `entry_release_ref` (`kgsl_mem_entry_put` of kgsl.h,
not part of this file): drops one reference; the entry is destroyed, and so
leaves the registry, when the last reference is released. -/
def kgsl_mem_entry_put (s : kgsl_process_private) (id : Int) : kgsl_process_private :=
  record { s with mem_idr := s.mem_idr.filterMap (fun e =>
      if e.id = id then
        (if e.refcount = 1 then none else some { e with refcount := e.refcount - 1 })
      else some e) }
    (.kgsl_mem_entry_put id)

/-! ## process_mem_seq_find and the seq_file callbacks -/

/-- The `for` loop of `process_mem_seq_find`, entered with the result `cur` of
the last `idr_get_next`; it runs with `mem_lock` held and unlocks on both exits.
`fuel` bounds the number of iterations; `none` means the bound was reached. -/
def process_mem_seq_find_loop (pos : Int) :
    Nat → kgsl_process_private → Option kgsl_mem_entry → Int →
      Option (kgsl_process_private × seq_ptr)
  | 0, _, _, _ => none
  | _ + 1, s, none, _ => some (spin_unlock s, .NULL)
  | fuel + 1, s, some entry, temp_pos =>
    let hit : kgsl_process_private × Bool :=
      if temp_pos = pos then kgsl_mem_entry_get s entry else (s, false)
    if hit.2 then
      some (spin_unlock hit.1, .entry entry.id)
    else
      let id := wrap_int (entry.id + 1)
      let nxt := idr_get_next hit.1 id
      process_mem_seq_find_loop pos fuel nxt.1 nxt.2 (temp_pos + 1)

/-- Scan `process_mem_seq_find(s, ptr, pos)`: `s->private` is passed as `s`.
A NULL `ptr` is dereferenced by the code, which is undefined: `none`.  The loop
gets one iteration per slot of the idr, plus the test that ends it. -/
def process_mem_seq_find (s : kgsl_process_private) (ptr : seq_ptr) (pos : Int) :
    Option (kgsl_process_private × seq_ptr) :=
  match ptr with
  | .NULL => none
  | .SEQ_START_TOKEN =>
    let s1 := spin_lock s
    let fst := idr_get_next s1 0
    process_mem_seq_find_loop pos (s.mem_idr.length + 1) fst.1 fst.2 1
  | .entry eid =>
    let id := wrap_int (eid + 1)
    let s1 := spin_lock s
    let fst := idr_get_next s1 id
    match process_mem_seq_find_loop pos (s.mem_idr.length + 1) fst.1 fst.2 1 with
    | none => none
    | some (s2, found) => some (kgsl_mem_entry_put s2 eid, found)

/-- Callback `process_mem_seq_start(s, pos)`; `*pos` is only read. -/
def process_mem_seq_start (s : kgsl_process_private) (pos : Int) :
    Option (kgsl_process_private × seq_ptr) :=
  if pos = 0 then some (s, .SEQ_START_TOKEN)
  else process_mem_seq_find s .SEQ_START_TOKEN pos

/-- Callback `process_mem_seq_stop(s, ptr)`. -/
def process_mem_seq_stop (s : kgsl_process_private) (ptr : seq_ptr) : kgsl_process_private :=
  match ptr with
  | .entry eid => kgsl_mem_entry_put s eid
  | _ => s

/-- Callback `process_mem_seq_next(s, ptr, pos)`; the last component is the new
value of `*pos`. -/
def process_mem_seq_next (s : kgsl_process_private) (ptr : seq_ptr) (pos : Int) :
    Option (kgsl_process_private × seq_ptr × Int) :=
  match process_mem_seq_find s ptr 1 with
  | none => none
  | some (s1, found) => some (s1, found, pos + 1)

/-! ## The entry formatter -/

/-- Modelled from the spec: the cache mode of a memory descriptor, the
enumeration write-combine, uncached, writeback, writethrough of msm_kgsl.h. -/
inductive kgsl_cachemode where
  | KGSL_CACHEMODE_WRITECOMBINE
  | KGSL_CACHEMODE_UNCACHED
  | KGSL_CACHEMODE_WRITEBACK
  | KGSL_CACHEMODE_WRITETHROUGH
deriving DecidableEq, Repr

/-- One row `struct type_entry` of the table `memtypes`. -/
structure type_entry where
  type : Int
  str : String
deriving DecidableEq, Repr

/-- Declarations of kgsl.h, kgsl_sharedmem.h and msm_kgsl.h that the file uses
and that are not part of it: flag masks, the table `KGSL_MEM_TYPES`, the
accessors of a memory descriptor, the usage-string and egl-count helpers, and
the kernel's rendering of a `%pK` pointer. -/
structure kgsl_h where
  KGSL_MEMFLAGS_SPARSE_VIRT : Nat
  KGSL_MEMFLAGS_SPARSE_PHYS : Nat
  KGSL_MEMFLAGS_GPUREADONLY : Nat
  KGSL_MEM_ENTRY_ION : Nat
  KGSL_MEM_TYPES : List type_entry
  kgsl_memdesc_is_global : kgsl_memdesc → Bool
  kgsl_memdesc_is_secured : kgsl_memdesc → Bool
  kgsl_memdesc_use_cpu_map : kgsl_memdesc → Bool
  kgsl_memdesc_get_align : kgsl_memdesc → Int
  kgsl_memdesc_get_cachemode : kgsl_memdesc → kgsl_cachemode
  kgsl_memdesc_usermem_type : kgsl_memdesc → Nat
  kgsl_get_memory_usage : Nat → Nat → String
  kgsl_get_egl_counts : kgsl_mem_entry → Int × Int
  pointer_pK : Nat → String

/-- The loop of `memtype_str` over the rows of `memtypes` from index `i` on. -/
def memtype_str_loop : List type_entry → Int → String
  | [], _ => "unknown"
  | t :: rest, memtype => if t.type = memtype then t.str else memtype_str_loop rest memtype

/-- Lookup `memtype_str(memtype)` in the static table `memtypes`. -/
def memtype_str (h : kgsl_h) (memtype : Int) : String :=
  memtype_str_loop h.KGSL_MEM_TYPES memtype

/-- Floor of the base-2 logarithm, by repeated halving; `fuel` bounds the steps. -/
def ilog2_loop : Nat → Nat → Nat
  | 0, _ => 0
  | fuel + 1, n => if n < 2 then 0 else ilog2_loop fuel (n / 2) + 1

/-- The kernel's `ilog2` on a positive constant. -/
def ilog2 (n : Nat) : Nat := ilog2_loop n n

/-- Modelled from the spec: 1 MiB (`SZ_1M` of linux/sizes.h). -/
def SZ_1M : Nat := 0x00100000

/-- Modelled from the spec: 64 KiB (`SZ_64K` of linux/sizes.h). -/
def SZ_64K : Nat := 0x00010000

/-- Character `get_alignflag(m)`. -/
def get_alignflag (h : kgsl_h) (m : kgsl_memdesc) : Char :=
  let align := h.kgsl_memdesc_get_align m
  if align ≥ (ilog2 SZ_1M : Int) then 'L'
  else if align ≥ (ilog2 SZ_64K : Int) then 'l'
  else '-'

/-- Character `get_cacheflag(m)`: the static table indexed by the cache mode. -/
def get_cacheflag (h : kgsl_h) (m : kgsl_memdesc) : Char :=
  match h.kgsl_memdesc_get_cachemode m with
  | .KGSL_CACHEMODE_WRITECOMBINE => '-'
  | .KGSL_CACHEMODE_UNCACHED => 'u'
  | .KGSL_CACHEMODE_WRITEBACK => 'b'
  | .KGSL_CACHEMODE_WRITETHROUGH => 't'

/-- The characters of a C string held in a buffer: those before the first NUL. -/
def c_str (s : String) : String :=
  String.mk (s.data.takeWhile (fun c => c ≠ Char.ofNat 0))

/-- Right-justifies `s` in a field of at least `w` characters, as printf does
for a conversion with a minimum field width. -/
def pad_left (w : Nat) (s : String) : String :=
  String.mk (List.replicate (w - s.length) ' ') ++ s

/-- The conversion `%<w>s`. -/
def fmt_s (w : Nat) (s : String) : String := pad_left w (c_str s)

/-- The conversion `%<w>d` of a C `int`. -/
def fmt_d (w : Nat) (n : Int) : String := pad_left w (toString n)

/-- The conversion `%<w>llu`. -/
def fmt_llu (w : Nat) (n : Nat) : String := pad_left w (toString n)

/-- The nine flag characters `flags[0..8]` that `print_mem_entry` builds. -/
def mem_entry_flags (h : kgsl_h) (entry : kgsl_mem_entry) : String :=
  let m := entry.memdesc
  String.mk [
    if h.kgsl_memdesc_is_global m then 'g' else '-',
    '-',
    if m.flags &&& h.KGSL_MEMFLAGS_GPUREADONLY = 0 then 'w' else '-',
    get_alignflag h m,
    get_cacheflag h m,
    if h.kgsl_memdesc_use_cpu_map m then 'p' else '-',
    if entry.map_count ≠ 0 then 'Y' else 'N',
    if h.kgsl_memdesc_is_secured m then 's' else '-',
    if m.flags &&& h.KGSL_MEMFLAGS_SPARSE_PHYS ≠ 0 then 'P' else '-']

/-- Formatter `print_mem_entry(data, ptr)`: `s` is the text already in the
seq_file, the result is the text after the call and the return value.  The
`unsigned int` arguments printed with `%d` and passed as `int` are wrapped. -/
def print_mem_entry (h : kgsl_h) (s : String) (entry : kgsl_mem_entry) : String × Int :=
  let m := entry.memdesc
  let usermem_type := h.kgsl_memdesc_usermem_type m
  if m.flags &&& h.KGSL_MEMFLAGS_SPARSE_VIRT ≠ 0 then (s, 0)
  else
    let flags := mem_entry_flags h entry
    let usage := h.kgsl_get_memory_usage 16 m.flags
    let egl : Int × Int :=
      if usermem_type = h.KGSL_MEM_ENTRY_ION then h.kgsl_get_egl_counts entry else (0, 0)
    let s1 := s ++ h.pointer_pK m.gpuaddr ++ " " ++ h.pointer_pK 0 ++ " "
      ++ fmt_llu 16 m.size ++ " " ++ fmt_d 5 entry.id ++ " " ++ fmt_s 9 flags ++ " "
      ++ fmt_s 10 (memtype_str h (wrap_int usermem_type)) ++ " " ++ fmt_s 16 usage ++ " "
      ++ fmt_d 5 (wrap_int (match m.sgt with | some t => t.nents | none => 0)) ++ " "
      ++ fmt_d 16 entry.map_count ++ " " ++ fmt_d 6 egl.1 ++ " " ++ fmt_d 6 egl.2
    let s2 := if c_str entry.metadata ≠ "" then s1 ++ " " ++ c_str entry.metadata else s1
    (s2.push '\n', 0)

/-- The header row that `process_mem_seq_show` prints for `SEQ_START_TOKEN`. -/
def mem_header : String :=
  fmt_s 16 "gpuaddr" ++ " " ++ fmt_s 16 "useraddr" ++ " " ++ fmt_s 16 "size" ++ " "
    ++ fmt_s 5 "id" ++ " " ++ fmt_s 9 "flags" ++ " " ++ fmt_s 10 "type" ++ " "
    ++ fmt_s 16 "usage" ++ " " ++ fmt_s 5 "sglen" ++ " " ++ fmt_s 16 "mapcount" ++ " "
    ++ fmt_s 6 "eglsrf" ++ " " ++ fmt_s 6 "eglimg" ++ "\n"

/-- The entry object that an entry pointer designates in the process: the slot
of the idr with that id. -/
def mem_entry_deref (priv : kgsl_process_private) (id : Int) : Option kgsl_mem_entry :=
  priv.mem_idr.find? (fun e => decide (e.id = id))

/-- Callback `process_mem_seq_show(s, ptr)`: `s` is the text already in the
seq_file.  A pointer that designates no entry object is dereferenced by the
code, which is undefined: `none`. -/
def process_mem_seq_show (h : kgsl_h) (priv : kgsl_process_private) (s : String)
    (ptr : seq_ptr) : Option (String × Int) :=
  match ptr with
  | .SEQ_START_TOKEN => some (s ++ mem_header, 0)
  | .entry id =>
    match mem_entry_deref priv id with
    | some entry => some (print_mem_entry h s entry)
    | none => none
  | .NULL => none

/-- Modelled from the spec: the complete listing of one read pass of the
seq_file core (fs/seq_file.c, not part of this file) from the position reached
by `process_mem_seq_start`: show the current value, ask for the next one, until
end-of-sequence.  `fuel` bounds the number of rows; `none` means the bound was
reached or a callback was undefined. -/
def seq_listing_loop (h : kgsl_h) :
    Nat → kgsl_process_private → seq_ptr → Int → String →
      Option (kgsl_process_private × seq_ptr × Int × String)
  | 0, _, _, _, _ => none
  | fuel + 1, priv, ptr, pos, out =>
    if ptr = .NULL then some (priv, ptr, pos, out)
    else
      match process_mem_seq_show h priv out ptr with
      | none => none
      | some shown =>
        match process_mem_seq_next priv ptr pos with
        | none => none
        | some (priv1, ptr1, pos1) => seq_listing_loop h fuel priv1 ptr1 pos1 shown.1

/-- Modelled from the spec: a complete listing: `process_mem_seq_start` at
position 0, then `process_mem_seq_show` and `process_mem_seq_next` alternately
until end-of-sequence, then `process_mem_seq_stop`.  The result is the process
after the listing and the text written. -/
def seq_listing (h : kgsl_h) (priv : kgsl_process_private) :
    Option (kgsl_process_private × String) :=
  match process_mem_seq_start priv 0 with
  | none => none
  | some (priv0, ptr0) =>
    match seq_listing_loop h (priv.mem_idr.length + 2) priv0 ptr0 0 "" with
    | none => none
    | some (priv1, ptr1, _, out) => some (process_mem_seq_stop priv1 ptr1, out)

/-! ## Opening and releasing the listing file -/

/-- The `struct seq_file` of an open listing; only `private` is modelled.  A
pointer to a process private structure is the pid under which the driver's
process list holds it. -/
structure seq_file where
  private_ : Option Int
deriving DecidableEq, Repr

/-- The `struct file` of the listing: `private_data`, and a count of the calls
of `seq_open` made on it. -/
structure file where
  private_data : Option seq_file
  seq_open_calls : Nat
deriving DecidableEq, Repr

/-- The global `kgsl_driver`: the list of process private structures. -/
structure kgsl_driver where
  process_list : List kgsl_process_private
deriving DecidableEq, Repr

/-- Modelled from the spec: the not-found error code (`ENODEV` of errno.h). -/
def ENODEV : Int := 19

/-- The walk of `kgsl_process_private_find` over the process list. -/
def kgsl_process_private_find_loop :
    List kgsl_process_private → Int → List kgsl_process_private × Option Int
  | [], _ => ([], none)
  | p :: rest, pid =>
    if p.pid = pid then
      (if p.refcount = 0 then (p :: rest, none)
       else ({ p with refcount := p.refcount + 1 } :: rest, some pid))
    else
      let r := kgsl_process_private_find_loop rest pid
      (p :: r.1, r.2)

/-- Modelled from the spec: `find_process_context(pid) -> ProcessContext
reference | NotFound` (`kgsl_process_private_find` of kgsl.c, not part of this
file): finds the live process context of `pid` and acquires a reference on it. -/
def kgsl_process_private_find (drv : kgsl_driver) (pid : Int) : kgsl_driver × Option Int :=
  let r := kgsl_process_private_find_loop drv.process_list pid
  ({ process_list := r.1 }, r.2)

/-- The walk of `kgsl_process_private_put` over the process list. -/
def kgsl_process_private_put_loop :
    List kgsl_process_private → Int → List kgsl_process_private
  | [], _ => []
  | p :: rest, pid =>
    if p.pid = pid then
      (if p.refcount = 1 then rest else { p with refcount := p.refcount - 1 } :: rest)
    else p :: kgsl_process_private_put_loop rest pid

/-- Modelled from the spec: release of one reference on a process context
(`kgsl_process_private_put` of kgsl.c, not part of this file); the context is
destroyed, and so leaves the process list, when the last reference is
released. -/
def kgsl_process_private_put (drv : kgsl_driver) (priv : Int) : kgsl_driver :=
  { process_list := kgsl_process_private_put_loop drv.process_list priv }

/-- Modelled from the spec: `seq_open` of the seq_file core (fs/seq_file.c, not
part of this file), with its outcome `ret` given: on success (0) it installs a
fresh seq_file, whose `private` is NULL, as `file->private_data`; on failure it
leaves the file alone and returns the error. -/
def seq_open (f : file) (ret : Int) : file × Int :=
  if ret = 0 then
    ({ private_data := some { private_ := none }, seq_open_calls := f.seq_open_calls + 1 }, 0)
  else ({ f with seq_open_calls := f.seq_open_calls + 1 }, ret)

/-- Modelled from the spec: `seq_release` of the seq_file core: frees the
seq_file and returns 0. -/
def seq_release (f : file) : file × Int :=
  ({ f with private_data := none }, 0)

/-- File operation `process_mem_open(inode, file)`: `i_private` is the value of
`inode->i_private` as an `unsigned long`, `seq_open_ret` the outcome of
`seq_open` should it be called.  The result is the driver and the file after the
call and the return value. -/
def process_mem_open (drv : kgsl_driver) (i_private : Nat) (f : file) (seq_open_ret : Int) :
    kgsl_driver × file × Int :=
  let pid := wrap_int i_private
  let found := kgsl_process_private_find drv pid
  match found.2 with
  | none => (found.1, f, -ENODEV)
  | some priv =>
    let opened := seq_open f seq_open_ret
    if opened.2 ≠ 0 then
      (kgsl_process_private_put found.1 priv, opened.1, opened.2)
    else
      (found.1,
       { opened.1 with private_data :=
           opened.1.private_data.map (fun s => { s with private_ := some priv }) },
       opened.2)

/-- File operation `process_mem_release(inode, file)`.  The code dereferences
`file->private_data`; with no seq_file installed that is undefined: `none`. -/
def process_mem_release (drv : kgsl_driver) (f : file) : Option (kgsl_driver × file × Int) :=
  match f.private_data with
  | none => none
  | some s =>
    let drv1 := match s.private_ with
      | some priv => kgsl_process_private_put drv priv
      | none => drv
    let released := seq_release f
    some (drv1, released.1, released.2)

/-! ## The scan in closed form (definitions used by the proofs) -/

/-- The slots that a scan started at `id` goes through, in order. -/
def idr_from (idr : List kgsl_mem_entry) (id : Int) : List kgsl_mem_entry :=
  if id < 0 then [] else idr.dropWhile (fun e => decide (e.id < id))

/-- The entry at which a scan over the slots `l` stops, when its position
counter starts at `temp_pos`. -/
def scan_pick (pos : Int) : List kgsl_mem_entry → Int → Option kgsl_mem_entry
  | [], _ => none
  | e :: rest, temp_pos =>
    if temp_pos = pos ∧ e.refcount ≠ 0 then some e else scan_pick pos rest (temp_pos + 1)

/-- The events of a scan over the slots `l`, after the lookup that found the
first of them. -/
def scan_trace (pos : Int) : List kgsl_mem_entry → Int → List kgsl_event
  | [], _ => [.spin_unlock]
  | e :: rest, temp_pos =>
    if temp_pos = pos then
      if e.refcount = 0 then
        .kgsl_mem_entry_get e.id false :: .idr_get_next (wrap_int (e.id + 1))
          :: scan_trace pos rest (temp_pos + 1)
      else [.kgsl_mem_entry_get e.id true, .spin_unlock]
    else .idr_get_next (wrap_int (e.id + 1)) :: scan_trace pos rest (temp_pos + 1)

/-- The pointer that stands for the outcome of a scan. -/
def ptr_of : Option kgsl_mem_entry → seq_ptr
  | none => .NULL
  | some e => .entry e.id

/-- The idr with one more reference on the entry `id`. -/
def idr_acquire (idr : List kgsl_mem_entry) (id : Int) : List kgsl_mem_entry :=
  idr.map (fun e => if e.id = id then { e with refcount := e.refcount + 1 } else e)

/-- The idr after the scan picked `pick`. -/
def idr_after (idr : List kgsl_mem_entry) : Option kgsl_mem_entry → List kgsl_mem_entry
  | none => idr
  | some e => idr_acquire idr e.id

/-- The id at which the scan of `process_mem_seq_find` starts, for a cursor. -/
def scan_start : seq_ptr → Int
  | .entry c => wrap_int (c + 1)
  | _ => 0

/-- The process after `process_mem_seq_find(s, ptr, pos)`, in closed form. -/
def find_state (s : kgsl_process_private) (ptr : seq_ptr) (pos : Int) : kgsl_process_private :=
  let suf := idr_from s.mem_idr (scan_start ptr)
  let s2 : kgsl_process_private :=
    { s with mem_idr := idr_after s.mem_idr (scan_pick pos suf 1),
             trace := s.trace ++ ([.spin_lock, .idr_get_next (scan_start ptr)]
               ++ scan_trace pos suf 1) }
  match ptr with
  | .entry c => kgsl_mem_entry_put s2 c
  | _ => s2

/-! ## Concrete registries -/

/-- A memory descriptor with no flag set. -/
def plain_memdesc : kgsl_memdesc :=
  { gpuaddr := 0x1000, size := 4096, flags := 0, priv := 0, sgt := none }

/-- A plain entry with the given id and reference count. -/
def plain_entry (id : Int) (refcount : Nat) : kgsl_mem_entry :=
  { refcount := refcount, memdesc := plain_memdesc, id := id, metadata := "", map_count := 0 }

/-- A process whose registry holds entries with the ids 2, 5 and 7, one
reference each. -/
def proc_2_5_7 : kgsl_process_private :=
  { refcount := 1, pid := 42,
    mem_idr := [plain_entry 2 1, plain_entry 5 1, plain_entry 7 1], trace := [] }

/-! ## Cursors -/

/-- The lower bound on ids that a cursor stands for: 0 for the header token,
`e.id + 1` for a held entry `e`. -/
def cursor_lower_bound : seq_ptr → Int
  | .entry c => c + 1
  | _ => 0

/-- A cursor that `process_mem_seq_find` can be given: the header token, or a
pointer to an entry, whose id is a non-negative `int`. -/
def cursor_wf : seq_ptr → Prop
  | .NULL => False
  | .SEQ_START_TOKEN => True
  | .entry c => 0 ≤ c ∧ c ≤ 2147483647

instance (ptr : seq_ptr) : Decidable (cursor_wf ptr) := by
  cases ptr <;> unfold cursor_wf <;> infer_instance

/-- The entries of the idr with an id of at least `lb`, in increasing id order. -/
def idr_at_least (idr : List kgsl_mem_entry) (lb : Int) : List kgsl_mem_entry :=
  idr.filter (fun e => decide (lb ≤ e.id))

/-- The idr with the reference that the session holds through `ptr`. -/
def idr_hold (idr : List kgsl_mem_entry) : seq_ptr → List kgsl_mem_entry
  | .entry c => idr_acquire idr c
  | _ => idr

/-- The idr after one reference on the entry `id` is released. -/
def idr_release (idr : List kgsl_mem_entry) (id : Int) : List kgsl_mem_entry :=
  idr.filterMap (fun e =>
    if e.id = id then
      (if e.refcount = 1 then none else some { e with refcount := e.refcount - 1 })
    else some e)

/-- The call from `s` to `s1` acquired a reference on the entry `rid` while the
registry lock was held: the entry was in the registry with a non-zero count, it
is there with a count one higher afterwards, and the trace of the call is a
lock, lookups only, the successful acquisition, the unlock, and the rest. -/
def acquired_under_lock (s s1 : kgsl_process_private) (rid : Int) : Prop :=
  ∃ e, mem_entry_deref s rid = some e ∧ e.refcount ≠ 0
    ∧ mem_entry_deref s1 rid = some { e with refcount := e.refcount + 1 }
    ∧ ∃ scan rest, s1.trace = s.trace
          ++ (.spin_lock :: scan ++ [.kgsl_mem_entry_get rid true, .spin_unlock] ++ rest)
        ∧ (∀ ev ∈ scan, ∃ i, ev = .idr_get_next i)
        ∧ (∀ ev ∈ rest, ∃ c, ev = .kgsl_mem_entry_put c ∧ c ≠ rid)

/-- The release of the cursor at the end of `process_mem_seq_find`, as events. -/
def cursor_put : seq_ptr → List kgsl_event
  | .entry c => [.kgsl_mem_entry_put c]
  | _ => []

/-! ## Read passes -/

/-- Modelled from the spec: up to `k` calls of `process_mem_seq_next` by the
seq_file core, each on the value returned before, as long as that value is not
end-of-sequence.  The result lists the process, the value and the position after
each call, in order. -/
def read_pass_nexts :
    Nat → kgsl_process_private → seq_ptr → Int →
      Option (List (kgsl_process_private × seq_ptr × Int))
  | 0, _, _, _ => some []
  | k + 1, s, ptr, pos =>
    if ptr = .NULL then some []
    else
      match process_mem_seq_next s ptr pos with
      | none => none
      | some r =>
        match read_pass_nexts k r.1 r.2.1 r.2.2 with
        | none => none
        | some rest => some (r :: rest)

/-- Modelled from the spec: a read pass of the seq_file core up to its stop:
`process_mem_seq_start` at position `p`, then up to `k` calls of
`process_mem_seq_next`.  The result lists the process, the value and the
position after each call, the start first; `process_mem_seq_stop` is then
applied to the last of them. -/
def read_pass (s : kgsl_process_private) (p : Int) (k : Nat) :
    Option (List (kgsl_process_private × seq_ptr × Int)) :=
  match process_mem_seq_start s p with
  | none => none
  | some (s0, x0) =>
    match read_pass_nexts k s0 x0 p with
    | none => none
    | some rest => some ((s0, x0, p) :: rest)

/-- The ids of the entries on which a trace takes a reference, in order. -/
def trace_gets (tr : List kgsl_event) : List Int :=
  tr.filterMap (fun ev =>
    match ev with
    | .kgsl_mem_entry_get id true => some id
    | _ => none)

/-- The ids of the entries on which a trace releases a reference, in order. -/
def trace_puts (tr : List kgsl_event) : List Int :=
  tr.filterMap (fun ev =>
    match ev with
    | .kgsl_mem_entry_put id => some id
    | _ => none)

/-- The ids of the entries on which the session holds a reference through `ptr`. -/
def held_ids : seq_ptr → List Int
  | .entry c => [c]
  | _ => []

/-- What holds between the calls of a read pass that started on the process
`s0`, when the process is `s` and the value held is `x`: the registry is the
original one with the one reference held through `x`; the references taken since
the start are those released since, plus the one held, taken in increasing id
order. -/
def pass_inv (s0 s : kgsl_process_private) (x : seq_ptr) : Prop :=
  s.mem_idr = idr_hold s0.mem_idr x
  ∧ (∀ c, x = .entry c → ∃ e ∈ s0.mem_idr, e.id = c ∧ e.refcount ≠ 0)
  ∧ ∃ added, s.trace = s0.trace ++ added
      ∧ trace_gets added = trace_puts added ++ held_ids x
      ∧ (trace_gets added).Pairwise (fun a b => a < b)
      ∧ (∀ c, x = .entry c → ∀ g ∈ trace_gets added, g ≤ c)
      ∧ (x = .SEQ_START_TOKEN → trace_gets added = [])

/-! ## Rows of the listing -/

/-- Sample values for the declarations of `kgsl_h`, in the layout of
msm_kgsl.h: flag bits, shifts and masks of a memory descriptor. -/
def sample_kgsl_h : kgsl_h where
  KGSL_MEMFLAGS_SPARSE_VIRT := 0x40000000
  KGSL_MEMFLAGS_SPARSE_PHYS := 0x20000000
  KGSL_MEMFLAGS_GPUREADONLY := 0x01000000
  KGSL_MEM_ENTRY_ION := 3
  KGSL_MEM_TYPES := [⟨0, "gpumem"⟩, ⟨1, "usermem"⟩, ⟨3, "ion"⟩]
  kgsl_memdesc_is_global := fun m => m.priv &&& 0x1 != 0
  kgsl_memdesc_is_secured := fun m => m.priv &&& 0x10 != 0
  kgsl_memdesc_use_cpu_map := fun m => m.flags &&& 0x10000000 != 0
  kgsl_memdesc_get_align := fun m => Int.ofNat ((m.flags &&& 0x00FF0000) >>> 16)
  kgsl_memdesc_get_cachemode := fun m =>
    match (m.flags &&& 0x0C000000) >>> 26 with
    | 0 => .KGSL_CACHEMODE_WRITECOMBINE
    | 1 => .KGSL_CACHEMODE_UNCACHED
    | 2 => .KGSL_CACHEMODE_WRITETHROUGH
    | _ => .KGSL_CACHEMODE_WRITEBACK
  kgsl_memdesc_usermem_type := fun m => (m.flags &&& 0xe0) >>> 5
  kgsl_get_memory_usage := fun _ _ => "any(0)"
  kgsl_get_egl_counts := fun _ => (0, 0)
  pointer_pK := fun n =>
    String.mk (List.replicate (16 - (Nat.toDigits 16 n).length) '0' ++ Nat.toDigits 16 n)

/-- An entry that is a sparse-virtual reservation and carries other flags,
metadata and mappings as well. -/
def sparse_virt_entry : kgsl_mem_entry :=
  { refcount := 1,
    memdesc := { gpuaddr := 0x2000, size := 8192, flags := 0x40000000 ||| 0x01000000 ||| 0x60,
                 priv := 0x11, sgt := some { nents := 2 } },
    id := 5, metadata := "reserved", map_count := 1 }

/-- The entries of the idr that are not sparse-virtual reservations. -/
def visible_entries (h : kgsl_h) (idr : List kgsl_mem_entry) : List kgsl_mem_entry :=
  idr.filter (fun e => decide (e.memdesc.flags &&& h.KGSL_MEMFLAGS_SPARSE_VIRT = 0))

/-- The text that `print_mem_entry` writes for an entry while the session holds
its reference. -/
def held_row (h : kgsl_h) (e : kgsl_mem_entry) : String :=
  (print_mem_entry h "" { e with refcount := e.refcount + 1 }).1

/-- A process whose registry holds a plain entry 2, the sparse-virtual
reservation 5 and a plain entry 7. -/
def proc_sparse : kgsl_process_private :=
  { refcount := 1, pid := 42,
    mem_idr := [plain_entry 2 1, sparse_virt_entry, plain_entry 7 1], trace := [] }

/-- The rows of a listing one after the other. -/
def concat_rows : List String → String
  | [] => ""
  | r :: rs => r ++ concat_rows rs

/-! ## The reference count of a process context -/

/-- The reference count of the process context that the pointer `pid`
designates in the driver's process list, if there is one. -/
def proc_refcount (drv : kgsl_driver) (pid : Int) : Option Nat :=
  (drv.process_list.find? (fun p => decide (p.pid = pid))).map (fun p => p.refcount)

/-- Other holders of the context release `k` of their references. -/
def others_put (pid : Int) : Nat → kgsl_driver → kgsl_driver
  | 0, drv => drv
  | k + 1, drv => others_put pid k (kgsl_process_private_put drv pid)

/-- A driver with the process 42 (one reference, the registry 2, 5, 7) and a
process 9 that has released its last reference. -/
def sample_driver : kgsl_driver :=
  { process_list := [proc_2_5_7, { proc_2_5_7 with pid := 9, refcount := 0 }] }

/-- A file on which nothing is installed yet. -/
def fresh_file : file := { private_data := none, seq_open_calls := 0 }

/-! ## Sessions over a registry that other users change -/

/-- How the seq_file core obtains the next position of a session: by
`process_mem_seq_next` within the read pass, or, after `process_mem_seq_stop`,
by `process_mem_seq_start` of a new read pass. -/
inductive seq_request where
  | next
  | restart
deriving DecidableEq, Repr

/-- Modelled from the spec: one request of a session that holds the value `x`
at position `pos`: the new process, the value returned and the new position. -/
def session_step (s : kgsl_process_private) (x : seq_ptr) (pos : Int) (rq : seq_request) :
    Option (kgsl_process_private × seq_ptr × Int) :=
  match rq with
  | .next => process_mem_seq_next s x pos
  | .restart =>
    match process_mem_seq_start (process_mem_seq_stop s x) (pos + 1) with
    | none => none
    | some (s1, y) => some (s1, y, pos + 1)

/-- Modelled from the spec: a session interleaved with the other users of the
process: before each request the registry is what the insertions and removals of
the others have made of it (the first component of the step).  The seq_file core
makes no call of `process_mem_seq_next` on end-of-sequence; such a request is
passed over.  The result lists the values returned, in order. -/
def session_run :
    kgsl_process_private → seq_ptr → Int → List (List kgsl_mem_entry × seq_request) →
      Option (List seq_ptr)
  | _, _, _, [] => some []
  | s, x, pos, (idr, rq) :: rest =>
    if rq = .next ∧ x = .NULL then session_run s x pos rest
    else
      match session_step { s with mem_idr := idr } x pos rq with
      | none => none
      | some (s1, y, pos1) =>
        match session_run s1 y pos1 rest with
        | none => none
        | some vals => some (y :: vals)

/-- The ids of the entries among the values returned to a session, in order. -/
def returned_ids (vals : List seq_ptr) : List Int :=
  vals.flatMap held_ids

/-- The last id returned to the session, after the value `y` is returned. -/
def last_after (last : Option Int) : seq_ptr → Option Int
  | .entry d => some d
  | _ => last

/-- At most `pos` entries of the registry have an id less than or equal to the
last id returned to the session, if there is one. -/
def at_most_below (last : Option Int) (idr : List kgsl_mem_entry) (pos : Int) : Prop :=
  match last with
  | some l => ((idr.filter (fun e => decide (e.id ≤ l))).length : Int) ≤ pos
  | none => True

instance (last : Option Int) (idr : List kgsl_mem_entry) (pos : Int) :
    Decidable (at_most_below last idr pos) := by
  cases last <;> unfold at_most_below <;> infer_instance

/-- The registries that a session meets are well-formed, and whenever a
position is obtained by `process_mem_seq_start` after a stop at position `pos`,
at most `pos` entries of the registry have an id less than or equal to the last
id returned to the session (`last`). -/
def restarts_above :
    Option Int → kgsl_process_private → seq_ptr → Int →
      List (List kgsl_mem_entry × seq_request) → Prop
  | _, _, _, _, [] => True
  | last, s, x, pos, (idr, rq) :: rest =>
    if rq = .next ∧ x = .NULL then restarts_above last s x pos rest
    else
      idr_wf idr
      ∧ (rq = .restart → at_most_below last idr pos)
      ∧ match session_step { s with mem_idr := idr } x pos rq with
        | none => True
        | some (s1, y, pos1) => restarts_above (last_after last y) s1 y pos1 rest

/-- Whether a session meets the condition `restarts_above` can be computed. -/
def restarts_above_dec :
    (steps : List (List kgsl_mem_entry × seq_request)) → (last : Option Int) →
      (s : kgsl_process_private) → (x : seq_ptr) → (pos : Int) →
      Decidable (restarts_above last s x pos steps)
  | [], _, _, _, _ => isTrue (by simp [restarts_above])
  | (idr, rq) :: rest, last, s, x, pos =>
    if hskip : rq = .next ∧ x = .NULL then
      match restarts_above_dec rest last s x pos with
      | isTrue h => isTrue (by rw [restarts_above, if_pos hskip]; exact h)
      | isFalse h => isFalse (by rw [restarts_above, if_pos hskip]; exact h)
    else
      if hwf : idr_wf idr then
        if hc : rq = .restart → at_most_below last idr pos then
          match hstep : session_step { s with mem_idr := idr } x pos rq with
          | none => isTrue (by
              rw [restarts_above, if_neg hskip, hstep]; exact ⟨hwf, hc, trivial⟩)
          | some (s1, y, pos1) =>
            match restarts_above_dec rest (last_after last y) s1 y pos1 with
            | isTrue h => isTrue (by
                rw [restarts_above, if_neg hskip, hstep]; exact ⟨hwf, hc, h⟩)
            | isFalse h => isFalse (by
                rw [restarts_above, if_neg hskip, hstep]; exact fun hh => h hh.2.2)
        else isFalse (by rw [restarts_above, if_neg hskip]; exact fun hh => hc hh.2.1)
      else isFalse (by rw [restarts_above, if_neg hskip]; exact fun hh => hwf hh.1)

instance (steps : List (List kgsl_mem_entry × seq_request)) (last : Option Int)
    (s : kgsl_process_private) (x : seq_ptr) (pos : Int) :
    Decidable (restarts_above last s x pos steps) :=
  restarts_above_dec steps last s x pos

/-- The registry 2, 5, 7 while the session holds entry 2. -/
def idr_hold_2 : List kgsl_mem_entry := [plain_entry 2 2, plain_entry 5 1, plain_entry 7 1]

/-- The registry 2, 5, 7 while the session holds entry 5. -/
def idr_hold_5 : List kgsl_mem_entry := [plain_entry 2 1, plain_entry 5 2, plain_entry 7 1]

/-- The registry while the session holds entry 5, after another user has
inserted an entry with the id 1. -/
def idr_hold_5_inserted_1 : List kgsl_mem_entry :=
  [plain_entry 1 1, plain_entry 2 1, plain_entry 5 2, plain_entry 7 1]

/-- The registry 1, 2, 5, 7, in which the entry 1 is about to be removed. -/
def idr_with_1 : List kgsl_mem_entry :=
  [plain_entry 1 1, plain_entry 2 1, plain_entry 5 1, plain_entry 7 1]

/-! ## Fields of a row -/

/-- The fields that `print_mem_entry` prints with its first `seq_printf`, in
order. -/
def row_fields (h : kgsl_h) (entry : kgsl_mem_entry) : List String :=
  let m := entry.memdesc
  let egl : Int × Int :=
    if h.kgsl_memdesc_usermem_type m = h.KGSL_MEM_ENTRY_ION then h.kgsl_get_egl_counts entry
    else (0, 0)
  [h.pointer_pK m.gpuaddr, h.pointer_pK 0, fmt_llu 16 m.size, fmt_d 5 entry.id,
   fmt_s 9 (mem_entry_flags h entry),
   fmt_s 10 (memtype_str h (wrap_int (h.kgsl_memdesc_usermem_type m))),
   fmt_s 16 (h.kgsl_get_memory_usage 16 m.flags),
   fmt_d 5 (wrap_int (match m.sgt with | some t => t.nents | none => 0)),
   fmt_d 16 entry.map_count, fmt_d 6 egl.1, fmt_d 6 egl.2]

/-- Fields separated by single spaces. -/
def join_spaces : List String → String
  | [] => ""
  | [a] => a
  | a :: b :: rest => a ++ " " ++ join_spaces (b :: rest)

/-- An entry that is global, writable, aligned to 2 MiB, writeback-cached,
cpu-map-preferring, mapped twice, secured, and neither sparse-physical nor
sparse-virtual, in the layout of `sample_kgsl_h`. -/
def flag_sample_entry : kgsl_mem_entry :=
  { refcount := 1,
    memdesc := { gpuaddr := 0x3000, size := 2097152,
                 flags := 0x10000000 ||| 0x0C000000 ||| 0x00150000,
                 priv := 0x11, sgt := some { nents := 3 } },
    id := 4, metadata := "", map_count := 2 }

/-- The entry `flag_sample_entry` with a map count of -1. -/
def negative_map_entry : kgsl_mem_entry :=
  { flag_sample_entry with map_count := -1 }

/-- Splitting of a text on blanks, tabs and newlines: `cur` holds the
characters of the word being read. -/
def split_ws_loop : List Char → List Char → List String
  | [], cur => if cur = [] then [] else [String.mk cur]
  | c :: rest, cur =>
    if c = ' ' ∨ c = '\n' ∨ c = '\t' then
      (if cur = [] then split_ws_loop rest [] else String.mk cur :: split_ws_loop rest [])
    else split_ws_loop rest (cur ++ [c])

/-- The words of a text, split on whitespace. -/
def split_ws (s : String) : List String := split_ws_loop s.data []

/-- The column labels of the listing, in order. -/
def mem_header_labels : List String :=
  ["gpuaddr", "useraddr", "size", "id", "flags", "type", "usage", "sglen", "mapcount",
   "eglsrf", "eglimg"]

/-- The scatter-gather segment count that `print_mem_entry` passes for `%d`. -/
def sglen (m : kgsl_memdesc) : Int :=
  wrap_int (match m.sgt with | some t => t.nents | none => 0)

/-- The egl counts that `print_mem_entry` prints: those of the collaborator for
the ION allocator kind, zero otherwise. -/
def egl_counts (h : kgsl_h) (entry : kgsl_mem_entry) : Int × Int :=
  if h.kgsl_memdesc_usermem_type entry.memdesc = h.KGSL_MEM_ENTRY_ION then
    h.kgsl_get_egl_counts entry
  else (0, 0)

/-- The loop of `memtype_str` with the index `i` and the array access
`memtypes[i]` spelled out: an access outside the table is undefined (`none`).
`fuel` bounds the number of iterations. -/
def memtype_str_by_index (table : List type_entry) (memtype : Int) : Nat → Nat → Option String
  | 0, _ => none
  | fuel + 1, i =>
    if i < table.length then
      match table[i]? with
      | none => none
      | some t => if t.type = memtype then some t.str else memtype_str_by_index table memtype fuel (i + 1)
    else some "unknown"

/-- A process whose registry holds the entries 2, 5 and 7, where entry 5 has
released its last reference and awaits destruction. -/
def proc_dying_5 : kgsl_process_private :=
  { refcount := 1, pid := 42,
    mem_idr := [plain_entry 2 1, plain_entry 5 0, plain_entry 7 1], trace := [] }

/-- How many times the registry lock is held at the end of a trace: the locks
less the unlocks. -/
def lock_depth : List kgsl_event → Int
  | [] => 0
  | .spin_lock :: rest => lock_depth rest + 1
  | .spin_unlock :: rest => lock_depth rest - 1
  | _ :: rest => lock_depth rest

/-- An event of the forward scan: a lookup in the idr or a reference
acquisition. -/
def scan_event : kgsl_event → Prop
  | .idr_get_next _ => True
  | .kgsl_mem_entry_get _ _ => True
  | _ => False

instance (ev : kgsl_event) : Decidable (scan_event ev) := by
  cases ev <;> unfold scan_event <;> infer_instance

/-! ## The iterations of the scan -/

/-- The `for` loop of `process_mem_seq_find` once more, step for step as
`process_mem_seq_find_loop`, with the value of `id` at each iteration of its
body (the id of the entry that the lookup found) listed instead of the result. -/
def process_mem_seq_find_iterations (pos : Int) :
    Nat → kgsl_process_private → Option kgsl_mem_entry → Int → Option (List Int)
  | 0, _, _, _ => none
  | _ + 1, _, none, _ => some []
  | fuel + 1, s, some entry, temp_pos =>
    let hit : kgsl_process_private × Bool :=
      if temp_pos = pos then kgsl_mem_entry_get s entry else (s, false)
    if hit.2 then
      some [entry.id]
    else
      let id := wrap_int (entry.id + 1)
      let nxt := idr_get_next hit.1 id
      match process_mem_seq_find_iterations pos fuel nxt.1 nxt.2 (temp_pos + 1) with
      | none => none
      | some ids => some (entry.id :: ids)

/-- The iterations of the loop in a call `process_mem_seq_find(s, ptr, pos)`,
with the fuel that `process_mem_seq_find` gives its loop. -/
def find_iterations (s : kgsl_process_private) (ptr : seq_ptr) (pos : Int) :
    Option (List Int) :=
  match ptr with
  | .NULL => none
  | .SEQ_START_TOKEN =>
    let fst := idr_get_next (spin_lock s) 0
    process_mem_seq_find_iterations pos (s.mem_idr.length + 1) fst.1 fst.2 1
  | .entry eid =>
    let fst := idr_get_next (spin_lock s) (wrap_int (eid + 1))
    process_mem_seq_find_iterations pos (s.mem_idr.length + 1) fst.1 fst.2 1

/-- The ids of the slots of `l` that a scan goes through before it stops. -/
def scan_visits (pos : Int) : List kgsl_mem_entry → Int → List Int
  | [], _ => []
  | e :: rest, temp_pos =>
    if temp_pos = pos ∧ e.refcount ≠ 0 then [e.id] else e.id :: scan_visits pos rest (temp_pos + 1)

/-! ## kgsl_process_init_debugfs -/

/-- Modelled from the spec: what a debugfs creation call returns: a node, NULL,
or an error pointer. -/
inductive dentry_ptr where
  | dentry (node : Nat)
  | NULL
  | ERR_PTR (err : Int)
deriving DecidableEq, Repr

/-- The kernel's `IS_ERR_OR_NULL`. -/
def IS_ERR_OR_NULL : dentry_ptr → Bool
  | .dentry _ => false
  | _ => true

/-- One call of `debugfs_create_file`: name, mode, parent directory and the
data pointer. -/
structure debugfs_file_call where
  name : String
  mode : Nat
  parent : dentry_ptr
  data : Int
deriving DecidableEq, Repr

/-- What `kgsl_process_init_debugfs` touches: `private->debug_root`, and the
record of the directories and files asked of debugfs and of the warnings
printed. -/
structure debugfs_state where
  debug_root : dentry_ptr
  dir_calls : List String
  file_calls : List debugfs_file_call
  warnings : List String
deriving DecidableEq, Repr

/-- The kernel's `WARN(condition, message)`: prints the message when the
condition holds. -/
def WARN (st : debugfs_state) (condition : Bool) (message : String) : debugfs_state :=
  if condition then { st with warnings := st.warnings ++ [message] } else st

/-- Function `kgsl_process_init_debugfs(private)`: `pid` is `pid_nr(private->pid)`,
and `dir_ret`, `mem_ret`, `sparse_ret` are what `debugfs_create_dir` and the two
calls of `debugfs_create_file` return when they are made.  The name is printed
with `%d` into 16 bytes.  The function returns nothing. -/
def kgsl_process_init_debugfs (pid : Int) (st : debugfs_state)
    (dir_ret mem_ret sparse_ret : dentry_ptr) : debugfs_state :=
  let name := String.mk ((toString pid).data.take 15)
  let st1 : debugfs_state :=
    { st with debug_root := dir_ret, dir_calls := st.dir_calls ++ [name] }
  if IS_ERR_OR_NULL st1.debug_root then
    { st1 with debug_root := .NULL }
  else
    let st2 : debugfs_state :=
      { st1 with file_calls := st1.file_calls ++ [⟨"mem", 0o444, st1.debug_root, pid⟩] }
    let st3 :=
      if IS_ERR_OR_NULL mem_ret then
        WARN st2 (decide (mem_ret = .NULL)) ("Unable to create 'mem' file for " ++ name ++ "\n")
      else st2
    let st4 : debugfs_state :=
      { st3 with file_calls :=
          st3.file_calls ++ [⟨"sparse_mem", 0o444, st3.debug_root, pid⟩] }
    if IS_ERR_OR_NULL sparse_ret then
      WARN st4 (decide (sparse_ret = .NULL))
        ("Unable to create 'sparse_mem' file for " ++ name ++ "\n")
    else st4

/-- The state before anything was asked of debugfs. -/
def debugfs_init : debugfs_state :=
  { debug_root := .NULL, dir_calls := [], file_calls := [], warnings := [] }

/-! ## A complete listing through the file operations -/

/-- The process context that the pointer `priv` designates in the driver's
process list. -/
def process_deref (drv : kgsl_driver) (priv : Int) : Option kgsl_process_private :=
  drv.process_list.find? (fun p => decide (p.pid = priv))

/-- Writes the process context `q` back through its pointer: the first context
of the list with the pid of `q` becomes `q`. -/
def process_store_loop :
    List kgsl_process_private → kgsl_process_private → List kgsl_process_private
  | [], _ => []
  | p :: rest, q => if p.pid = q.pid then q :: rest else p :: process_store_loop rest q

/-- The driver after the process context `q` was written back. -/
def process_store (drv : kgsl_driver) (q : kgsl_process_private) : kgsl_driver :=
  { process_list := process_store_loop drv.process_list q }

/-- The registries of the driver: for every process context its pid, its
reference count and its idr with the entries, their ids, attributes and
reference counts (everything but the event traces). -/
def driver_registries (drv : kgsl_driver) : List (Int × Nat × List kgsl_mem_entry) :=
  drv.process_list.map (fun p => (p.pid, p.refcount, p.mem_idr))

/-- Modelled from the spec: a complete listing by a reader of the file:
`process_mem_open` (with `seq_open` succeeding), the complete read pass
`seq_listing` on the process context installed as `s->private`, and
`process_mem_release`.  The result is the driver and the file after the listing
and the text read; `none` when the open fails or a step is undefined. -/
def complete_listing (h : kgsl_h) (drv : kgsl_driver) (i_private : Nat) (f : file) :
    Option (kgsl_driver × file × String) :=
  let opened := process_mem_open drv i_private f 0
  if opened.2.2 ≠ 0 then none
  else
    match opened.2.1.private_data with
    | none => none
    | some sf =>
      match sf.private_ with
      | none => none
      | some priv =>
        match process_deref opened.1 priv with
        | none => none
        | some p =>
          match seq_listing h p with
          | none => none
          | some (p1, out) =>
            match process_mem_release (process_store opened.1 p1) opened.2.1 with
            | none => none
            | some (drv1, f1, _) => some (drv1, f1, out)

/-- A driver whose only process is `proc_sparse` (pid 42, one reference, a plain
entry 2, a sparse-virtual entry 5, a plain entry 7). -/
def sparse_driver : kgsl_driver := { process_list := [proc_sparse] }

/-! # Theorems -/

/-! ## The scan in closed form -/

theorem wrap_int_succ (x : Int) (h0 : 0 ≤ x) (h1 : x < 2147483647) :
    wrap_int (x + 1) = x + 1 := by
  unfold wrap_int; omega

theorem wrap_int_max : wrap_int (2147483647 + 1) < 0 := by decide

theorem idr_wf_mem {idr : List kgsl_mem_entry} (h : idr_wf idr) {e : kgsl_mem_entry}
    (he : e ∈ idr) : 0 ≤ e.id ∧ e.id ≤ 2147483647 := h.2 e he

/-- The lookup that follows the slot `e` finds the slot right after it. -/
theorem idr_next_after (pre rest : List kgsl_mem_entry) (e : kgsl_mem_entry)
    (h : idr_wf (pre ++ e :: rest)) :
    (if wrap_int (e.id + 1) < 0 then none
      else (pre ++ e :: rest).find? (fun x => decide (wrap_int (e.id + 1) ≤ x.id)))
      = rest.head? := by
  have hb := h.2 e (by simp)
  have hs := h.1
  rw [List.pairwise_append] at hs
  obtain ⟨_, hs2, hs3⟩ := hs
  rw [List.pairwise_cons] at hs2
  by_cases hmax : e.id = 2147483647
  · have hw : wrap_int (e.id + 1) < 0 := by rw [hmax]; exact wrap_int_max
    rw [if_pos hw]
    cases rest with
    | nil => rfl
    | cons x t =>
      have h1 := hs2.1 x (by simp)
      have h2 := h.2 x (by simp)
      omega
  · have hw : wrap_int (e.id + 1) = e.id + 1 := wrap_int_succ _ hb.1 (by omega)
    rw [hw, if_neg (by omega)]
    rw [List.find?_append]
    have hpre : pre.find? (fun x => decide (e.id + 1 ≤ x.id)) = none := by
      rw [List.find?_eq_none]
      intro x hx
      have := hs3 x hx e (by simp)
      simp; omega
    rw [hpre]
    simp only [Option.none_or]
    rw [List.find?_cons_of_neg _ (by simp)]
    cases rest with
    | nil => rfl
    | cons x t =>
      have h1 := hs2.1 x (by simp)
      rw [List.find?_cons_of_pos _ (by simp; omega)]
      rfl

/-- The loop of `process_mem_seq_find` over a well-formed idr, when entered at
the slots `suf`: result and final state in closed form. -/
theorem find_loop_eq (pos : Int) (suf : List kgsl_mem_entry) :
    ∀ (pre : List kgsl_mem_entry) (fuel : Nat) (s : kgsl_process_private) (tp : Int),
      s.mem_idr = pre ++ suf → idr_wf s.mem_idr → suf.length < fuel →
      process_mem_seq_find_loop pos fuel s suf.head? tp
        = some ({ s with mem_idr := idr_after s.mem_idr (scan_pick pos suf tp),
                         trace := s.trace ++ scan_trace pos suf tp },
                ptr_of (scan_pick pos suf tp)) := by
  induction suf with
  | nil =>
    intro pre fuel s tp _ _ hf
    obtain ⟨f, rfl⟩ : ∃ f, fuel = f + 1 := ⟨fuel - 1, by simp at hf; omega⟩
    rfl
  | cons e rest ih =>
    intro pre fuel s tp hs hwf hf
    obtain ⟨f, rfl⟩ : ∃ f, fuel = f + 1 := ⟨fuel - 1, by simp at hf; omega⟩
    have hf2 : rest.length < f := by simp at hf; omega
    have hnext := idr_next_after pre rest e (hs ▸ hwf)
    rw [← hs] at hnext
    simp only [List.head?_cons, process_mem_seq_find_loop]
    by_cases htp : tp = pos
    · by_cases hrc : e.refcount = 0
      · have ih2 := ih (pre ++ [e]) f
          { s with trace := s.trace ++
              [.kgsl_mem_entry_get e.id false, .idr_get_next (wrap_int (e.id + 1))] }
          (tp + 1) (by simp [hs]) hwf hf2
        simp only [htp, hrc, kgsl_mem_entry_get, scan_pick, scan_trace, idr_get_next, record,
          if_true, List.append_assoc, List.singleton_append, hnext]
        simp only [htp] at ih2
        simp [ih2]
      · simp [htp, hrc, kgsl_mem_entry_get, scan_pick, scan_trace, spin_unlock, record,
          ptr_of, idr_after, idr_acquire]
    · have ih2 := ih (pre ++ [e]) f
          { s with trace := s.trace ++ [.idr_get_next (wrap_int (e.id + 1))] }
          (tp + 1) (by simp [hs]) hwf hf2
      simp only [htp, scan_pick, scan_trace, idr_get_next, record, if_false, hnext]
      simp [ih2]

theorem find_dropWhile (idr : List kgsl_mem_entry) (id : Int) :
    idr.find? (fun e => decide (id ≤ e.id))
      = (idr.dropWhile (fun e => decide (e.id < id))).head? := by
  induction idr with
  | nil => rfl
  | cons a t ih =>
    by_cases h : id ≤ a.id
    · rw [List.find?_cons_of_pos _ (by simpa using h),
        List.dropWhile_cons_of_neg (by simp; omega)]
      rfl
    · rw [List.find?_cons_of_neg _ (by simpa using h),
        List.dropWhile_cons_of_pos (by simp; omega)]
      exact ih

theorem idr_get_next_eq (s : kgsl_process_private) (id : Int) :
    (idr_get_next s id).2 = (idr_from s.mem_idr id).head? := by
  unfold idr_get_next idr_from
  by_cases h : id < 0
  · simp [h]
  · simp only [h, if_false]
    exact find_dropWhile _ _

theorem idr_from_split (idr : List kgsl_mem_entry) (id : Int) :
    ∃ pre, idr = pre ++ idr_from idr id := by
  unfold idr_from
  by_cases h : id < 0
  · exact ⟨idr, by simp [h]⟩
  · exact ⟨idr.takeWhile (fun e => decide (e.id < id)), by simp [h]⟩

theorem idr_from_length (idr : List kgsl_mem_entry) (id : Int) :
    (idr_from idr id).length ≤ idr.length := by
  obtain ⟨pre, h⟩ := idr_from_split idr id
  have := congrArg List.length h
  simp at this
  omega

/-- Closed form of `process_mem_seq_find` on a well-formed idr: it returns, and
what it returns is the pick of the scan over the slots from the cursor on. -/
theorem find_eq (s : kgsl_process_private) (ptr : seq_ptr) (pos : Int)
    (hwf : idr_wf s.mem_idr) (hptr : ptr ≠ .NULL) :
    process_mem_seq_find s ptr pos
      = some (find_state s ptr pos,
              ptr_of (scan_pick pos (idr_from s.mem_idr (scan_start ptr)) 1)) := by
  have key : ∀ id : Int,
      process_mem_seq_find_loop pos (s.mem_idr.length + 1) (idr_get_next (spin_lock s) id).1
          (idr_get_next (spin_lock s) id).2 1
        = some ({ s with
            mem_idr := idr_after s.mem_idr (scan_pick pos (idr_from s.mem_idr id) 1),
            trace := s.trace ++ ([.spin_lock, .idr_get_next id]
              ++ scan_trace pos (idr_from s.mem_idr id) 1) },
          ptr_of (scan_pick pos (idr_from s.mem_idr id) 1)) := by
    intro id
    obtain ⟨pre, hpre⟩ := idr_from_split s.mem_idr id
    have hlen := idr_from_length s.mem_idr id
    rw [idr_get_next_eq]
    have := find_loop_eq pos (idr_from s.mem_idr id) pre (s.mem_idr.length + 1)
      (idr_get_next (spin_lock s) id).1 1 (by simpa [idr_get_next, spin_lock, record] using hpre)
      (by simpa [idr_get_next, spin_lock, record] using hwf) (by omega)
    simp only [spin_lock, record, idr_get_next] at this ⊢
    rw [this]
    simp
  cases ptr with
  | NULL => exact absurd rfl hptr
  | SEQ_START_TOKEN =>
    simp only [process_mem_seq_find, key 0, find_state, scan_start]
  | entry c =>
    simp only [process_mem_seq_find, key (wrap_int (c + 1)), find_state, scan_start]

/-! ## Which slot a scan picks -/

theorem scan_pick_at (pos : Int) (e : kgsl_mem_entry) (he : e.refcount ≠ 0) :
    ∀ (l : List kgsl_mem_entry) (tp : Int) (i : Nat),
      l[i]? = some e → pos = tp + i → scan_pick pos l tp = some e := by
  intro l
  induction l with
  | nil => intro tp i h; simp at h
  | cons a t ih =>
    intro tp i h hp
    cases i with
    | zero =>
      simp at h
      subst h
      simp [scan_pick, hp, he]
    | succ j =>
      simp at h
      have hne : ¬ (tp = pos) := by push_cast at hp; omega
      simp only [scan_pick, hne, false_and, if_false]
      exact ih (tp + 1) j h (by push_cast at hp ⊢; omega)

theorem scan_pick_none_of_lt (pos : Int) :
    ∀ (l : List kgsl_mem_entry) (tp : Int), pos < tp → scan_pick pos l tp = none := by
  intro l
  induction l with
  | nil => intro tp _; rfl
  | cons a t ih =>
    intro tp h
    have hne : ¬ (tp = pos) := by omega
    simp only [scan_pick, hne, false_and, if_false]
    exact ih (tp + 1) (by omega)

theorem scan_pick_none_of_ge (pos : Int) :
    ∀ (l : List kgsl_mem_entry) (tp : Int), tp + l.length ≤ pos → scan_pick pos l tp = none := by
  intro l
  induction l with
  | nil => intro tp _; rfl
  | cons a t ih =>
    intro tp h
    simp only [List.length_cons] at h
    push_cast at h
    have hne : ¬ (tp = pos) := by omega
    simp only [scan_pick, hne, false_and, if_false]
    exact ih (tp + 1) (by omega)

theorem idr_from_zero (idr : List kgsl_mem_entry) (hwf : idr_wf idr) : idr_from idr 0 = idr := by
  unfold idr_from
  simp only [lt_irrefl, if_false]
  cases idr with
  | nil => rfl
  | cons a t =>
    have := hwf.2 a (by simp)
    rw [List.dropWhile_cons_of_neg (by simp; omega)]

theorem deref_of_mem (s : kgsl_process_private) (hwf : idr_wf s.mem_idr) (e : kgsl_mem_entry)
    (he : e ∈ s.mem_idr) : mem_entry_deref s e.id = some e := by
  unfold mem_entry_deref
  have hp := hwf.1
  generalize s.mem_idr = l at he hp
  induction l with
  | nil => simp at he
  | cons a t ih =>
    rw [List.pairwise_cons] at hp
    by_cases h : a = e
    · subst h; simp
    · have het : e ∈ t := by
        rcases List.mem_cons.1 he with h1 | h1
        · exact absurd h1.symm h
        · exact h1
      have := hp.1 e het
      rw [List.find?_cons_of_neg _ (by simp; omega)]
      exact ih het hp.2

/-! ## C1 -/

/-- Claim C1: on a registry whose entries e_1 < ... < e_n (in id order) are all
acquirable, `process_mem_seq_start` returns the header token at position 0, the
entry e_p at every position 1 ≤ p ≤ n (a pointer that designates e_p in the
registry), and end-of-sequence at every position p > n. -/
theorem start_positions (s : kgsl_process_private) (hwf : idr_wf s.mem_idr)
    (hacq : ∀ e ∈ s.mem_idr, e.refcount ≠ 0) :
    process_mem_seq_start s 0 = some (s, .SEQ_START_TOKEN)
    ∧ (∀ (i : Nat) (hi : i < s.mem_idr.length),
        (∃ s1, process_mem_seq_start s ((i : Int) + 1)
            = some (s1, .entry (s.mem_idr.get ⟨i, hi⟩).id))
        ∧ mem_entry_deref s (s.mem_idr.get ⟨i, hi⟩).id = some (s.mem_idr.get ⟨i, hi⟩))
    ∧ (∀ p : Int, (s.mem_idr.length : Int) < p →
        ∃ s1, process_mem_seq_start s p = some (s1, .NULL)) := by
  refine ⟨rfl, ?_, ?_⟩
  · intro i hi
    refine ⟨⟨find_state s .SEQ_START_TOKEN ((i : Int) + 1), ?_⟩,
      deref_of_mem s hwf _ (List.get_mem _ _ _)⟩
    have hne : ¬ ((i : Int) + 1 = 0) := by omega
    rw [process_mem_seq_start, if_neg hne, find_eq s _ _ hwf (by simp)]
    simp only [scan_start, idr_from_zero _ hwf]
    rw [scan_pick_at ((i : Int) + 1) (s.mem_idr.get ⟨i, hi⟩)
      (hacq _ (List.get_mem _ _ _)) s.mem_idr 1 i (by simp [List.getElem?_eq_getElem hi])
      (by omega)]
    rfl
  · intro p hp
    refine ⟨find_state s .SEQ_START_TOKEN p, ?_⟩
    have hne : ¬ (p = 0) := by omega
    rw [process_mem_seq_start, if_neg hne, find_eq s _ _ hwf (by simp)]
    simp only [scan_start, idr_from_zero _ hwf]
    rw [scan_pick_none_of_ge p s.mem_idr 1 (by omega)]
    rfl

/-- Claim C1 at the registry with the ids 2, 5 and 7: positions 0, 1, 2, 3 give
the header, entry 2, entry 5 and entry 7, and position 4 gives end-of-sequence. -/
theorem start_positions_2_5_7 :
    idr_wf proc_2_5_7.mem_idr ∧ (∀ e ∈ proc_2_5_7.mem_idr, e.refcount ≠ 0)
    ∧ process_mem_seq_start proc_2_5_7 0 = some (proc_2_5_7, .SEQ_START_TOKEN)
    ∧ (∃ s1, process_mem_seq_start proc_2_5_7 1 = some (s1, .entry 2))
    ∧ (∃ s1, process_mem_seq_start proc_2_5_7 2 = some (s1, .entry 5))
    ∧ (∃ s1, process_mem_seq_start proc_2_5_7 3 = some (s1, .entry 7))
    ∧ (∃ s1, process_mem_seq_start proc_2_5_7 4 = some (s1, .NULL)) :=
  have h := start_positions proc_2_5_7 (by decide) (by decide)
  ⟨by decide, by decide, h.1, (h.2.1 0 (by decide)).1, (h.2.1 1 (by decide)).1,
    (h.2.1 2 (by decide)).1, h.2.2 4 (by decide)⟩

/-! ## The slots from a cursor on -/

theorem dropWhile_eq_filter (idr : List kgsl_mem_entry)
    (hs : idr.Pairwise (fun a b => a.id < b.id)) (x : Int) :
    idr.dropWhile (fun e => decide (e.id < x)) = idr.filter (fun e => decide (x ≤ e.id)) := by
  induction idr with
  | nil => rfl
  | cons a t ih =>
    rw [List.pairwise_cons] at hs
    by_cases h : a.id < x
    · rw [List.dropWhile_cons_of_pos (by simpa using h), List.filter_cons_of_neg (by simp; omega)]
      exact ih hs.2
    · rw [List.dropWhile_cons_of_neg (by simpa using h), List.filter_cons_of_pos (by simp; omega)]
      congr 1
      symm
      rw [List.filter_eq_self]
      intro b hb
      have := hs.1 b hb
      simp; omega

theorem idr_from_eq_at_least (idr : List kgsl_mem_entry) (hwf : idr_wf idr) (ptr : seq_ptr)
    (hc : cursor_wf ptr) :
    idr_from idr (scan_start ptr) = idr_at_least idr (cursor_lower_bound ptr) := by
  cases ptr with
  | NULL => exact absurd hc (by simp [cursor_wf])
  | SEQ_START_TOKEN =>
    simp only [scan_start, cursor_lower_bound, idr_from, lt_irrefl, if_false, idr_at_least]
    exact dropWhile_eq_filter idr hwf.1 0
  | entry c =>
    simp only [cursor_wf] at hc
    simp only [scan_start, cursor_lower_bound, idr_from, idr_at_least]
    by_cases hmax : c = 2147483647
    · have hw : wrap_int (c + 1) < 0 := by rw [hmax]; exact wrap_int_max
      rw [if_pos hw]
      symm
      rw [List.filter_eq_nil_iff]
      intro a ha
      have := hwf.2 a ha
      simp; omega
    · have hw : wrap_int (c + 1) = c + 1 := wrap_int_succ _ hc.1 (by omega)
      simp only [hw]
      rw [if_neg (by omega)]
      exact dropWhile_eq_filter idr hwf.1 (c + 1)

theorem idr_id_inj (idr : List kgsl_mem_entry) (hwf : idr_wf idr) (a b : kgsl_mem_entry)
    (ha : a ∈ idr) (hb : b ∈ idr) (h : a.id = b.id) : a = b := by
  have h1 := deref_of_mem ⟨0, 0, idr, []⟩ hwf a ha
  have h2 := deref_of_mem ⟨0, 0, idr, []⟩ hwf b hb
  rw [h] at h1
  rw [h1] at h2
  exact Option.some.inj h2

theorem at_least_head (idr : List kgsl_mem_entry) (hwf : idr_wf idr) (lb : Int)
    (x : kgsl_mem_entry) (hx : x ∈ idr) (hlb : lb ≤ x.id)
    (hmin : ∀ y ∈ idr, lb ≤ y.id → x.id ≤ y.id) :
    (idr_at_least idr lb)[0]? = some x := by
  have hxf : x ∈ idr_at_least idr lb := by
    simp [idr_at_least, hx, hlb]
  have hsorted : (idr_at_least idr lb).Pairwise (fun a b => a.id < b.id) :=
    List.Pairwise.filter _ hwf.1
  cases hl : idr_at_least idr lb with
  | nil => rw [hl] at hxf; simp at hxf
  | cons a t =>
    rw [hl] at hxf hsorted
    have ha : a ∈ idr_at_least idr lb := by rw [hl]; simp
    simp only [idr_at_least, List.mem_filter, decide_eq_true_eq] at ha
    have h1 := hmin a ha.1 ha.2
    rw [List.pairwise_cons] at hsorted
    simp only [List.getElem?_cons_zero, Option.some.injEq]
    rcases List.mem_cons.1 hxf with h2 | h2
    · exact h2.symm
    · have := hsorted.1 x h2
      omega

/-! ## C6 -/

/-- Claim C6: for a cursor with lower bound `lb` (0 for the header token,
`e.id + 1` for a held entry) and a target position `pos ≥ 1`, if the registry
has at least `pos` entries with id ≥ `lb` and the `pos`-th of them in increasing
id order is acquirable, `process_mem_seq_find` returns exactly that entry.  In
particular `process_mem_seq_next` on a held entry with id `c` returns the entry
with the smallest id strictly greater than `c` (when it is acquirable) and
advances the position by exactly 1. -/
theorem find_returns_target (s : kgsl_process_private) (hwf : idr_wf s.mem_idr) :
    (∀ (ptr : seq_ptr) (pos : Int) (e : kgsl_mem_entry), cursor_wf ptr → 1 ≤ pos →
        (idr_at_least s.mem_idr (cursor_lower_bound ptr))[(pos - 1).toNat]? = some e →
        e.refcount ≠ 0 →
        (∃ s1, process_mem_seq_find s ptr pos = some (s1, .entry e.id))
        ∧ mem_entry_deref s e.id = some e)
    ∧ (∀ (c p : Int) (x : kgsl_mem_entry), cursor_wf (.entry c) → x ∈ s.mem_idr → c < x.id →
        (∀ y ∈ s.mem_idr, c < y.id → x.id ≤ y.id) → x.refcount ≠ 0 →
        ∃ s1, process_mem_seq_next s (.entry c) p = some (s1, .entry x.id, p + 1)) := by
  have part1 : ∀ (ptr : seq_ptr) (pos : Int) (e : kgsl_mem_entry), cursor_wf ptr → 1 ≤ pos →
        (idr_at_least s.mem_idr (cursor_lower_bound ptr))[(pos - 1).toNat]? = some e →
        e.refcount ≠ 0 →
        (∃ s1, process_mem_seq_find s ptr pos = some (s1, .entry e.id))
        ∧ mem_entry_deref s e.id = some e := by
    intro ptr pos e hc hpos hget hacq
    have hne : ptr ≠ .NULL := by rintro rfl; exact hc
    have hmem : e ∈ s.mem_idr := by
      have := List.getElem?_mem hget
      simp only [idr_at_least, List.mem_filter] at this
      exact this.1
    refine ⟨⟨find_state s ptr pos, ?_⟩, deref_of_mem s hwf e hmem⟩
    rw [find_eq s ptr pos hwf hne, idr_from_eq_at_least _ hwf ptr hc,
      scan_pick_at pos e hacq _ 1 (pos - 1).toNat hget (by omega)]
    rfl
  refine ⟨part1, ?_⟩
  intro c p x hc hx hcx hmin hacq
  have hhead := at_least_head s.mem_idr hwf (c + 1) x hx (by omega)
    (fun y hy hly => hmin y hy (by omega))
  obtain ⟨⟨s1, h1⟩, _⟩ := part1 (.entry c) 1 x hc (le_refl 1) (by simpa using hhead) hacq
  exact ⟨s1, by simp [process_mem_seq_next, h1]⟩

/-- Claim C6 at the registry with the ids 2, 5 and 7: from the held entry 2,
target position 2 is entry 7, and `process_mem_seq_next` at position 1 gives
entry 5 and position 2. -/
theorem find_returns_target_2_5_7 :
    idr_wf proc_2_5_7.mem_idr
    ∧ (∃ s1, process_mem_seq_find proc_2_5_7 (.entry 2) 2 = some (s1, .entry 7))
    ∧ (∃ s1, process_mem_seq_next proc_2_5_7 (.entry 2) 1 = some (s1, .entry 5, 2)) :=
  have h := find_returns_target proc_2_5_7 (by decide)
  ⟨by decide,
   (h.1 (.entry 2) 2 (plain_entry 7 1) (by decide) (by decide) (by decide) (by decide)).1,
   h.2 2 1 (plain_entry 5 1) (by decide) (by decide) (by decide) (by decide) (by decide)⟩

/-! ## References taken and released -/

theorem idr_acquire_wf (idr : List kgsl_mem_entry) (c : Int) (hwf : idr_wf idr) :
    idr_wf (idr_acquire idr c) := by
  constructor
  · unfold idr_acquire
    rw [List.pairwise_map]
    refine hwf.1.imp ?_
    intro a b hab
    by_cases ha : a.id = c <;> by_cases hb : b.id = c <;> simp [ha, hb] <;> omega
  · intro e he
    simp only [idr_acquire, List.mem_map] at he
    obtain ⟨a, ha, rfl⟩ := he
    have := hwf.2 a ha
    by_cases hac : a.id = c <;> simp [hac] <;> omega

theorem idr_release_wf (idr : List kgsl_mem_entry) (c : Int) (hwf : idr_wf idr) :
    idr_wf (idr_release idr c) := by
  constructor
  · unfold idr_release
    rw [List.pairwise_filterMap]
    refine hwf.1.imp ?_
    intro a b hab x hx y hy
    have hxa : x.id = a.id := by
      by_cases ha : a.id = c
      · by_cases h1 : a.refcount = 1
        · simp [ha, h1] at hx
        · simp [ha, h1] at hx; rw [← hx]; simp [ha]
      · simp [ha] at hx; rw [hx]
    have hyb : y.id = b.id := by
      by_cases hb : b.id = c
      · by_cases h1 : b.refcount = 1
        · simp [hb, h1] at hy
        · simp [hb, h1] at hy; rw [← hy]; simp [hb]
      · simp [hb] at hy; rw [hy]
    omega
  · intro e he
    simp only [idr_release, List.mem_filterMap] at he
    obtain ⟨a, ha, hae⟩ := he
    have := hwf.2 a ha
    by_cases hac : a.id = c
    · by_cases h1 : a.refcount = 1
      · simp [hac, h1] at hae
      · simp [hac, h1] at hae; rw [← hae]; simp; omega
    · simp [hac] at hae; rw [← hae]; exact this

theorem put_mem_idr (s : kgsl_process_private) (c : Int) :
    (kgsl_mem_entry_put s c).mem_idr = idr_release s.mem_idr c := rfl

theorem put_trace (s : kgsl_process_private) (c : Int) :
    (kgsl_mem_entry_put s c).trace = s.trace ++ [.kgsl_mem_entry_put c] := rfl

theorem find_state_mem_idr (s : kgsl_process_private) (ptr : seq_ptr) (pos : Int) :
    (find_state s ptr pos).mem_idr
      = match ptr with
        | .entry c => idr_release
            (idr_after s.mem_idr (scan_pick pos (idr_from s.mem_idr (scan_start ptr)) 1)) c
        | _ => idr_after s.mem_idr (scan_pick pos (idr_from s.mem_idr (scan_start ptr)) 1) := by
  cases ptr <;> rfl

theorem find_state_trace (s : kgsl_process_private) (ptr : seq_ptr) (pos : Int) :
    (find_state s ptr pos).trace
      = s.trace ++ (.spin_lock :: (.idr_get_next (scan_start ptr)
          :: scan_trace pos (idr_from s.mem_idr (scan_start ptr)) 1)
          ++ cursor_put ptr) := by
  cases ptr <;> simp [find_state, put_trace, cursor_put]

theorem scan_pick_some (pos : Int) (e : kgsl_mem_entry) :
    ∀ (l : List kgsl_mem_entry) (tp : Int), scan_pick pos l tp = some e →
      e ∈ l ∧ e.refcount ≠ 0 ∧ ∃ i : Nat, l[i]? = some e ∧ pos = tp + i := by
  intro l
  induction l with
  | nil => intro tp h; simp [scan_pick] at h
  | cons a t ih =>
    intro tp h
    by_cases hc : tp = pos ∧ a.refcount ≠ 0
    · rw [scan_pick, if_pos hc] at h
      have h := Option.some.inj h
      subst h
      exact ⟨by simp, hc.2, 0, by simp, by simp [hc.1]⟩
    · rw [scan_pick, if_neg hc] at h
      obtain ⟨h1, h2, i, h3, h4⟩ := ih (tp + 1) h
      exact ⟨by simp [h1], h2, i + 1, by simpa using h3, by push_cast; omega⟩

theorem scan_trace_of_pick (pos : Int) (e : kgsl_mem_entry) :
    ∀ (l : List kgsl_mem_entry) (tp : Int), scan_pick pos l tp = some e →
      ∃ scan, scan_trace pos l tp = scan ++ [.kgsl_mem_entry_get e.id true, .spin_unlock]
        ∧ ∀ ev ∈ scan, ∃ i, ev = .idr_get_next i := by
  intro l
  induction l with
  | nil => intro tp h; simp [scan_pick] at h
  | cons a t ih =>
    intro tp h
    by_cases htp : tp = pos
    · by_cases hrc : a.refcount = 0
      · simp only [scan_pick, htp, hrc, ne_eq, not_true_eq_false, and_false, if_false] at h
        have := scan_pick_none_of_lt pos t (pos + 1) (by omega)
        rw [this] at h
        exact absurd h (by simp)
      · simp only [scan_pick, htp, hrc, ne_eq, not_false_eq_true, and_self, if_true,
          Option.some.injEq] at h
        subst h
        exact ⟨[], by simp [scan_trace, htp, hrc], by simp⟩
    · simp only [scan_pick, htp, false_and, if_false] at h
      obtain ⟨scan, h1, h2⟩ := ih (tp + 1) h
      refine ⟨.idr_get_next (wrap_int (a.id + 1)) :: scan, by simp [scan_trace, htp, h1], ?_⟩
      intro ev hev
      rcases List.mem_cons.1 hev with h3 | h3
      · exact ⟨_, h3⟩
      · exact h2 ev h3

theorem idr_from_mem (idr : List kgsl_mem_entry) (hs : idr.Pairwise (fun a b => a.id < b.id))
    (id : Int) (e : kgsl_mem_entry) (he : e ∈ idr_from idr id) :
    e ∈ idr ∧ id ≤ e.id ∧ 0 ≤ id := by
  unfold idr_from at he
  by_cases h : id < 0
  · simp [h] at he
  · simp only [h, if_false] at he
    rw [dropWhile_eq_filter idr hs id] at he
    simp only [List.mem_filter, decide_eq_true_eq] at he
    exact ⟨he.1, he.2, by omega⟩

/-! ## C3 -/

theorem find_acquired (s s1 : kgsl_process_private) (ptr : seq_ptr) (pos rid : Int)
    (hwf : idr_wf s.mem_idr) (h : process_mem_seq_find s ptr pos = some (s1, .entry rid)) :
    acquired_under_lock s s1 rid := by
  have hne : ptr ≠ .NULL := by
    rintro rfl
    simp [process_mem_seq_find] at h
  rw [find_eq s ptr pos hwf hne] at h
  simp only [Option.some.injEq, Prod.mk.injEq] at h
  obtain ⟨hs1, hp⟩ := h
  cases hpick : scan_pick pos (idr_from s.mem_idr (scan_start ptr)) 1 with
  | none => rw [hpick] at hp; simp [ptr_of] at hp
  | some e =>
    rw [hpick] at hp
    simp only [ptr_of, seq_ptr.entry.injEq] at hp
    obtain ⟨hmem, hrc, _⟩ := scan_pick_some pos e _ 1 hpick
    obtain ⟨hin, hge, hst⟩ := idr_from_mem s.mem_idr hwf.1 _ e hmem
    obtain ⟨scan, hscan, hscan2⟩ := scan_trace_of_pick pos e _ 1 hpick
    have hb := hwf.2 e hin
    have hacq_mem : { e with refcount := e.refcount + 1 } ∈ idr_acquire s.mem_idr e.id :=
      List.mem_map.2 ⟨e, hin, by simp⟩
    refine ⟨e, hp ▸ deref_of_mem s hwf e hin, hrc, ?_, ?_⟩
    · -- the count after the call
      subst hs1
      cases ptr with
      | NULL => exact absurd rfl hne
      | SEQ_START_TOKEN =>
        have hw : idr_wf (find_state s .SEQ_START_TOKEN pos).mem_idr := by
          rw [find_state_mem_idr, hpick]; exact idr_acquire_wf _ _ hwf
        have := deref_of_mem _ hw { e with refcount := e.refcount + 1 }
          (by rw [find_state_mem_idr, hpick]; exact hacq_mem)
        rw [← hp]; exact this
      | entry c =>
        have hce : e.id ≠ c := by
          intro hec
          simp only [scan_start] at hge hst
          by_cases hmax : c = 2147483647
          · rw [hmax] at hst; exact absurd hst (by decide)
          · rw [wrap_int_succ c (by omega) (by omega)] at hge; omega
        have hw : idr_wf (find_state s (.entry c) pos).mem_idr := by
          rw [find_state_mem_idr, hpick]
          exact idr_release_wf _ _ (idr_acquire_wf _ _ hwf)
        have := deref_of_mem _ hw { e with refcount := e.refcount + 1 }
          (by
            rw [find_state_mem_idr, hpick]
            exact List.mem_filterMap.2 ⟨_, hacq_mem, by simp [hce]⟩)
        rw [← hp]; exact this
    · -- the trace of the call
      subst hs1
      rw [find_state_trace, hscan, ← hp]
      refine ⟨.idr_get_next (scan_start ptr) :: scan,
        cursor_put ptr, by simp, ?_, ?_⟩
      · intro ev hev
        rcases List.mem_cons.1 hev with h1 | h1
        · exact ⟨_, h1⟩
        · exact hscan2 ev h1
      · intro ev hev
        cases ptr with
        | NULL => simp [cursor_put] at hev
        | SEQ_START_TOKEN => simp [cursor_put] at hev
        | entry c =>
          simp only [cursor_put, List.mem_singleton] at hev
          refine ⟨c, hev, ?_⟩
          intro hec
          simp only [scan_start] at hge hst
          by_cases hmax : c = 2147483647
          · rw [hmax] at hst; exact absurd hst (by decide)
          · rw [wrap_int_succ c (by omega) (by omega)] at hge; omega

/-- Claim C3: whenever `process_mem_seq_find` (and hence `process_mem_seq_start`
or `process_mem_seq_next`) returns an entry, the reference on that entry was
acquired during the call, between the lock and the unlock of the registry: its
reference count was non-zero before the call and is one higher when the call
returns.  An entry whose count is zero is never returned. -/
theorem returned_entry_acquired (s s1 : kgsl_process_private) (rid : Int)
    (hwf : idr_wf s.mem_idr) :
    (∀ ptr pos, process_mem_seq_find s ptr pos = some (s1, .entry rid) →
        acquired_under_lock s s1 rid)
    ∧ (∀ pos, process_mem_seq_start s pos = some (s1, .entry rid) →
        acquired_under_lock s s1 rid)
    ∧ (∀ ptr pos pos1, process_mem_seq_next s ptr pos = some (s1, .entry rid, pos1) →
        acquired_under_lock s s1 rid) := by
  refine ⟨fun ptr pos h => find_acquired s s1 ptr pos rid hwf h, ?_, ?_⟩
  · intro pos h
    unfold process_mem_seq_start at h
    by_cases hp : pos = 0
    · simp [hp] at h
    · rw [if_neg hp] at h
      exact find_acquired s s1 _ pos rid hwf h
  · intro ptr pos pos1 h
    unfold process_mem_seq_next at h
    cases hf : process_mem_seq_find s ptr 1 with
    | none => rw [hf] at h; simp at h
    | some r =>
      obtain ⟨s2, found⟩ := r
      rw [hf] at h
      simp only [Option.some.injEq, Prod.mk.injEq] at h
      obtain ⟨h1, h2, _⟩ := h
      subst h1 h2
      exact find_acquired s _ ptr 1 rid hwf hf

/-! ## One step of a read pass -/

theorem release_acquire (l : List kgsl_mem_entry) (c : Int)
    (h : ∀ a ∈ l, a.id = c → a.refcount ≠ 0) : idr_release (idr_acquire l c) c = l := by
  induction l with
  | nil => rfl
  | cons a t ih =>
    have iht := ih (fun b hb => h b (List.mem_cons_of_mem _ hb))
    unfold idr_release idr_acquire at iht ⊢
    rw [List.map_cons, List.filterMap_cons]
    by_cases hac : a.id = c
    · have := h a (by simp) hac
      simp only [hac, if_true]
      rw [if_neg (by omega)]
      simp only [Nat.add_sub_cancel]
      rw [iht]
      cases a; simp_all
    · simp only [hac, if_false]
      rw [iht]

theorem release_acquire_acquire (l : List kgsl_mem_entry) (c d : Int) (hcd : d ≠ c)
    (h : ∀ a ∈ l, a.id = c → a.refcount ≠ 0) :
    idr_release (idr_acquire (idr_acquire l c) d) c = idr_acquire l d := by
  induction l with
  | nil => rfl
  | cons a t ih =>
    have iht := ih (fun b hb => h b (List.mem_cons_of_mem _ hb))
    unfold idr_release idr_acquire at iht ⊢
    rw [List.map_cons, List.map_cons, List.filterMap_cons, List.map_cons]
    by_cases hac : a.id = c
    · have := h a (by simp) hac
      have hcd2 : ¬ (c = d) := fun h => hcd h.symm
      have had : ¬ (a.id = d) := by rw [hac]; exact hcd2
      simp only [hac, if_true, hcd2, if_false]
      rw [if_neg (by omega)]
      simp only [Nat.add_sub_cancel, had, if_false]
      rw [iht]
      cases a; simp_all
    · by_cases had : a.id = d
      · simp only [hac, had, if_true, if_false, hcd, hac]
        rw [iht]
      · simp only [hac, had, if_false]
        rw [iht]

theorem trace_gets_scan (pos : Int) :
    ∀ (l : List kgsl_mem_entry) (tp : Int),
      trace_gets (scan_trace pos l tp) = held_ids (ptr_of (scan_pick pos l tp))
      ∧ trace_puts (scan_trace pos l tp) = [] := by
  intro l
  induction l with
  | nil => intro tp; simp [scan_trace, scan_pick, trace_gets, trace_puts, held_ids, ptr_of]
  | cons a t ih =>
    intro tp
    have iht := ih (tp + 1)
    unfold trace_gets trace_puts at iht ⊢
    by_cases htp : tp = pos
    · by_cases hrc : a.refcount = 0
      · simp only [scan_trace, scan_pick, htp, hrc, if_true, ne_eq, not_true_eq_false,
          and_false, if_false]
        simp only [htp] at iht
        simpa [List.filterMap_cons] using iht
      · simp [scan_trace, scan_pick, htp, hrc, held_ids, ptr_of, List.filterMap_cons]
    · simp only [scan_trace, scan_pick, htp, false_and, if_false]
      simpa [List.filterMap_cons] using iht

theorem trace_gets_append (a b : List kgsl_event) :
    trace_gets (a ++ b) = trace_gets a ++ trace_gets b := by
  simp [trace_gets, List.filterMap_append]

theorem trace_puts_append (a b : List kgsl_event) :
    trace_puts (a ++ b) = trace_puts a ++ trace_puts b := by
  simp [trace_puts, List.filterMap_append]

theorem find_trace_gets_puts (s : kgsl_process_private) (ptr : seq_ptr) (pos : Int) :
    ∃ call, (find_state s ptr pos).trace = s.trace ++ call
      ∧ trace_gets call
          = held_ids (ptr_of (scan_pick pos (idr_from s.mem_idr (scan_start ptr)) 1))
      ∧ trace_puts call = held_ids ptr := by
  refine ⟨_, find_state_trace s ptr pos, ?_, ?_⟩
  · rw [trace_gets_append]
    have h := (trace_gets_scan pos (idr_from s.mem_idr (scan_start ptr)) 1).1
    unfold trace_gets at h ⊢
    cases ptr <;> simpa [List.filterMap_cons, cursor_put] using h
  · rw [trace_puts_append]
    have h := (trace_gets_scan pos (idr_from s.mem_idr (scan_start ptr)) 1).2
    unfold trace_puts at h ⊢
    cases ptr <;> simp [List.filterMap_cons, cursor_put, held_ids, h]

theorem held_unique (idr : List kgsl_mem_entry) (hwf : idr_wf idr) (c : Int)
    (h : ∃ e ∈ idr, e.id = c ∧ e.refcount ≠ 0) : ∀ a ∈ idr, a.id = c → a.refcount ≠ 0 := by
  obtain ⟨e, he, hec, hrc⟩ := h
  intro a ha hac
  have := idr_id_inj idr hwf a e ha he (by rw [hac, hec])
  rw [this]; exact hrc

theorem idr_hold_wf (idr : List kgsl_mem_entry) (x : seq_ptr) (hwf : idr_wf idr) :
    idr_wf (idr_hold idr x) := by
  cases x with
  | NULL => exact hwf
  | SEQ_START_TOKEN => exact hwf
  | entry c => exact idr_acquire_wf idr c hwf

theorem scan_start_lt (c d : Int) (hc : 0 ≤ c ∧ c ≤ 2147483647)
    (hge : wrap_int (c + 1) ≤ d) (hst : 0 ≤ wrap_int (c + 1)) : c < d := by
  by_cases hmax : c = 2147483647
  · rw [hmax] at hst; exact absurd hst (by decide)
  · rw [wrap_int_succ c hc.1 (by omega)] at hge; omega

/-- One call of `process_mem_seq_find` within a read pass keeps `pass_inv`. -/
theorem find_step_inv (s0 s : kgsl_process_private) (x : seq_ptr) (pos : Int)
    (hwf0 : idr_wf s0.mem_idr) (hx : x ≠ .NULL) (hinv : pass_inv s0 s x) :
    ∃ s1 y, process_mem_seq_find s x pos = some (s1, y) ∧ pass_inv s0 s1 y
      ∧ y ≠ .SEQ_START_TOKEN := by
  obtain ⟨hidr, hheld, added, htr, hgp, hsorted, hbound, hstart⟩ := hinv
  have hwf : idr_wf s.mem_idr := by rw [hidr]; exact idr_hold_wf _ _ hwf0
  refine ⟨_, _, find_eq s x pos hwf hx, ?_, ?_⟩
  swap
  · cases scan_pick pos (idr_from s.mem_idr (scan_start x)) 1 <;> simp [ptr_of]
  obtain ⟨call, hcall, hcg, hcp⟩ := find_trace_gets_puts s x pos
  cases hpick : scan_pick pos (idr_from s.mem_idr (scan_start x)) 1 with
  | none =>
    rw [hpick] at hcg
    refine ⟨?_, by simp [ptr_of], added ++ call, by rw [hcall, htr, List.append_assoc], ?_, ?_,
      by simp [ptr_of], by simp [ptr_of]⟩
    · rw [find_state_mem_idr, hpick]
      cases x with
      | NULL => exact absurd rfl hx
      | SEQ_START_TOKEN => simpa [idr_after, ptr_of, idr_hold] using hidr
      | entry c =>
        simp only [idr_after, ptr_of, idr_hold] at hidr ⊢
        rw [hidr]
        exact release_acquire _ c (held_unique _ hwf0 c (hheld c rfl))
    · rw [trace_gets_append, trace_puts_append, hcg, hcp, hgp]
    · rw [trace_gets_append, hcg]
      simpa [ptr_of, held_ids] using hsorted
  | some e =>
    rw [hpick] at hcg
    obtain ⟨hmem, hrc, _⟩ := scan_pick_some pos e _ 1 hpick
    obtain ⟨hin, hge, hst⟩ := idr_from_mem s.mem_idr hwf.1 _ e hmem
    -- the entry picked is an entry of the original registry, above the cursor
    have horig : e ∈ s0.mem_idr ∧ ∀ c, x = .entry c → c < e.id := by
      cases x with
      | NULL => exact absurd rfl hx
      | SEQ_START_TOKEN =>
        simp only [idr_hold] at hidr
        exact ⟨hidr ▸ hin, by simp⟩
      | entry c =>
        obtain ⟨e0, he0, he0c, _⟩ := hheld c rfl
        have hcb := hwf0.2 e0 he0
        rw [he0c] at hcb
        have hlt : c < e.id := scan_start_lt c e.id hcb hge hst
        rw [hidr] at hin
        simp only [idr_hold, idr_acquire, List.mem_map] at hin
        obtain ⟨a, ha, hae⟩ := hin
        by_cases hac : a.id = c
        · rw [if_pos hac] at hae
          have : e.id = c := by rw [← hae]; exact hac
          omega
        · rw [if_neg hac] at hae
          exact ⟨hae ▸ ha, by intro c1 h1; cases h1; exact hlt⟩
    refine ⟨?_, ?_, added ++ call, by rw [hcall, htr, List.append_assoc], ?_, ?_, ?_,
      by simp [ptr_of]⟩
    · rw [find_state_mem_idr, hpick]
      cases x with
      | NULL => exact absurd rfl hx
      | SEQ_START_TOKEN =>
        simp only [idr_after, ptr_of, idr_hold] at hidr ⊢
        rw [hidr]
      | entry c =>
        simp only [idr_after, ptr_of, idr_hold] at hidr ⊢
        rw [hidr]
        have := horig.2 c rfl
        exact release_acquire_acquire _ c e.id (by omega)
          (held_unique _ hwf0 c (hheld c rfl))
    · intro d hd
      simp only [ptr_of, seq_ptr.entry.injEq] at hd
      exact ⟨e, horig.1, hd, hrc⟩
    · rw [trace_gets_append, trace_puts_append, hcg, hcp, hgp]
    · rw [trace_gets_append, hcg]
      simp only [ptr_of, held_ids]
      rw [List.pairwise_append]
      refine ⟨hsorted, by simp, ?_⟩
      intro g hg d hd
      simp only [List.mem_singleton] at hd
      subst hd
      cases x with
      | NULL => exact absurd rfl hx
      | SEQ_START_TOKEN => rw [hstart rfl] at hg; simp at hg
      | entry c =>
        have h1 := hbound c rfl g hg
        have h2 := horig.2 c rfl
        omega
    · intro d hd g hg
      simp only [ptr_of, seq_ptr.entry.injEq] at hd
      rw [trace_gets_append, hcg] at hg
      simp only [ptr_of, held_ids, List.mem_append, List.mem_singleton] at hg
      rcases hg with hg | hg
      · cases x with
        | NULL => exact absurd rfl hx
        | SEQ_START_TOKEN => rw [hstart rfl] at hg; simp at hg
        | entry c =>
          have h1 := hbound c rfl g hg
          have h2 := horig.2 c rfl
          omega
      · omega

/-! ## C4 -/

theorem nexts_inv (s0 : kgsl_process_private) (hwf0 : idr_wf s0.mem_idr) :
    ∀ (k : Nat) (s : kgsl_process_private) (x : seq_ptr) (pos : Int), pass_inv s0 s x →
      ∃ steps, read_pass_nexts k s x pos = some steps
        ∧ ∀ st ∈ steps, pass_inv s0 st.1 st.2.1 := by
  intro k
  induction k with
  | zero => intro s x pos _; exact ⟨[], rfl, by simp⟩
  | succ k ih =>
    intro s x pos hinv
    by_cases hx : x = .NULL
    · exact ⟨[], by simp [read_pass_nexts, hx], by simp⟩
    · obtain ⟨s1, y, hfind, hinv1, _⟩ := find_step_inv s0 s x 1 hwf0 hx hinv
      obtain ⟨rest, hrest, hall⟩ := ih s1 y (pos + 1) hinv1
      refine ⟨(s1, y, pos + 1) :: rest, ?_, ?_⟩
      · simp [read_pass_nexts, hx, process_mem_seq_next, hfind, hrest]
      · intro st hst
        rcases List.mem_cons.1 hst with h | h
        · rw [h]; exact hinv1
        · exact hall st h

theorem pass_inv_init (s : kgsl_process_private) : pass_inv s s .SEQ_START_TOKEN :=
  ⟨rfl, by simp, [], by simp, by simp [trace_gets, trace_puts, held_ids],
    by simp [trace_gets], by simp, by simp [trace_gets]⟩

theorem read_pass_inv (s : kgsl_process_private) (p : Int) (k : Nat) (hwf : idr_wf s.mem_idr) :
    ∃ steps, read_pass s p k = some steps ∧ steps ≠ []
      ∧ ∀ st ∈ steps, pass_inv s st.1 st.2.1 := by
  have hstart : ∃ s1 x, process_mem_seq_start s p = some (s1, x) ∧ pass_inv s s1 x := by
    by_cases hp : p = 0
    · exact ⟨s, .SEQ_START_TOKEN, by simp [process_mem_seq_start, hp], pass_inv_init s⟩
    · obtain ⟨s1, y, hfind, hinv1, _⟩ :=
        find_step_inv s s .SEQ_START_TOKEN p hwf (by simp) (pass_inv_init s)
      exact ⟨s1, y, by simp [process_mem_seq_start, hp, hfind], hinv1⟩
  obtain ⟨s1, x, hst, hinv⟩ := hstart
  obtain ⟨rest, hrest, hall⟩ := nexts_inv s hwf k s1 x p hinv
  refine ⟨(s1, x, p) :: rest, by simp [read_pass, hst, hrest], by simp, ?_⟩
  intro st hmem
  rcases List.mem_cons.1 hmem with h | h
  · rw [h]; exact hinv
  · exact hall st h

theorem stop_of_inv (s0 s : kgsl_process_private) (x : seq_ptr) (hwf0 : idr_wf s0.mem_idr)
    (hinv : pass_inv s0 s x) :
    (process_mem_seq_stop s x).mem_idr = s0.mem_idr
    ∧ ∃ added, (process_mem_seq_stop s x).trace = s0.trace ++ added
        ∧ trace_puts added = trace_gets added ∧ (trace_gets added).Nodup := by
  obtain ⟨hidr, hheld, added, htr, hgp, hsorted, _, _⟩ := hinv
  have hnodup : (trace_gets added).Nodup := hsorted.imp (fun h => by omega)
  cases x with
  | NULL =>
    exact ⟨hidr, added, htr, by simpa [held_ids] using hgp.symm, hnodup⟩
  | SEQ_START_TOKEN =>
    exact ⟨hidr, added, htr, by simpa [held_ids] using hgp.symm, hnodup⟩
  | entry c =>
    refine ⟨?_, added ++ [.kgsl_mem_entry_put c], ?_, ?_, ?_⟩
    · simp only [process_mem_seq_stop, put_mem_idr, hidr, idr_hold]
      exact release_acquire _ c (held_unique _ hwf0 c (hheld c rfl))
    · simp [process_mem_seq_stop, put_trace, htr]
    · rw [trace_puts_append, trace_gets_append, hgp]
      simp [trace_puts, trace_gets, held_ids]
    · rw [trace_gets_append]
      simpa [trace_gets] using hnodup

/-- Claim C4: a read pass `process_mem_seq_start(p)`, up to `k` calls of
`process_mem_seq_next` (each on the value returned before, while it is not
end-of-sequence), then `process_mem_seq_stop` on the last value, runs to its
end and releases what it acquired: between the calls the registry is the
original one with exactly the one reference of the value currently held (none
for the header token or end-of-sequence); after the stop the registry, every
reference count included, is as before the pass; and the references released
over the pass are those acquired, each id once. -/
theorem read_pass_balanced (s : kgsl_process_private) (p : Int) (k : Nat)
    (hwf : idr_wf s.mem_idr) :
    ∃ steps last, read_pass s p k = some steps ∧ steps.getLast? = some last
      ∧ (∀ st ∈ steps, st.1.mem_idr = idr_hold s.mem_idr st.2.1)
      ∧ (process_mem_seq_stop last.1 last.2.1).mem_idr = s.mem_idr
      ∧ ∃ added, (process_mem_seq_stop last.1 last.2.1).trace = s.trace ++ added
          ∧ trace_puts added = trace_gets added ∧ (trace_gets added).Nodup := by
  obtain ⟨steps, hrun, hne, hall⟩ := read_pass_inv s p k hwf
  have hlast := List.getLast?_eq_getLast steps hne
  have hmem : steps.getLast hne ∈ steps := List.getLast_mem hne
  obtain ⟨h1, h2⟩ := stop_of_inv s _ _ hwf (hall _ hmem)
  exact ⟨steps, steps.getLast hne, hrun, hlast, fun st hst => (hall st hst).1, h1, h2⟩

/-- Claim C4 at the registry with the ids 2, 5 and 7, for the pass that starts
at position 1 and makes one call of `process_mem_seq_next`. -/
theorem read_pass_balanced_2_5_7 :
    idr_wf proc_2_5_7.mem_idr
    ∧ ∃ steps last, read_pass proc_2_5_7 1 1 = some steps ∧ steps.getLast? = some last
      ∧ (∀ st ∈ steps, st.1.mem_idr = idr_hold proc_2_5_7.mem_idr st.2.1)
      ∧ (process_mem_seq_stop last.1 last.2.1).mem_idr = proc_2_5_7.mem_idr
      ∧ ∃ added, (process_mem_seq_stop last.1 last.2.1).trace = proc_2_5_7.trace ++ added
          ∧ trace_puts added = trace_gets added ∧ (trace_gets added).Nodup :=
  ⟨by decide, read_pass_balanced proc_2_5_7 1 1 (by decide)⟩

/-- Claim C3 at the registry with the ids 2, 5 and 7: the scan from the header
token to position 2 returns entry 5, acquired under the lock. -/
theorem returned_entry_acquired_2_5_7 :
    idr_wf proc_2_5_7.mem_idr
    ∧ process_mem_seq_find proc_2_5_7 .SEQ_START_TOKEN 2
        = some (find_state proc_2_5_7 .SEQ_START_TOKEN 2, .entry 5)
    ∧ acquired_under_lock proc_2_5_7 (find_state proc_2_5_7 .SEQ_START_TOKEN 2) 5 :=
  ⟨by decide, by decide,
    (returned_entry_acquired proc_2_5_7 (find_state proc_2_5_7 .SEQ_START_TOKEN 2) 5
      (by decide)).1 .SEQ_START_TOKEN 2 (by decide)⟩

/-! ## C7 -/

theorem scan_pick_all_acquirable (pos : Int) (l : List kgsl_mem_entry) (tp : Int)
    (hacq : ∀ e ∈ l, e.refcount ≠ 0) (h : tp ≤ pos) :
    scan_pick pos l tp = l[(pos - tp).toNat]? := by
  cases hget : l[(pos - tp).toNat]? with
  | some e =>
    exact scan_pick_at pos e (hacq e (List.getElem?_mem hget)) l tp _ hget (by omega)
  | none =>
    rw [List.getElem?_eq_none_iff] at hget
    exact scan_pick_none_of_ge pos l tp (by omega)

theorem at_least_eq_drop (l : List kgsl_mem_entry) (hs : l.Pairwise (fun a b => a.id < b.id)) :
    ∀ (i : Nat) (a : kgsl_mem_entry), l[i]? = some a →
      idr_at_least l (a.id + 1) = l.drop (i + 1) := by
  induction l with
  | nil => intro i a h; simp at h
  | cons b t ih =>
    rw [List.pairwise_cons] at hs
    intro i a h
    unfold idr_at_least at ih ⊢
    cases i with
    | zero =>
      simp only [List.getElem?_cons_zero, Option.some.injEq] at h
      subst h
      rw [List.filter_cons_of_neg (by simp)]
      simp only [zero_add, List.drop_succ_cons, List.drop_zero]
      rw [List.filter_eq_self]
      intro c hc
      have := hs.1 c hc
      simp; omega
    | succ j =>
      simp only [List.getElem?_cons_succ] at h
      have := hs.1 a (List.getElem?_mem h)
      rw [List.filter_cons_of_neg (by simp; omega)]
      simpa using ih hs.2 j a h

theorem ptr_of_acquire (o : Option kgsl_mem_entry) (c : Int) :
    ptr_of (o.map (fun e => if e.id = c then { e with refcount := e.refcount + 1 } else e))
      = ptr_of o := by
  cases o with
  | none => rfl
  | some e => by_cases h : e.id = c <;> simp [ptr_of, h]

/-- Claim C7: on an unchanged registry whose entries are all acquirable, if
`process_mem_seq_start(p)` returns a value `x` other than end-of-sequence, then
`process_mem_seq_next` on `x` at position `p` sets the position to `p + 1` and
returns what `process_mem_seq_start(p + 1)` returns, on the registry as it was
and on the registry after `process_mem_seq_stop` on `x`: a new read pass picks
up where the last one stopped. -/
theorem pagination_stable (s s1 : kgsl_process_private) (x : seq_ptr) (p : Int)
    (hwf : idr_wf s.mem_idr) (hacq : ∀ e ∈ s.mem_idr, e.refcount ≠ 0) (hp : 0 ≤ p)
    (hstart : process_mem_seq_start s p = some (s1, x)) (hx : x ≠ .NULL) :
    ∃ s2 y, process_mem_seq_next s1 x p = some (s2, y, p + 1)
      ∧ (∃ s3, process_mem_seq_start s (p + 1) = some (s3, y))
      ∧ (∃ s4, process_mem_seq_start (process_mem_seq_stop s1 x) (p + 1) = some (s4, y)) := by
  have hp1 : ¬ (p + 1 = 0) := by omega
  -- what a start at p + 1 returns depends on the registry only
  have hnew : ∀ s' : kgsl_process_private, s'.mem_idr = s.mem_idr →
      ∃ s3, process_mem_seq_start s' (p + 1)
        = some (s3, ptr_of (s.mem_idr[p.toNat]?)) := by
    intro s' hs'
    refine ⟨find_state s' .SEQ_START_TOKEN (p + 1), ?_⟩
    rw [process_mem_seq_start, if_neg hp1, find_eq s' _ _ (hs' ▸ hwf) (by simp), hs']
    simp only [scan_start, idr_from_zero _ hwf]
    rw [scan_pick_all_acquirable (p + 1) s.mem_idr 1 hacq (by omega)]
    have : (p + 1 - 1).toNat = p.toNat := by simp
    rw [this]
  -- the state after the start
  have hinv : pass_inv s s1 x := by
    by_cases h0 : p = 0
    · simp only [process_mem_seq_start, h0, if_true, Option.some.injEq, Prod.mk.injEq] at hstart
      rw [← hstart.1, ← hstart.2]
      exact pass_inv_init s
    · obtain ⟨s1', y', hfind, hinv1, _⟩ :=
        find_step_inv s s .SEQ_START_TOKEN p hwf (by simp) (pass_inv_init s)
      rw [process_mem_seq_start, if_neg h0, hfind] at hstart
      simp only [Option.some.injEq, Prod.mk.injEq] at hstart
      rw [← hstart.1, ← hstart.2]
      exact hinv1
  have hwf1 : idr_wf s1.mem_idr := by rw [hinv.1]; exact idr_hold_wf _ _ hwf
  -- what the next returns
  have hnext : process_mem_seq_next s1 x p
      = some (find_state s1 x 1, ptr_of (s.mem_idr[p.toNat]?), p + 1) := by
    rw [process_mem_seq_next, find_eq s1 x 1 hwf1 hx]
    simp only [Option.some.injEq, Prod.mk.injEq, true_and, and_true]
    by_cases h0 : p = 0
    · simp only [process_mem_seq_start, h0, if_true, Option.some.injEq, Prod.mk.injEq] at hstart
      rw [← hstart.2, ← hstart.1]
      simp only [scan_start, idr_from_zero _ hwf]
      rw [scan_pick_all_acquirable 1 s.mem_idr 1 hacq (le_refl 1), h0]
      rfl
    · rw [process_mem_seq_start, if_neg h0, find_eq s _ _ hwf (by simp)] at hstart
      simp only [Option.some.injEq, Prod.mk.injEq, scan_start, idr_from_zero _ hwf] at hstart
      obtain ⟨_, hxe⟩ := hstart
      cases hpick : scan_pick p s.mem_idr 1 with
      | none => rw [hpick] at hxe; exact absurd hxe.symm hx
      | some e =>
        rw [hpick] at hxe
        obtain ⟨hin, _, i, hi, hpi⟩ := scan_pick_some p e _ 1 hpick
        have hb := hwf.2 e hin
        have hcw : cursor_wf x := by rw [← hxe]; exact hb
        rw [idr_from_eq_at_least _ hwf1 x hcw, hinv.1, ← hxe]
        simp only [ptr_of, idr_hold, cursor_lower_bound]
        have hi' : (idr_acquire s.mem_idr e.id)[i]?
            = some { e with refcount := e.refcount + 1 } := by
          simp [idr_acquire, List.getElem?_map, hi]
        have hdrop := at_least_eq_drop (idr_acquire s.mem_idr e.id)
          (idr_acquire_wf _ _ hwf).1 i _ hi'
        simp only at hdrop
        rw [hdrop]
        have hacq' : ∀ a ∈ (idr_acquire s.mem_idr e.id).drop (i + 1), a.refcount ≠ 0 := by
          intro a ha
          have ha := List.mem_of_mem_drop ha
          simp only [idr_acquire, List.mem_map] at ha
          obtain ⟨b, hb, hba⟩ := ha
          have := hacq b hb
          by_cases hbe : b.id = e.id
          · rw [if_pos hbe] at hba; rw [← hba]; simp
          · rw [if_neg hbe] at hba; rw [← hba]; exact this
        rw [scan_pick_all_acquirable 1 _ 1 hacq' (le_refl 1)]
        have hpn : p.toNat = i + 1 := by omega
        rw [hpn]
        simp only [sub_self, Int.toNat_zero, List.getElem?_drop, add_zero]
        simp only [idr_acquire, List.getElem?_map]
        exact ptr_of_acquire _ _
  refine ⟨_, _, hnext, hnew s rfl, hnew _ (stop_of_inv s s1 x hwf hinv).1⟩

/-- Claim C7 at the registry with the ids 2, 5 and 7, split after position 1. -/
theorem pagination_stable_2_5_7 :
    idr_wf proc_2_5_7.mem_idr ∧ (∀ e ∈ proc_2_5_7.mem_idr, e.refcount ≠ 0)
    ∧ process_mem_seq_start proc_2_5_7 1
        = some (find_state proc_2_5_7 .SEQ_START_TOKEN 1, .entry 2)
    ∧ ∃ s2 y, process_mem_seq_next (find_state proc_2_5_7 .SEQ_START_TOKEN 1) (.entry 2) 1
          = some (s2, y, 1 + 1)
      ∧ (∃ s3, process_mem_seq_start proc_2_5_7 (1 + 1) = some (s3, y))
      ∧ (∃ s4, process_mem_seq_start
            (process_mem_seq_stop (find_state proc_2_5_7 .SEQ_START_TOKEN 1) (.entry 2)) (1 + 1)
          = some (s4, y)) :=
  ⟨by decide, by decide, by decide,
    pagination_stable proc_2_5_7 (find_state proc_2_5_7 .SEQ_START_TOKEN 1) (.entry 2) 1
      (by decide) (by decide) (by decide) (by decide) (by decide)⟩

/-! ## C10 -/

/-- Claim C10: for every entry whose flags include the sparse-virtual bit,
whatever else it carries, `print_mem_entry` appends nothing to the output, not
even a newline, and returns 0; and so does `process_mem_seq_show` on a pointer to
such an entry. -/
theorem sparse_virt_prints_nothing (h : kgsl_h) (s : String) (entry : kgsl_mem_entry)
    (hsv : entry.memdesc.flags &&& h.KGSL_MEMFLAGS_SPARSE_VIRT ≠ 0) :
    print_mem_entry h s entry = (s, 0)
    ∧ ∀ priv : kgsl_process_private, mem_entry_deref priv entry.id = some entry →
        process_mem_seq_show h priv s (.entry entry.id) = some (s, 0) := by
  have hp : print_mem_entry h s entry = (s, 0) := by
    unfold print_mem_entry
    simp only [hsv, ne_eq, not_false_eq_true, if_true]
  refine ⟨hp, ?_⟩
  intro priv hd
  simp only [process_mem_seq_show, hd, hp]

/-- Claim C10 at a sparse-virtual entry that is also read-only, mapped, with
metadata: nothing is added to the text "abc". -/
theorem sparse_virt_prints_nothing_sample :
    sparse_virt_entry.memdesc.flags &&& sample_kgsl_h.KGSL_MEMFLAGS_SPARSE_VIRT ≠ 0
    ∧ print_mem_entry sample_kgsl_h "abc" sparse_virt_entry = ("abc", 0)
    ∧ process_mem_seq_show sample_kgsl_h proc_sparse "abc" (.entry 5) = some ("abc", 0) :=
  have h := sparse_virt_prints_nothing sample_kgsl_h "abc" sparse_virt_entry (by decide)
  ⟨by decide, h.1, h.2 proc_sparse (by decide)⟩

/-! ## C2 -/

theorem print_mem_entry_append (h : kgsl_h) (out : String) (e : kgsl_mem_entry) :
    print_mem_entry h out e = (out ++ (print_mem_entry h "" e).1, 0) := by
  unfold print_mem_entry
  by_cases hsv : e.memdesc.flags &&& h.KGSL_MEMFLAGS_SPARSE_VIRT ≠ 0
  · rw [if_pos hsv, if_pos hsv]
    simp
  · rw [if_neg hsv, if_neg hsv]
    simp only [Prod.mk.injEq, and_true]
    by_cases hm : c_str e.metadata ≠ ""
    · rw [if_pos hm, if_pos hm]
      apply String.ext
      simp [List.append_assoc]
    · rw [if_neg hm, if_neg hm]
      apply String.ext
      simp [List.append_assoc]

theorem held_row_sparse (h : kgsl_h) (e : kgsl_mem_entry)
    (hsv : ¬ (e.memdesc.flags &&& h.KGSL_MEMFLAGS_SPARSE_VIRT = 0)) : held_row h e = "" := by
  unfold held_row
  rw [(sparse_virt_prints_nothing h "" { e with refcount := e.refcount + 1 } hsv).1]

theorem push_newline (s : String) : s.push '\n' = s ++ "\n" :=
  String.ext (by simp)

theorem held_row_visible (h : kgsl_h) (e : kgsl_mem_entry)
    (hv : e.memdesc.flags &&& h.KGSL_MEMFLAGS_SPARSE_VIRT = 0) :
    ∃ body, held_row h e = body ++ "\n" := by
  unfold held_row print_mem_entry
  rw [if_neg (by simpa using hv)]
  exact ⟨_, push_newline _⟩

theorem concat_rows_visible (h : kgsl_h) (l : List kgsl_mem_entry) :
    concat_rows (l.map (held_row h)) = concat_rows ((visible_entries h l).map (held_row h)) := by
  induction l with
  | nil => rfl
  | cons a t ih =>
    unfold visible_entries at ih ⊢
    by_cases hv : a.memdesc.flags &&& h.KGSL_MEMFLAGS_SPARSE_VIRT = 0
    · rw [List.filter_cons_of_pos (by simpa using hv)]
      simp only [List.map_cons, concat_rows, ih]
    · rw [List.filter_cons_of_neg (by simpa using hv)]
      simp only [List.map_cons, concat_rows, ih, held_row_sparse h a hv, String.empty_append]

theorem deref_held (s0 priv : kgsl_process_private) (e : kgsl_mem_entry)
    (hwf0 : idr_wf s0.mem_idr) (he : e ∈ s0.mem_idr) (hinv : pass_inv s0 priv (.entry e.id)) :
    mem_entry_deref priv e.id = some { e with refcount := e.refcount + 1 } := by
  have hidr := hinv.1
  simp only [idr_hold] at hidr
  have hwf : idr_wf priv.mem_idr := by rw [hidr]; exact idr_acquire_wf _ _ hwf0
  exact deref_of_mem priv hwf { e with refcount := e.refcount + 1 }
    (by rw [hidr]; exact List.mem_map.2 ⟨e, he, by simp⟩)

theorem next_from_token (s0 priv : kgsl_process_private) (pos : Int)
    (hwf0 : idr_wf s0.mem_idr) (hacq0 : ∀ e ∈ s0.mem_idr, e.refcount ≠ 0)
    (hinv : pass_inv s0 priv .SEQ_START_TOKEN) :
    ∃ priv1, process_mem_seq_next priv .SEQ_START_TOKEN pos
        = some (priv1, ptr_of (s0.mem_idr[0]?), pos + 1)
      ∧ pass_inv s0 priv1 (ptr_of (s0.mem_idr[0]?)) := by
  obtain ⟨s1, y, hfind, hinv1, _⟩ := find_step_inv s0 priv .SEQ_START_TOKEN 1 hwf0 (by simp) hinv
  have hidr : priv.mem_idr = s0.mem_idr := hinv.1
  have hy : y = ptr_of (s0.mem_idr[0]?) := by
    rw [find_eq priv _ _ (hidr ▸ hwf0) (by simp), hidr] at hfind
    simp only [Option.some.injEq, Prod.mk.injEq, scan_start, idr_from_zero _ hwf0] at hfind
    rw [← hfind.2, scan_pick_all_acquirable 1 _ 1 hacq0 (le_refl 1)]
    rfl
  subst hy
  exact ⟨s1, by simp [process_mem_seq_next, hfind], hinv1⟩

theorem next_from_held (s0 priv : kgsl_process_private) (pos : Int) (i : Nat)
    (e : kgsl_mem_entry) (hwf0 : idr_wf s0.mem_idr) (hacq0 : ∀ e ∈ s0.mem_idr, e.refcount ≠ 0)
    (hi : s0.mem_idr[i]? = some e) (hinv : pass_inv s0 priv (.entry e.id)) :
    ∃ priv1, process_mem_seq_next priv (.entry e.id) pos
        = some (priv1, ptr_of (s0.mem_idr[i + 1]?), pos + 1)
      ∧ pass_inv s0 priv1 (ptr_of (s0.mem_idr[i + 1]?)) := by
  obtain ⟨s1, y, hfind, hinv1, _⟩ := find_step_inv s0 priv (.entry e.id) 1 hwf0 (by simp) hinv
  have hidr : priv.mem_idr = idr_acquire s0.mem_idr e.id := hinv.1
  have hwf : idr_wf priv.mem_idr := by rw [hidr]; exact idr_acquire_wf _ _ hwf0
  have hin : e ∈ s0.mem_idr := List.getElem?_mem hi
  have hy : y = ptr_of (s0.mem_idr[i + 1]?) := by
    rw [find_eq priv _ _ hwf (by simp)] at hfind
    simp only [Option.some.injEq, Prod.mk.injEq] at hfind
    rw [← hfind.2, idr_from_eq_at_least _ hwf (.entry e.id) (hwf0.2 e hin), hidr]
    simp only [cursor_lower_bound]
    have hi' : (idr_acquire s0.mem_idr e.id)[i]?
        = some { e with refcount := e.refcount + 1 } := by
      simp [idr_acquire, List.getElem?_map, hi]
    have hdrop := at_least_eq_drop (idr_acquire s0.mem_idr e.id)
      (idr_acquire_wf _ _ hwf0).1 i _ hi'
    simp only at hdrop
    rw [hdrop]
    have hacq' : ∀ a ∈ (idr_acquire s0.mem_idr e.id).drop (i + 1), a.refcount ≠ 0 := by
      intro a ha
      have ha := List.mem_of_mem_drop ha
      simp only [idr_acquire, List.mem_map] at ha
      obtain ⟨b, hb, hba⟩ := ha
      have := hacq0 b hb
      by_cases hbe : b.id = e.id
      · rw [if_pos hbe] at hba; rw [← hba]; simp
      · rw [if_neg hbe] at hba; rw [← hba]; exact this
    rw [scan_pick_all_acquirable 1 _ 1 hacq' (le_refl 1)]
    simp only [sub_self, Int.toNat_zero, List.getElem?_drop, add_zero]
    simp only [idr_acquire, List.getElem?_map]
    exact ptr_of_acquire _ _
  subst hy
  exact ⟨s1, by simp [process_mem_seq_next, hfind], hinv1⟩

theorem listing_loop_rows (h : kgsl_h) (s0 : kgsl_process_private)
    (hwf0 : idr_wf s0.mem_idr) (hacq0 : ∀ e ∈ s0.mem_idr, e.refcount ≠ 0) :
    ∀ (n fuel i : Nat) (priv : kgsl_process_private) (pos : Int) (out : String)
      (e : kgsl_mem_entry),
      s0.mem_idr.length - i = n → s0.mem_idr[i]? = some e →
      pass_inv s0 priv (.entry e.id) → n < fuel →
      ∃ priv1 pos1, seq_listing_loop h fuel priv (.entry e.id) pos out
          = some (priv1, .NULL, pos1,
              out ++ concat_rows ((s0.mem_idr.drop i).map (held_row h)))
        ∧ pass_inv s0 priv1 .NULL := by
  intro n
  induction n with
  | zero =>
    intro fuel i priv pos out e hn hi
    have := (List.getElem?_eq_some.1 hi).1
    omega
  | succ n ih =>
    intro fuel i priv pos out e hn hi hinv hf
    obtain ⟨f, rfl⟩ : ∃ f, fuel = f + 1 := ⟨fuel - 1, by omega⟩
    have hlt := (List.getElem?_eq_some.1 hi).1
    have hin : e ∈ s0.mem_idr := List.getElem?_mem hi
    have hshow : process_mem_seq_show h priv out (.entry e.id)
        = some (out ++ held_row h e, 0) := by
      simp only [process_mem_seq_show, deref_held s0 priv e hwf0 hin hinv]
      rw [print_mem_entry_append]
      rfl
    obtain ⟨priv1, hnext, hinv1⟩ := next_from_held s0 priv pos i e hwf0 hacq0 hi hinv
    have hdrop : s0.mem_idr.drop i = e :: s0.mem_idr.drop (i + 1) := by
      rw [List.drop_eq_getElem_cons hlt]
      congr 1
      exact (List.getElem?_eq_some.1 hi).2
    rw [hdrop]
    simp only [List.map_cons, concat_rows]
    rw [seq_listing_loop, if_neg (by simp), hshow, hnext]
    simp only
    cases hget : s0.mem_idr[i + 1]? with
    | none =>
      rw [hget] at hinv1
      have hnil : s0.mem_idr.drop (i + 1) = [] := by
        rw [List.drop_eq_nil_iff]
        exact List.getElem?_eq_none_iff.1 hget
      obtain ⟨g, rfl⟩ : ∃ g, f = g + 1 := ⟨f - 1, by omega⟩
      refine ⟨priv1, pos + 1, ?_, hinv1⟩
      simp [ptr_of, seq_listing_loop, hnil, concat_rows]
    | some e1 =>
      rw [hget] at hinv1
      simp only [ptr_of] at hinv1 ⊢
      obtain ⟨priv2, pos2, hloop, hinv2⟩ :=
        ih f (i + 1) priv1 (pos + 1) (out ++ held_row h e) e1 (by omega) hget hinv1 (by omega)
      exact ⟨priv2, pos2, by rw [hloop, String.append_assoc], hinv2⟩

/-- Claim C2: on an unchanged registry whose entries are all acquirable, the
complete listing (`process_mem_seq_start` at position 0, then
`process_mem_seq_show` and `process_mem_seq_next` alternately until
end-of-sequence, then `process_mem_seq_stop`) runs to its end and writes exactly
the header line followed by the rows of the entries without the sparse-virtual
flag, one newline-terminated row each, in strictly increasing id order; the
registry is left as it was. -/
theorem listing_content (h : kgsl_h) (s : kgsl_process_private) (hwf : idr_wf s.mem_idr)
    (hacq : ∀ e ∈ s.mem_idr, e.refcount ≠ 0) :
    ∃ s1, seq_listing h s
        = some (s1, mem_header
            ++ concat_rows ((visible_entries h s.mem_idr).map (held_row h)))
      ∧ s1.mem_idr = s.mem_idr
      ∧ (visible_entries h s.mem_idr).Pairwise (fun a b => a.id < b.id)
      ∧ (∀ e, e ∈ visible_entries h s.mem_idr
          ↔ e ∈ s.mem_idr ∧ e.memdesc.flags &&& h.KGSL_MEMFLAGS_SPARSE_VIRT = 0)
      ∧ (∀ e ∈ visible_entries h s.mem_idr, ∃ body, held_row h e = body ++ "\n") := by
  have hvis : ∀ e, e ∈ visible_entries h s.mem_idr
      ↔ e ∈ s.mem_idr ∧ e.memdesc.flags &&& h.KGSL_MEMFLAGS_SPARSE_VIRT = 0 := by
    intro e; simp [visible_entries]
  have hrun : ∃ s1 x pos1, seq_listing_loop h (s.mem_idr.length + 2) s .SEQ_START_TOKEN 0 ""
        = some (s1, x, pos1, mem_header ++ concat_rows (s.mem_idr.map (held_row h)))
      ∧ pass_inv s s1 x := by
    obtain ⟨priv1, hnext, hinv1⟩ := next_from_token s s 0 hwf hacq (pass_inv_init s)
    rw [seq_listing_loop, if_neg (by simp)]
    simp only [process_mem_seq_show, String.empty_append, hnext]
    cases hget : s.mem_idr[0]? with
    | none =>
      rw [hget] at hinv1
      have hnil : s.mem_idr = [] := by
        cases hl : s.mem_idr with
        | nil => rfl
        | cons a t => rw [hl] at hget; simp at hget
      refine ⟨priv1, .NULL, 0 + 1, ?_, hinv1⟩
      simp [ptr_of, seq_listing_loop, hnil, concat_rows]
    | some e =>
      rw [hget] at hinv1
      simp only [ptr_of] at hinv1 ⊢
      obtain ⟨priv2, pos2, hloop, hinv2⟩ :=
        listing_loop_rows h s hwf hacq s.mem_idr.length (s.mem_idr.length + 1) 0 priv1 (0 + 1)
          mem_header e (by omega) hget hinv1 (by omega)
      exact ⟨priv2, .NULL, pos2, by simpa using hloop, hinv2⟩
  obtain ⟨s1, x, pos1, hloop, hinv⟩ := hrun
  refine ⟨process_mem_seq_stop s1 x, ?_, (stop_of_inv s s1 x hwf hinv).1,
    List.Pairwise.filter _ hwf.1, hvis, ?_⟩
  · simp only [seq_listing, process_mem_seq_start, if_true, hloop]
    rw [concat_rows_visible]
  · intro e he
    exact held_row_visible h e ((hvis e).1 he).2

/-- Claim C2 at the registry with a plain entry 2, a sparse-virtual entry 5 and
a plain entry 7: the listing is the header, the row of entry 2 and the row of
entry 7. -/
theorem listing_content_sample :
    idr_wf proc_sparse.mem_idr ∧ (∀ e ∈ proc_sparse.mem_idr, e.refcount ≠ 0)
    ∧ visible_entries sample_kgsl_h proc_sparse.mem_idr = [plain_entry 2 1, plain_entry 7 1]
    ∧ ∃ s1, seq_listing sample_kgsl_h proc_sparse
        = some (s1, mem_header ++ concat_rows
            ((visible_entries sample_kgsl_h proc_sparse.mem_idr).map (held_row sample_kgsl_h)))
      ∧ s1.mem_idr = proc_sparse.mem_idr :=
  have h := listing_content sample_kgsl_h proc_sparse (by decide) (by decide)
  ⟨by decide, by decide, by decide, h.choose, h.choose_spec.1, h.choose_spec.2.1⟩

/-! ## C8 and C9 -/

theorem find_loop_none (l : List kgsl_process_private) (pid : Int)
    (h : (kgsl_process_private_find_loop l pid).2 = none) :
    (kgsl_process_private_find_loop l pid).1 = l := by
  induction l with
  | nil => rfl
  | cons p t ih =>
    unfold kgsl_process_private_find_loop at h ⊢
    by_cases hp : p.pid = pid
    · by_cases hr : p.refcount = 0
      · simp [hp, hr]
      · simp [hp, hr] at h
    · simp only [hp, if_false] at h ⊢
      rw [ih h]

theorem find_loop_some (l : List kgsl_process_private) (pid q : Int)
    (h : (kgsl_process_private_find_loop l pid).2 = some q) :
    q = pid
    ∧ kgsl_process_private_put_loop (kgsl_process_private_find_loop l pid).1 pid = l
    ∧ ∃ n, n ≠ 0 ∧ proc_refcount ⟨l⟩ pid = some n
        ∧ proc_refcount ⟨(kgsl_process_private_find_loop l pid).1⟩ pid = some (n + 1)
        ∧ ∀ q1, q1 ≠ pid →
            proc_refcount ⟨(kgsl_process_private_find_loop l pid).1⟩ q1 = proc_refcount ⟨l⟩ q1 := by
  induction l with
  | nil => simp [kgsl_process_private_find_loop] at h
  | cons p t ih =>
    unfold kgsl_process_private_find_loop at h ⊢
    by_cases hp : p.pid = pid
    · by_cases hr : p.refcount = 0
      · simp [hp, hr] at h
      · simp only [hp, hr, if_true, if_false, Option.some.injEq] at h ⊢
        refine ⟨h.symm, ?_, p.refcount, hr, ?_, ?_, ?_⟩
        · simp only [kgsl_process_private_put_loop, hp, if_true]
          rw [if_neg (by omega)]
          cases p; simp_all
        · simp [proc_refcount, hp]
        · simp [proc_refcount, hp]
        · intro q1 hq1
          have : ¬ (pid = q1) := fun h => hq1 h.symm
          simp [proc_refcount, hp, this]
    · simp only [hp, if_false] at h ⊢
      obtain ⟨h1, h2, n, h3, h4, h5, h6⟩ := ih h
      refine ⟨h1, ?_, n, h3, ?_, ?_, ?_⟩
      · simp only [kgsl_process_private_put_loop, hp, if_false, h2]
      · simpa [proc_refcount, hp] using h4
      · simpa [proc_refcount, hp] using h5
      · intro q1 hq1
        have := h6 q1 hq1
        by_cases hpq : p.pid = q1
        · simp [proc_refcount, hpq]
        · simpa [proc_refcount, hpq] using this

theorem put_loop_refcount (l : List kgsl_process_private) (pid : Int) (m : Nat)
    (h : proc_refcount ⟨l⟩ pid = some m) (hm : 2 ≤ m) :
    proc_refcount ⟨kgsl_process_private_put_loop l pid⟩ pid = some (m - 1)
    ∧ ∀ q1, q1 ≠ pid →
        proc_refcount ⟨kgsl_process_private_put_loop l pid⟩ q1 = proc_refcount ⟨l⟩ q1 := by
  induction l with
  | nil => simp [proc_refcount] at h
  | cons p t ih =>
    unfold kgsl_process_private_put_loop
    by_cases hp : p.pid = pid
    · have hpm : p.refcount = m := by simpa [proc_refcount, hp] using h
      simp only [hp, if_true]
      rw [if_neg (by omega)]
      refine ⟨by simp [proc_refcount, hp, hpm], ?_⟩
      intro q1 hq1
      have : ¬ (pid = q1) := fun h => hq1 h.symm
      simp [proc_refcount, hp, this]
    · simp only [hp, if_false]
      have h' : proc_refcount ⟨t⟩ pid = some m := by simpa [proc_refcount, hp] using h
      obtain ⟨h1, h2⟩ := ih h'
      refine ⟨by simpa [proc_refcount, hp] using h1, ?_⟩
      intro q1 hq1
      have := h2 q1 hq1
      by_cases hpq : p.pid = q1
      · simp [proc_refcount, hpq]
      · simpa [proc_refcount, hpq] using this

theorem others_put_refcount (pid : Int) :
    ∀ (k : Nat) (drv : kgsl_driver) (m : Nat), proc_refcount drv pid = some m → k < m →
      proc_refcount (others_put pid k drv) pid = some (m - k) := by
  intro k
  induction k with
  | zero => intro drv m h _; simpa [others_put] using h
  | succ k ih =>
    intro drv m h hk
    have h1 := (put_loop_refcount drv.process_list pid m h (by omega)).1
    have := ih (kgsl_process_private_put drv pid) (m - 1) h1 (by omega)
    simp only [others_put]
    rw [this]
    congr 1
    omega

/-- Claim C8: when `kgsl_process_private_find` reports no live process context
for the process identifier, `process_mem_open` returns `-ENODEV` and leaves the
file and the driver as they were: `seq_open` is not called, no session state is
installed, and no reference is acquired. -/
theorem open_not_found (drv : kgsl_driver) (i_private : Nat) (f : file) (ret : Int)
    (h : (kgsl_process_private_find drv (wrap_int i_private)).2 = none) :
    process_mem_open drv i_private f ret = (drv, f, -19)
    ∧ (process_mem_open drv i_private f ret).2.1.seq_open_calls = f.seq_open_calls
    ∧ (process_mem_open drv i_private f ret).2.1.private_data = f.private_data
    ∧ (process_mem_open drv i_private f ret).1.process_list = drv.process_list := by
  have hopen : process_mem_open drv i_private f ret = (drv, f, -19) := by
    have hl := find_loop_none drv.process_list (wrap_int i_private) h
    simp only [process_mem_open, h, ENODEV]
    simp only [kgsl_process_private_find, hl]
  rw [hopen]
  exact ⟨rfl, rfl, rfl, rfl⟩

/-- Claim C8 at a driver with a live process 42 and a dying process 9: opening
the listing of the unknown process 7 and of the dying process 9 fails. -/
theorem open_not_found_sample :
    (kgsl_process_private_find sample_driver (wrap_int 7)).2 = none
    ∧ process_mem_open sample_driver 7 fresh_file 0 = (sample_driver, fresh_file, -19)
    ∧ process_mem_open sample_driver 9 fresh_file 0 = (sample_driver, fresh_file, -19) :=
  ⟨by decide, (open_not_found sample_driver 7 fresh_file 0 (by decide)).1,
    (open_not_found sample_driver 9 fresh_file 0 (by decide)).1⟩

theorem find_eq_loop (drv : kgsl_driver) (pid : Int) :
    kgsl_process_private_find drv pid
      = ({ process_list := (kgsl_process_private_find_loop drv.process_list pid).1 },
          (kgsl_process_private_find_loop drv.process_list pid).2) := rfl

theorem open_unfold (drv : kgsl_driver) (i_private : Nat) (f : file) (ret : Int) :
    process_mem_open drv i_private f ret
      = (match (kgsl_process_private_find drv (wrap_int i_private)).2 with
        | none => ((kgsl_process_private_find drv (wrap_int i_private)).1, f, -ENODEV)
        | some priv =>
          if (seq_open f ret).2 ≠ 0 then
            (kgsl_process_private_put (kgsl_process_private_find drv (wrap_int i_private)).1
              priv, (seq_open f ret).1, (seq_open f ret).2)
          else
            ((kgsl_process_private_find drv (wrap_int i_private)).1,
             { private_data := (seq_open f ret).1.private_data.map
                 (fun s => { s with private_ := some priv }),
               seq_open_calls := (seq_open f ret).1.seq_open_calls },
             (seq_open f ret).2)) := rfl

/-- Claim C9: the reference on the process context is balanced over the session.
A failed `process_mem_open` (no live context, or `seq_open` failing after the
context was found) leaves every reference count as it was and returns the
failure code.  A successful one leaves exactly one more reference on the context
found, installs that context as the private state of the session, keeps the
count at 1 or more while the other holders release theirs, and is undone by
`process_mem_release`.  `process_mem_release` releases exactly one reference on
the installed context, and none when no context is installed. -/
theorem open_release_balanced (drv : kgsl_driver) (i_private : Nat) (f : file) (ret : Int) :
    ((kgsl_process_private_find drv (wrap_int i_private)).2 = none →
        process_mem_open drv i_private f ret = (drv, f, -ENODEV))
    ∧ ((kgsl_process_private_find drv (wrap_int i_private)).2 ≠ none → ret ≠ 0 →
        (process_mem_open drv i_private f ret).1 = drv
        ∧ (process_mem_open drv i_private f ret).2.2 = ret
        ∧ (process_mem_open drv i_private f ret).2.1.private_data = f.private_data)
    ∧ ((kgsl_process_private_find drv (wrap_int i_private)).2 ≠ none → ret = 0 →
        ∃ n, n ≠ 0 ∧ proc_refcount drv (wrap_int i_private) = some n
          ∧ proc_refcount (process_mem_open drv i_private f ret).1 (wrap_int i_private)
              = some (n + 1)
          ∧ (∀ q1, q1 ≠ wrap_int i_private →
              proc_refcount (process_mem_open drv i_private f ret).1 q1 = proc_refcount drv q1)
          ∧ (process_mem_open drv i_private f ret).2.1.private_data
              = some { private_ := some (wrap_int i_private) }
          ∧ (process_mem_open drv i_private f ret).2.2 = 0
          ∧ (∀ k, k ≤ n →
              proc_refcount
                (others_put (wrap_int i_private) k (process_mem_open drv i_private f ret).1)
                (wrap_int i_private) = some (n + 1 - k))
          ∧ process_mem_release (process_mem_open drv i_private f ret).1
                (process_mem_open drv i_private f ret).2.1
              = some (drv,
                  { (process_mem_open drv i_private f ret).2.1 with private_data := none }, 0))
    ∧ (∀ q, f.private_data = some { private_ := some q } →
        process_mem_release drv f
            = some (kgsl_process_private_put drv q, { f with private_data := none }, 0)
        ∧ ∀ m, proc_refcount drv q = some m → 2 ≤ m →
            proc_refcount (kgsl_process_private_put drv q) q = some (m - 1)
            ∧ ∀ q1, q1 ≠ q →
                proc_refcount (kgsl_process_private_put drv q) q1 = proc_refcount drv q1)
    ∧ (f.private_data = some { private_ := none } →
        process_mem_release drv f = some (drv, { f with private_data := none }, 0)) := by
  refine ⟨fun h => ?_, fun h hret => ?_, fun h hret => ?_, fun q hq => ?_, fun hq => ?_⟩
  · simpa [ENODEV] using (open_not_found drv i_private f ret h).1
  · rw [open_unfold]
    generalize wrap_int i_private = pid at h ⊢
    obtain ⟨q, hq⟩ := Option.ne_none_iff_exists'.1 h
    rw [find_eq_loop] at hq
    obtain ⟨hqp, hput, _⟩ := find_loop_some drv.process_list pid q hq
    have hfind : (kgsl_process_private_find drv pid).2 = some pid := by
      rw [find_eq_loop]; simp only; rw [hq, hqp]
    rw [hfind]
    simp only [seq_open, hret, if_false, ne_eq, not_false_eq_true, if_true, and_true, true_and]
    simp only [kgsl_process_private_put, find_eq_loop, hput]
  · rw [open_unfold]
    generalize wrap_int i_private = pid at h ⊢
    obtain ⟨q, hq⟩ := Option.ne_none_iff_exists'.1 h
    rw [find_eq_loop] at hq
    obtain ⟨hqp, hput, n, hn, hrc, hrc1, hoth⟩ := find_loop_some drv.process_list pid q hq
    have hfind : (kgsl_process_private_find drv pid).2 = some pid := by
      rw [find_eq_loop]; simp only; rw [hq, hqp]
    rw [hfind]
    simp only [seq_open, hret, if_true, ne_eq, not_true_eq_false, if_false, Option.map_some']
    refine ⟨n, hn, hrc, hrc1, hoth, trivial, trivial, ?_, ?_⟩
    · intro k hk
      exact others_put_refcount _ k _ (n + 1) hrc1 (by omega)
    · simp only [process_mem_release, seq_release, kgsl_process_private_put,
        find_eq_loop, hput]
  · refine ⟨by simp [process_mem_release, hq, seq_release], ?_⟩
    intro m hm h2
    exact put_loop_refcount drv.process_list q m hm h2
  · simp [process_mem_release, hq, seq_release]

/-- Claim C9 at a driver whose process 42 has one reference: a successful open
makes it two and installs the context; the release brings the driver back. -/
theorem open_release_balanced_sample :
    (kgsl_process_private_find sample_driver (wrap_int 42)).2 ≠ none
    ∧ ∃ n, n ≠ 0 ∧ proc_refcount sample_driver (wrap_int 42) = some n
      ∧ proc_refcount (process_mem_open sample_driver 42 fresh_file 0).1 (wrap_int 42)
          = some (n + 1)
      ∧ process_mem_release (process_mem_open sample_driver 42 fresh_file 0).1
            (process_mem_open sample_driver 42 fresh_file 0).2.1
          = some (sample_driver,
              { (process_mem_open sample_driver 42 fresh_file 0).2.1 with
                  private_data := none }, 0) :=
  have h := (open_release_balanced sample_driver 42 fresh_file 0).2.2.1 (by decide) rfl
  ⟨by decide, h.choose, h.choose_spec.1, h.choose_spec.2.1, h.choose_spec.2.2.1,
    h.choose_spec.2.2.2.2.2.2.2⟩

/-! ## C5 -/

/-- Claim C5 fails as stated: a session on the registry 2, 5, 7 obtains positions
1 and 2 by `process_mem_seq_next` (entries 2 and 5); another user then inserts an
entry with the id 1 and changes nothing else; position 3, obtained by
`process_mem_seq_start` after a stop, is entry 5 again, so the ids returned are
not strictly increasing. -/
theorem session_ids_repeat_after_insert :
    idr_wf proc_2_5_7.mem_idr ∧ idr_wf idr_hold_2 ∧ idr_wf idr_hold_5_inserted_1
    ∧ (process_mem_seq_next proc_2_5_7 .SEQ_START_TOKEN 0).map (fun r => (r.1.mem_idr, r.2))
        = some (idr_hold_2, .entry 2, 1)
    ∧ (process_mem_seq_next { proc_2_5_7 with mem_idr := idr_hold_2 } (.entry 2) 1).map
          (fun r => (r.1.mem_idr, r.2))
        = some (idr_hold_5, .entry 5, 2)
    ∧ idr_hold_5_inserted_1 = plain_entry 1 1 :: idr_hold_5
    ∧ session_run proc_2_5_7 .SEQ_START_TOKEN 0
        [(proc_2_5_7.mem_idr, .next), (idr_hold_2, .next), (idr_hold_5_inserted_1, .restart)]
      = some [.entry 2, .entry 5, .entry 5]
    ∧ ¬ (returned_ids [.entry 2, .entry 5, .entry 5]).Pairwise (fun a b => a < b) := by
  refine ⟨by decide, by decide, by decide, by decide, by decide, rfl, by decide, by decide⟩

theorem find_entry_above (s s1 : kgsl_process_private) (c d pos : Int)
    (hwf : idr_wf s.mem_idr) (hc : 0 ≤ c ∧ c ≤ 2147483647)
    (h : process_mem_seq_find s (.entry c) pos = some (s1, .entry d)) :
    c < d ∧ 0 ≤ d ∧ d ≤ 2147483647 := by
  rw [find_eq s _ pos hwf (by simp)] at h
  simp only [Option.some.injEq, Prod.mk.injEq] at h
  cases hpick : scan_pick pos (idr_from s.mem_idr (scan_start (.entry c))) 1 with
  | none => rw [hpick] at h; simp [ptr_of] at h
  | some e =>
    rw [hpick] at h
    simp only [ptr_of, seq_ptr.entry.injEq] at h
    obtain ⟨hmem, _, _⟩ := scan_pick_some pos e _ 1 hpick
    obtain ⟨hin, hge, hst⟩ := idr_from_mem s.mem_idr hwf.1 _ e hmem
    have hb := hwf.2 e hin
    rw [← h.2]
    exact ⟨scan_start_lt c e.id hc hge hst, hb.1, hb.2⟩

theorem find_token_index (s s1 : kgsl_process_private) (p d : Int)
    (hwf : idr_wf s.mem_idr)
    (h : process_mem_seq_find s .SEQ_START_TOKEN p = some (s1, .entry d)) :
    ∃ e, s.mem_idr[(p - 1).toNat]? = some e ∧ e.id = d ∧ 1 ≤ p := by
  rw [find_eq s _ p hwf (by simp)] at h
  simp only [Option.some.injEq, Prod.mk.injEq, scan_start, idr_from_zero _ hwf] at h
  cases hpick : scan_pick p s.mem_idr 1 with
  | none => rw [hpick] at h; simp [ptr_of] at h
  | some e =>
    rw [hpick] at h
    simp only [ptr_of, seq_ptr.entry.injEq] at h
    obtain ⟨_, _, i, hi, hp⟩ := scan_pick_some p e _ 1 hpick
    have : (p - 1).toNat = i := by omega
    exact ⟨e, by rw [this]; exact hi, h.2, by omega⟩

theorem find_ne_token (s s1 : kgsl_process_private) (x y : seq_ptr) (pos : Int)
    (hwf : idr_wf s.mem_idr) (h : process_mem_seq_find s x pos = some (s1, y)) :
    y ≠ .SEQ_START_TOKEN := by
  have hx : x ≠ .NULL := by rintro rfl; simp [process_mem_seq_find] at h
  rw [find_eq s x pos hwf hx] at h
  simp only [Option.some.injEq, Prod.mk.injEq] at h
  rw [← h.2]
  cases scan_pick pos (idr_from s.mem_idr (scan_start x)) 1 <;> simp [ptr_of]

theorem above_prefix (lim : Int) (l : List kgsl_mem_entry)
    (hs : l.Pairwise (fun a b => a.id < b.id)) :
    ∀ (n : Nat) (e : kgsl_mem_entry),
      (l.filter (fun e => decide (e.id ≤ lim))).length ≤ n → l[n]? = some e → lim < e.id := by
  induction l with
  | nil => intro n e _ h; simp at h
  | cons a t ih =>
    rw [List.pairwise_cons] at hs
    intro n e hlen hget
    by_cases ha : a.id ≤ lim
    · rw [List.filter_cons_of_pos (by simpa using ha)] at hlen
      simp only [List.length_cons] at hlen
      cases n with
      | zero => omega
      | succ m =>
        simp only [List.getElem?_cons_succ] at hget
        exact ih hs.2 m e (by omega) hget
    · cases n with
      | zero =>
        simp only [List.getElem?_cons_zero, Option.some.injEq] at hget
        rw [← hget]; omega
      | succ m =>
        simp only [List.getElem?_cons_succ] at hget
        have := hs.1 e (List.getElem?_mem hget)
        omega

theorem release_filter_length (lim c : Int) (l : List kgsl_mem_entry) :
    ((idr_release l c).filter (fun e => decide (e.id ≤ lim))).length
      ≤ (l.filter (fun e => decide (e.id ≤ lim))).length := by
  induction l with
  | nil => simp [idr_release]
  | cons a t ih =>
    unfold idr_release at ih ⊢
    rw [List.filterMap_cons]
    by_cases hac : a.id = c
    · by_cases h1 : a.refcount = 1
      · simp only [hac, h1, if_true]
        by_cases ha : a.id ≤ lim
        · rw [List.filter_cons_of_pos (by simpa using ha)]
          simp only [List.length_cons]; omega
        · rw [List.filter_cons_of_neg (by simpa using ha)]
          exact ih
      · simp only [hac, h1, if_true, if_false]
        by_cases ha : a.id ≤ lim
        · rw [List.filter_cons_of_pos (by simpa [hac] using ha),
            List.filter_cons_of_pos (by simpa using ha)]
          simp only [List.length_cons]; omega
        · rw [List.filter_cons_of_neg (by simpa [hac] using ha),
            List.filter_cons_of_neg (by simpa using ha)]
          exact ih
    · simp only [hac, if_false]
      by_cases ha : a.id ≤ lim
      · rw [List.filter_cons_of_pos (by simpa using ha),
          List.filter_cons_of_pos (by simpa using ha)]
        simp only [List.length_cons]; omega
      · rw [List.filter_cons_of_neg (by simpa using ha),
          List.filter_cons_of_neg (by simpa using ha)]
        exact ih

theorem session_step_above (last : Option Int) (s s1 : kgsl_process_private) (x y : seq_ptr)
    (pos pos1 : Int) (rq : seq_request) (hwf : idr_wf s.mem_idr) (hpos : 0 ≤ pos)
    (htok : x = .SEQ_START_TOKEN → last = none)
    (hcur : ∀ c, x = .entry c → last = some c ∧ 0 ≤ c ∧ c ≤ 2147483647)
    (hcount : rq = .restart → ∀ l, last = some l →
      ((s.mem_idr.filter (fun e => decide (e.id ≤ l))).length : Int) ≤ pos)
    (h : session_step s x pos rq = some (s1, y, pos1)) :
    0 ≤ pos1 ∧ y ≠ .SEQ_START_TOKEN
    ∧ ∀ d, y = .entry d → (0 ≤ d ∧ d ≤ 2147483647) ∧ ∀ l, last = some l → l < d := by
  cases rq with
  | next =>
    simp only [session_step, process_mem_seq_next] at h
    cases hf : process_mem_seq_find s x 1 with
    | none => rw [hf] at h; simp at h
    | some r =>
      obtain ⟨s2, y2⟩ := r
      rw [hf] at h
      simp only [Option.some.injEq, Prod.mk.injEq] at h
      obtain ⟨_, hy, hp⟩ := h
      subst hy
      refine ⟨by omega, find_ne_token s s2 x y2 1 hwf hf, ?_⟩
      intro d hd
      subst hd
      cases x with
      | NULL => simp [process_mem_seq_find] at hf
      | SEQ_START_TOKEN =>
        obtain ⟨e, he, hed, _⟩ := find_token_index s s2 1 d hwf hf
        have hb := hwf.2 e (List.getElem?_mem he)
        rw [hed] at hb
        refine ⟨hb, ?_⟩
        intro l hl
        rw [htok rfl] at hl
        exact absurd hl (by simp)
      | entry c =>
        obtain ⟨hl, hc⟩ := hcur c rfl
        obtain ⟨h1, h2⟩ := find_entry_above s s2 c d 1 hwf hc hf
        refine ⟨h2, ?_⟩
        intro l hl2
        rw [hl] at hl2
        cases hl2
        exact h1
  | restart =>
    simp only [session_step] at h
    cases hf : process_mem_seq_start (process_mem_seq_stop s x) (pos + 1) with
    | none => rw [hf] at h; simp at h
    | some r =>
      obtain ⟨s2, y2⟩ := r
      rw [hf] at h
      simp only [Option.some.injEq, Prod.mk.injEq] at h
      obtain ⟨_, hy, hp⟩ := h
      subst hy
      have hne : ¬ (pos + 1 = 0) := by omega
      rw [process_mem_seq_start, if_neg hne] at hf
      have hwf2 : idr_wf (process_mem_seq_stop s x).mem_idr := by
        cases x with
        | NULL => exact hwf
        | SEQ_START_TOKEN => exact hwf
        | entry c => exact idr_release_wf _ _ hwf
      refine ⟨by omega, find_ne_token _ s2 _ y2 _ hwf2 hf, ?_⟩
      intro d hd
      subst hd
      obtain ⟨e, he, hed, _⟩ := find_token_index _ s2 (pos + 1) d hwf2 hf
      have hb := hwf2.2 e (List.getElem?_mem he)
      rw [hed] at hb
      refine ⟨hb, ?_⟩
      intro l hl
      have hc := hcount rfl l hl
      have hlen : ((process_mem_seq_stop s x).mem_idr.filter
          (fun e => decide (e.id ≤ l))).length ≤ (pos + 1 - 1).toNat := by
        have h1 : ((process_mem_seq_stop s x).mem_idr.filter
            (fun e => decide (e.id ≤ l))).length
            ≤ (s.mem_idr.filter (fun e => decide (e.id ≤ l))).length := by
          cases x with
          | NULL => exact le_refl _
          | SEQ_START_TOKEN => exact le_refl _
          | entry c => exact release_filter_length l c s.mem_idr
        omega
      rw [← hed]
      exact above_prefix l _ hwf2.1 _ e hlen he

theorem session_step_total (s : kgsl_process_private) (x : seq_ptr) (pos : Int)
    (rq : seq_request) (hwf : idr_wf s.mem_idr) (hpos : 0 ≤ pos)
    (hrq : ¬ (rq = .next ∧ x = .NULL)) : ∃ r, session_step s x pos rq = some r := by
  cases rq with
  | next =>
    have hx : x ≠ .NULL := fun h => hrq ⟨rfl, h⟩
    simp only [session_step, process_mem_seq_next, find_eq s x 1 hwf hx]
    exact ⟨_, rfl⟩
  | restart =>
    have hne : ¬ (pos + 1 = 0) := by omega
    have hwf2 : idr_wf (process_mem_seq_stop s x).mem_idr := by
      cases x with
      | NULL => exact hwf
      | SEQ_START_TOKEN => exact hwf
      | entry c => exact idr_release_wf _ _ hwf
    simp only [session_step, process_mem_seq_start, if_neg hne,
      find_eq _ .SEQ_START_TOKEN (pos + 1) hwf2 (by simp)]
    exact ⟨_, rfl⟩

theorem session_ids_above :
    ∀ (steps : List (List kgsl_mem_entry × seq_request)) (last : Option Int)
      (s : kgsl_process_private) (x : seq_ptr) (pos : Int),
      0 ≤ pos → (x = .SEQ_START_TOKEN → last = none) →
      (∀ c, x = .entry c → last = some c ∧ 0 ≤ c ∧ c ≤ 2147483647) →
      restarts_above last s x pos steps →
      ∃ vals, session_run s x pos steps = some vals
        ∧ (returned_ids vals).Pairwise (fun a b => a < b)
        ∧ ∀ l, last = some l → ∀ d ∈ returned_ids vals, l < d := by
  intro steps
  induction steps with
  | nil =>
    intro last s x pos _ _ _ _
    exact ⟨[], rfl, by simp [returned_ids], by simp [returned_ids]⟩
  | cons st rest ih =>
    obtain ⟨idr, rq⟩ := st
    intro last s x pos hpos htok hcur hadm
    by_cases hskip : rq = .next ∧ x = .NULL
    · rw [restarts_above, if_pos hskip] at hadm
      rw [session_run, if_pos hskip]
      exact ih last s x pos hpos htok hcur hadm
    · rw [restarts_above, if_neg hskip] at hadm
      obtain ⟨hwf, hcount, hrest⟩ := hadm
      obtain ⟨r, hstep⟩ :=
        session_step_total { s with mem_idr := idr } x pos rq hwf hpos hskip
      obtain ⟨s1, y, pos1⟩ := r
      rw [hstep] at hrest
      simp only at hrest
      obtain ⟨hpos1, hytok, hy⟩ :=
        session_step_above last { s with mem_idr := idr } s1 x y pos pos1 rq hwf hpos htok hcur
          (fun hr l hl => by
            have := hcount hr
            rw [hl] at this
            exact this) hstep
      obtain ⟨vals, hrun, hsorted, hbound⟩ := ih (last_after last y) s1 y pos1 hpos1
        (fun h => absurd h hytok)
        (fun c hc => ⟨by rw [hc]; rfl, (hy c hc).1⟩) hrest
      refine ⟨y :: vals, by simp [session_run, hskip, hstep, hrun], ?_, ?_⟩
      · cases y with
        | NULL => simpa [returned_ids, held_ids] using hsorted
        | SEQ_START_TOKEN => exact absurd rfl hytok
        | entry d =>
          have hs : returned_ids (.entry d :: vals) = d :: returned_ids vals := by
            simp [returned_ids, held_ids]
          rw [hs, List.pairwise_cons]
          exact ⟨fun b hb => hbound d rfl b hb, hsorted⟩
      · intro l hl b hb
        cases y with
        | NULL =>
          have hs : returned_ids (.NULL :: vals) = returned_ids vals := by
            simp [returned_ids, held_ids]
          rw [hs] at hb
          exact hbound l hl b hb
        | SEQ_START_TOKEN => exact absurd rfl hytok
        | entry d =>
          have hs : returned_ids (.entry d :: vals) = d :: returned_ids vals := by
            simp [returned_ids, held_ids]
          rw [hs] at hb
          have hld := (hy d rfl).2 l hl
          rcases List.mem_cons.1 hb with h1 | h1
          · rw [h1]; exact hld
          · have := hbound d rfl b h1
            omega

/-- Claim C5 as amended: in a session that requests positions in increasing
order, whatever the other users insert into and remove from the registry
between the requests, the ids of the entries returned are strictly increasing,
provided that whenever a position is obtained by `process_mem_seq_start` after a
stop at position `pos`, at most `pos` entries of the registry have an id less
than or equal to the last id returned.  Positions obtained by
`process_mem_seq_next` need no such condition.  The session runs to its end. -/
theorem session_ids_increasing (s : kgsl_process_private)
    (steps : List (List kgsl_mem_entry × seq_request))
    (hadm : restarts_above none s .SEQ_START_TOKEN 0 steps) :
    ∃ vals, session_run s .SEQ_START_TOKEN 0 steps = some vals
      ∧ (returned_ids vals).Pairwise (fun a b => a < b) := by
  obtain ⟨vals, h1, h2, _⟩ := session_ids_above steps none s .SEQ_START_TOKEN 0 (le_refl 0)
    (fun _ => rfl) (fun c hc => by cases hc) hadm
  exact ⟨vals, h1, h2⟩

/-- Claim C5 as amended, at a session on the registry 1, 2, 5, 7: positions 1 and
2 by `process_mem_seq_next` (entries 1 and 2), then entry 1 is removed and an
entry 7 is in place above the cursor, and position 3 by `process_mem_seq_start`
after a stop is entry 7: an entry is passed over, the ids still increase. -/
theorem session_ids_increasing_sample :
    restarts_above none proc_2_5_7 .SEQ_START_TOKEN 0
      [(idr_with_1, .next), ([plain_entry 1 2, plain_entry 2 1, plain_entry 5 1,
          plain_entry 7 1], .next), (idr_hold_2, .restart)]
    ∧ ∃ vals, session_run proc_2_5_7 .SEQ_START_TOKEN 0
        [(idr_with_1, .next), ([plain_entry 1 2, plain_entry 2 1, plain_entry 5 1,
          plain_entry 7 1], .next), (idr_hold_2, .restart)] = some vals
      ∧ (returned_ids vals).Pairwise (fun a b => a < b) :=
  ⟨by decide, session_ids_increasing proc_2_5_7 _ (by decide)⟩

/-! ## C11, C12, C13: the flag string -/

theorem ilog2_SZ_1M : (ilog2 SZ_1M : Int) = 20 := by decide

theorem ilog2_SZ_64K : (ilog2 SZ_64K : Int) = 16 := by decide

theorem pad_left_of_le (w : Nat) (s : String) (h : w ≤ s.length) : pad_left w s = s := by
  unfold pad_left
  rw [Nat.sub_eq_zero_of_le h]
  exact String.ext (by simp)

theorem get_alignflag_ne_nul (h : kgsl_h) (m : kgsl_memdesc) :
    get_alignflag h m ≠ Char.ofNat 0 := by
  unfold get_alignflag
  simp only
  split
  · decide
  · split <;> decide

theorem get_cacheflag_ne_nul (h : kgsl_h) (m : kgsl_memdesc) :
    get_cacheflag h m ≠ Char.ofNat 0 := by
  unfold get_cacheflag
  split <;> decide

theorem ite_char_ne_nul (p : Prop) [Decidable p] (a b : Char) (ha : a ≠ Char.ofNat 0)
    (hb : b ≠ Char.ofNat 0) : (if p then a else b) ≠ Char.ofNat 0 := by
  split
  · exact ha
  · exact hb

theorem flags_ne_nul (h : kgsl_h) (e : kgsl_mem_entry) :
    ∀ c ∈ (mem_entry_flags h e).data, c ≠ Char.ofNat 0 := by
  intro c hc
  unfold mem_entry_flags at hc
  simp only [List.mem_cons, List.mem_singleton, List.not_mem_nil, or_false] at hc
  have d1 : ('-' : Char) ≠ Char.ofNat 0 := by decide
  rcases hc with hc | hc | hc | hc | hc | hc | hc | hc | hc <;> rw [hc]
  · exact ite_char_ne_nul _ 'g' '-' (by decide) d1
  · exact d1
  · exact ite_char_ne_nul _ 'w' '-' (by decide) d1
  · exact get_alignflag_ne_nul h e.memdesc
  · exact get_cacheflag_ne_nul h e.memdesc
  · exact ite_char_ne_nul _ 'p' '-' (by decide) d1
  · exact ite_char_ne_nul _ 'Y' 'N' (by decide) (by decide)
  · exact ite_char_ne_nul _ 's' '-' (by decide) d1
  · exact ite_char_ne_nul _ 'P' '-' (by decide) d1

/-- The conversion `%9s` prints the flag string as it is: nine characters, none
of them NUL. -/
theorem fmt_s_flags (h : kgsl_h) (e : kgsl_mem_entry) :
    fmt_s 9 (mem_entry_flags h e) = mem_entry_flags h e := by
  have hc : c_str (mem_entry_flags h e) = mem_entry_flags h e := by
    unfold c_str
    apply String.ext
    simp only
    rw [List.takeWhile_eq_self_iff]
    intro c hc
    simpa using flags_ne_nul h e c hc
  unfold fmt_s
  rw [hc]
  exact pad_left_of_le 9 _ (by simp [mem_entry_flags, String.length])

/-- What `print_mem_entry` writes for an entry that is not a sparse-virtual
reservation: the fields of `row_fields` separated by single spaces, then a
space and the metadata if there is any, then a newline. -/
theorem print_mem_entry_row (h : kgsl_h) (s : String) (e : kgsl_mem_entry)
    (hsv : e.memdesc.flags &&& h.KGSL_MEMFLAGS_SPARSE_VIRT = 0) :
    print_mem_entry h s e
      = (s ++ join_spaces (row_fields h e)
          ++ (if c_str e.metadata ≠ "" then " " ++ c_str e.metadata else "") ++ "\n", 0) := by
  unfold print_mem_entry
  rw [if_neg (by simpa using hsv)]
  simp only [Prod.mk.injEq, and_true]
  by_cases hm : c_str e.metadata ≠ ""
  · rw [if_pos hm, if_pos hm]
    apply String.ext
    simp [row_fields, join_spaces, List.append_assoc]
  · rw [if_neg hm, if_neg hm]
    apply String.ext
    simp [row_fields, join_spaces, List.append_assoc]

/-- Claim C11: for every entry without the sparse-virtual flag, the flags column
that `print_mem_entry` prints is the flag string, which has exactly 9
characters, each determined by its own condition: (1) `g` if global else `-`;
(2) `-`; (3) `w` unless the read-only flag is set; (4) `L` if the alignment
exponent is at least 20, `l` if it is at least 16 and below 20, else `-`;
(5) `-`, `u`, `b`, `t` for write-combine, uncached, writeback, writethrough;
(6) `p` if cpu-map is preferred else `-`; (8) `s` if secured else `-`;
(9) `P` if the sparse-physical flag is set else `-`. -/
theorem flag_string_by_position (h : kgsl_h) (s : String) (e : kgsl_mem_entry)
    (hsv : e.memdesc.flags &&& h.KGSL_MEMFLAGS_SPARSE_VIRT = 0) :
    (print_mem_entry h s e).1
        = s ++ join_spaces (row_fields h e)
          ++ (if c_str e.metadata ≠ "" then " " ++ c_str e.metadata else "") ++ "\n"
    ∧ (row_fields h e)[4]? = some (mem_entry_flags h e)
    ∧ (mem_entry_flags h e).length = 9
    ∧ (mem_entry_flags h e).data[0]?
        = some (if h.kgsl_memdesc_is_global e.memdesc = true then 'g' else '-')
    ∧ (mem_entry_flags h e).data[1]? = some '-'
    ∧ (mem_entry_flags h e).data[2]?
        = some (if e.memdesc.flags &&& h.KGSL_MEMFLAGS_GPUREADONLY = 0 then 'w' else '-')
    ∧ (mem_entry_flags h e).data[3]?
        = some (if 20 ≤ h.kgsl_memdesc_get_align e.memdesc then 'L'
                else if 16 ≤ h.kgsl_memdesc_get_align e.memdesc then 'l' else '-')
    ∧ (mem_entry_flags h e).data[4]?
        = some (match h.kgsl_memdesc_get_cachemode e.memdesc with
                | .KGSL_CACHEMODE_WRITECOMBINE => '-'
                | .KGSL_CACHEMODE_UNCACHED => 'u'
                | .KGSL_CACHEMODE_WRITEBACK => 'b'
                | .KGSL_CACHEMODE_WRITETHROUGH => 't')
    ∧ (mem_entry_flags h e).data[5]?
        = some (if h.kgsl_memdesc_use_cpu_map e.memdesc = true then 'p' else '-')
    ∧ (mem_entry_flags h e).data[7]?
        = some (if h.kgsl_memdesc_is_secured e.memdesc = true then 's' else '-')
    ∧ (mem_entry_flags h e).data[8]?
        = some (if e.memdesc.flags &&& h.KGSL_MEMFLAGS_SPARSE_PHYS ≠ 0 then 'P' else '-') := by
  refine ⟨by rw [print_mem_entry_row h s e hsv], ?_, rfl, rfl, rfl, rfl, ?_, rfl, rfl, rfl, rfl⟩
  · simp [row_fields, fmt_s_flags]
  · simp only [mem_entry_flags, get_alignflag, ilog2_SZ_1M, ilog2_SZ_64K, ge_iff_le,
      List.getElem?_cons_succ, List.getElem?_cons_zero]

/-- Claim C11 at `flag_sample_entry`: the flag string is `g-wLbpYs-`. -/
theorem flag_string_by_position_sample :
    flag_sample_entry.memdesc.flags &&& sample_kgsl_h.KGSL_MEMFLAGS_SPARSE_VIRT = 0
    ∧ (row_fields sample_kgsl_h flag_sample_entry)[4]?
        = some (mem_entry_flags sample_kgsl_h flag_sample_entry)
    ∧ mem_entry_flags sample_kgsl_h flag_sample_entry = "g-wLbpYs-" :=
  ⟨by decide, (flag_string_by_position sample_kgsl_h "" flag_sample_entry (by decide)).2.1,
    by decide⟩

/-- Claim C12 fails as stated: for the global, writable, 2 MiB-aligned,
writeback-cached, cpu-map-preferring, mapped, secured entry
`flag_sample_entry` the flag string is the 9 characters `g-wLbpYs-`, with no
space in it; it is not the 10 characters `g-wLbp Ys-`. -/
theorem flag_string_has_no_space :
    sample_kgsl_h.kgsl_memdesc_is_global flag_sample_entry.memdesc = true
    ∧ flag_sample_entry.memdesc.flags &&& sample_kgsl_h.KGSL_MEMFLAGS_GPUREADONLY = 0
    ∧ sample_kgsl_h.kgsl_memdesc_get_align flag_sample_entry.memdesc = 21
    ∧ sample_kgsl_h.kgsl_memdesc_get_cachemode flag_sample_entry.memdesc
        = .KGSL_CACHEMODE_WRITEBACK
    ∧ sample_kgsl_h.kgsl_memdesc_use_cpu_map flag_sample_entry.memdesc = true
    ∧ 0 < flag_sample_entry.map_count
    ∧ sample_kgsl_h.kgsl_memdesc_is_secured flag_sample_entry.memdesc = true
    ∧ flag_sample_entry.memdesc.flags &&& sample_kgsl_h.KGSL_MEMFLAGS_SPARSE_PHYS = 0
    ∧ flag_sample_entry.memdesc.flags &&& sample_kgsl_h.KGSL_MEMFLAGS_SPARSE_VIRT = 0
    ∧ mem_entry_flags sample_kgsl_h flag_sample_entry = "g-wLbpYs-"
    ∧ mem_entry_flags sample_kgsl_h flag_sample_entry ≠ "g-wLbp Ys-" := by
  decide

/-- Claim C12 as amended: for an entry that is global, writable, aligned to
2 MiB (alignment exponent 21), writeback-cached, cpu-map-preferring, mapped
(map count above 0), secured, and neither sparse-physical nor sparse-virtual,
`print_mem_entry` renders the flag string `g-wLbpYs-` in the flags column. -/
theorem flag_string_all_set (h : kgsl_h) (e : kgsl_mem_entry)
    (hglobal : h.kgsl_memdesc_is_global e.memdesc = true)
    (hwritable : e.memdesc.flags &&& h.KGSL_MEMFLAGS_GPUREADONLY = 0)
    (halign : h.kgsl_memdesc_get_align e.memdesc = 21)
    (hcache : h.kgsl_memdesc_get_cachemode e.memdesc = .KGSL_CACHEMODE_WRITEBACK)
    (hcpu : h.kgsl_memdesc_use_cpu_map e.memdesc = true)
    (hmapped : 0 < e.map_count)
    (hsecured : h.kgsl_memdesc_is_secured e.memdesc = true)
    (hphys : e.memdesc.flags &&& h.KGSL_MEMFLAGS_SPARSE_PHYS = 0)
    (hsv : e.memdesc.flags &&& h.KGSL_MEMFLAGS_SPARSE_VIRT = 0) :
    mem_entry_flags h e = "g-wLbpYs-"
    ∧ (row_fields h e)[4]? = some "g-wLbpYs-"
    ∧ ∀ s, (print_mem_entry h s e).1
        = s ++ join_spaces (row_fields h e)
          ++ (if c_str e.metadata ≠ "" then " " ++ c_str e.metadata else "") ++ "\n" := by
  have hm : e.map_count ≠ 0 := by omega
  have hf : mem_entry_flags h e = "g-wLbpYs-" := by
    simp only [mem_entry_flags, get_alignflag, get_cacheflag, hglobal, hwritable, halign,
      hcache, hcpu, hsecured, hphys, ilog2_SZ_1M]
    rw [if_pos hm]
    rfl
  refine ⟨hf, ?_, fun s => by rw [print_mem_entry_row h s e hsv]⟩
  rw [← hf]
  simp [row_fields, fmt_s_flags]

/-- Claim C12 as amended, at `flag_sample_entry`. -/
theorem flag_string_all_set_sample :
    mem_entry_flags sample_kgsl_h flag_sample_entry = "g-wLbpYs-"
    ∧ (row_fields sample_kgsl_h flag_sample_entry)[4]? = some "g-wLbpYs-" :=
  have h := flag_string_all_set sample_kgsl_h flag_sample_entry (by decide) (by decide)
    (by decide) (by decide) (by decide) (by decide) (by decide) (by decide) (by decide)
  ⟨h.1, h.2.1⟩

/-- Claim C13 fails as stated: the entry `negative_map_entry` has no
sparse-virtual flag and a map count of -1, which is not greater than 0, and the
seventh character of its flag string is `Y`, not `N`. -/
theorem mapped_flag_at_negative_count :
    negative_map_entry.memdesc.flags &&& sample_kgsl_h.KGSL_MEMFLAGS_SPARSE_VIRT = 0
    ∧ ¬ (0 < negative_map_entry.map_count)
    ∧ (mem_entry_flags sample_kgsl_h negative_map_entry).data[6]? = some 'Y'
    ∧ (mem_entry_flags sample_kgsl_h negative_map_entry).data[6]? ≠ some 'N' := by
  decide

/-- Claim C13 as amended: for every entry without the sparse-virtual flag and
every value of its map counter, the seventh character of the flag string that
`print_mem_entry` prints is `Y` if the map count is not zero and `N` if it is
zero; for a map count that is not negative that is `Y` exactly when the count
is greater than 0. -/
theorem mapped_flag_nonzero (h : kgsl_h) (e : kgsl_mem_entry)
    (hsv : e.memdesc.flags &&& h.KGSL_MEMFLAGS_SPARSE_VIRT = 0) :
    (∀ s, (print_mem_entry h s e).1
        = s ++ join_spaces (row_fields h e)
          ++ (if c_str e.metadata ≠ "" then " " ++ c_str e.metadata else "") ++ "\n")
    ∧ (row_fields h e)[4]? = some (mem_entry_flags h e)
    ∧ (mem_entry_flags h e).data[6]? = some (if e.map_count ≠ 0 then 'Y' else 'N')
    ∧ (0 ≤ e.map_count →
        (mem_entry_flags h e).data[6]? = some (if 0 < e.map_count then 'Y' else 'N')) := by
  refine ⟨fun s => by rw [print_mem_entry_row h s e hsv], ?_, rfl, ?_⟩
  · simp [row_fields, fmt_s_flags]
  · intro h0
    by_cases hz : e.map_count = 0
    · simp [mem_entry_flags, hz]
    · have hp : 0 < e.map_count := by omega
      simp [mem_entry_flags, hz, hp]

/-- Claim C13 as amended, at `flag_sample_entry` (map count 2) and at
`negative_map_entry` (map count -1). -/
theorem mapped_flag_nonzero_sample :
    (mem_entry_flags sample_kgsl_h flag_sample_entry).data[6]? = some 'Y'
    ∧ (mem_entry_flags sample_kgsl_h negative_map_entry).data[6]? = some 'Y' :=
  ⟨(mapped_flag_nonzero sample_kgsl_h flag_sample_entry (by decide)).2.2.1,
    (mapped_flag_nonzero sample_kgsl_h negative_map_entry (by decide)).2.2.1⟩

/-! ## C14: the columns of the header and of a row -/

set_option maxRecDepth 100000 in
theorem header_words : split_ws mem_header = mem_header_labels := by decide

set_option maxRecDepth 100000 in
theorem header_columns :
    mem_header
      = join_spaces (List.zipWith pad_left [16, 16, 16, 5, 9, 10, 16, 5, 16, 6, 6]
          mem_header_labels) ++ "\n" := by decide

theorem join_spaces_chars (c : Char) :
    ∀ l : List String, c ∈ (join_spaces l).data → c = ' ' ∨ ∃ f ∈ l, c ∈ f.data := by
  intro l
  induction l with
  | nil => intro h; simp [join_spaces] at h
  | cons a t ih =>
    intro h
    cases t with
    | nil =>
      simp only [join_spaces] at h
      exact Or.inr ⟨a, by simp, h⟩
    | cons b rest =>
      simp only [join_spaces, String.data_append, List.mem_append] at h
      rcases h with (h | h) | h
      · exact Or.inr ⟨a, by simp, h⟩
      · left
        simpa using h
      · rcases ih h with h1 | ⟨f, hf, hc⟩
        · exact Or.inl h1
        · exact Or.inr ⟨f, List.mem_cons_of_mem _ hf, hc⟩

theorem row_fields_columns (h : kgsl_h) (e : kgsl_mem_entry) :
    row_fields h e
      = [h.pointer_pK e.memdesc.gpuaddr, h.pointer_pK 0]
        ++ List.zipWith pad_left [16, 5, 9, 10, 16, 5, 16, 6, 6]
          [toString e.memdesc.size, toString e.id, mem_entry_flags h e,
           c_str (memtype_str h (wrap_int (h.kgsl_memdesc_usermem_type e.memdesc))),
           c_str (h.kgsl_get_memory_usage 16 e.memdesc.flags),
           toString (sglen e.memdesc), toString e.map_count,
           toString (egl_counts h e).1, toString (egl_counts h e).2] := by
  have hf := fmt_s_flags h e
  simp only [fmt_s] at hf
  simp only [row_fields, fmt_s, fmt_d, fmt_llu, sglen, egl_counts, List.zipWith_cons_cons,
    List.zipWith_nil_right, List.cons_append, List.nil_append, hf]
  rw [pad_left_of_le 9 (mem_entry_flags h e) (by simp [mem_entry_flags, String.length])]

/-- Claim C14: the header row that `process_mem_seq_show` prints for the header
token consists, split on whitespace, of the 11 labels gpuaddr, useraddr, size,
id, flags, type, usage, sglen, mapcount, eglsrf, eglimg in that order,
right-justified in fields of 16, 16, 16, 5, 9, 10, 16, 5, 16, 6, 6 characters.
For every entry without the sparse-virtual flag `print_mem_entry` returns 0 and
appends one line ended by a newline: the GPU address, the useraddr placeholder
(always the pointer 0), then, right-justified in fields of 16, 5, 9, 10, 16, 5,
16, 6, 6 characters, size, id, flag string, allocator-type string, usage
string, scatter-gather segment count (0 without a scatter-gather table), map
count, eglsrf, eglimg, separated by single spaces, followed by a single space
and the metadata if and only if the metadata is not empty.  The newline that
ends the line is the only one when the strings printed contain none. -/
theorem header_and_row_columns (h : kgsl_h) (s : String) (e : kgsl_mem_entry)
    (hsv : e.memdesc.flags &&& h.KGSL_MEMFLAGS_SPARSE_VIRT = 0) :
    process_mem_seq_show h ⟨0, 0, [], []⟩ s .SEQ_START_TOKEN = some (s ++ mem_header, 0)
    ∧ split_ws mem_header = mem_header_labels
    ∧ mem_header
        = join_spaces (List.zipWith pad_left [16, 16, 16, 5, 9, 10, 16, 5, 16, 6, 6]
            mem_header_labels) ++ "\n"
    ∧ print_mem_entry h s e
        = (s ++ join_spaces (row_fields h e)
            ++ (if c_str e.metadata ≠ "" then " " ++ c_str e.metadata else "") ++ "\n", 0)
    ∧ row_fields h e
        = [h.pointer_pK e.memdesc.gpuaddr, h.pointer_pK 0]
          ++ List.zipWith pad_left [16, 5, 9, 10, 16, 5, 16, 6, 6]
            [toString e.memdesc.size, toString e.id, mem_entry_flags h e,
             c_str (memtype_str h (wrap_int (h.kgsl_memdesc_usermem_type e.memdesc))),
             c_str (h.kgsl_get_memory_usage 16 e.memdesc.flags),
             toString (sglen e.memdesc), toString e.map_count,
             toString (egl_counts h e).1, toString (egl_counts h e).2]
    ∧ (e.memdesc.sgt = none → sglen e.memdesc = 0)
    ∧ (∀ t, e.memdesc.sgt = some t → t.nents < 2147483648 → sglen e.memdesc = t.nents)
    ∧ ((∀ f ∈ row_fields h e, '\n' ∉ f.data) → '\n' ∉ (c_str e.metadata).data →
        '\n' ∉ (join_spaces (row_fields h e)
          ++ (if c_str e.metadata ≠ "" then " " ++ c_str e.metadata else "")).data) := by
  refine ⟨rfl, header_words, header_columns, print_mem_entry_row h s e hsv,
    row_fields_columns h e, ?_, ?_, ?_⟩
  · intro hn
    simp only [sglen, hn]
    decide
  · intro t ht hlt
    simp only [sglen, ht, wrap_int]
    omega
  · intro hfields hmeta hmem
    simp only [String.data_append, List.mem_append] at hmem
    rcases hmem with hmem | hmem
    · rcases join_spaces_chars '\n' _ hmem with h1 | ⟨f, hf, hc⟩
      · exact absurd h1 (by decide)
      · exact hfields f hf hc
    · by_cases hm : c_str e.metadata ≠ ""
      · rw [if_pos hm] at hmem
        simp only [String.data_append, List.mem_append] at hmem
        rcases hmem with h1 | h1
        · exact absurd h1 (by decide)
        · exact hmeta h1
      · rw [if_neg hm] at hmem
        exact absurd hmem (by decide)

set_option maxRecDepth 100000 in
/-- Claim C14 at `flag_sample_entry`, and at the same entry with metadata: the
rows written. -/
theorem header_and_row_columns_sample :
    flag_sample_entry.memdesc.flags &&& sample_kgsl_h.KGSL_MEMFLAGS_SPARSE_VIRT = 0
    ∧ print_mem_entry sample_kgsl_h "" flag_sample_entry
        = ("" ++ join_spaces (row_fields sample_kgsl_h flag_sample_entry)
            ++ (if c_str flag_sample_entry.metadata ≠ "" then
                  " " ++ c_str flag_sample_entry.metadata else "") ++ "\n", 0)
    ∧ (print_mem_entry sample_kgsl_h "" flag_sample_entry).1
        = "0000000000003000 0000000000000000          2097152     4 g-wLbpYs-"
          ++ "     gpumem           any(0)     3                2      0      0\n"
    ∧ (print_mem_entry sample_kgsl_h "" { flag_sample_entry with metadata := "surface" }).1
        = "0000000000003000 0000000000000000          2097152     4 g-wLbpYs-"
          ++ "     gpumem           any(0)     3                2      0      0 surface\n" :=
  ⟨by decide,
    (header_and_row_columns sample_kgsl_h "" flag_sample_entry (by decide)).2.2.2.1,
    by decide, by decide⟩

/-! ## C15: memtype_str -/

theorem memtype_str_loop_find (table : List type_entry) (memtype : Int) :
    memtype_str_loop table memtype
      = match table.find? (fun t => decide (t.type = memtype)) with
        | some t => t.str
        | none => "unknown" := by
  induction table with
  | nil => rfl
  | cons a rest ih =>
    by_cases ha : a.type = memtype
    · simp [memtype_str_loop, ha]
    · simp only [memtype_str_loop, ha, if_false]
      rw [List.find?_cons_of_neg _ (by simpa using ha)]
      exact ih

theorem memtype_str_by_index_eq (table : List type_entry) (memtype : Int) :
    ∀ (fuel i : Nat), table.length - i < fuel →
      memtype_str_by_index table memtype fuel i
        = some (memtype_str_loop (table.drop i) memtype) := by
  intro fuel
  induction fuel with
  | zero => intro i h; omega
  | succ f ih =>
    intro i h
    unfold memtype_str_by_index
    by_cases hi : i < table.length
    · rw [if_pos hi, List.getElem?_eq_getElem hi]
      simp only
      rw [List.drop_eq_getElem_cons hi]
      by_cases ht : table[i].type = memtype
      · simp [memtype_str_loop, ht]
      · simp only [memtype_str_loop, ht, if_false]
        exact ih (i + 1) (by omega)
    · rw [if_neg hi, List.drop_eq_nil_of_le (by omega)]
      rfl

/-- Claim C15: `memtype_str` is total: for every integer code it returns the
string of the first row of the table `memtypes` whose type equals the code, and
`"unknown"` when no row has that type (and only then, in a table that has no row
named `"unknown"`); its loop never reads outside the table. -/
theorem memtype_str_total (h : kgsl_h) (memtype : Int) :
    (∀ t, h.KGSL_MEM_TYPES.find? (fun t => decide (t.type = memtype)) = some t →
        memtype_str h memtype = t.str)
    ∧ ((∀ t ∈ h.KGSL_MEM_TYPES, t.type ≠ memtype) → memtype_str h memtype = "unknown")
    ∧ ((∀ t ∈ h.KGSL_MEM_TYPES, t.str ≠ "unknown") →
        (memtype_str h memtype = "unknown" ↔ ∀ t ∈ h.KGSL_MEM_TYPES, t.type ≠ memtype))
    ∧ memtype_str_by_index h.KGSL_MEM_TYPES memtype (h.KGSL_MEM_TYPES.length + 1) 0
        = some (memtype_str h memtype) := by
  have hfind := memtype_str_loop_find h.KGSL_MEM_TYPES memtype
  have hnone : (∀ t ∈ h.KGSL_MEM_TYPES, t.type ≠ memtype) → memtype_str h memtype = "unknown" := by
    intro hall
    have : h.KGSL_MEM_TYPES.find? (fun t => decide (t.type = memtype)) = none := by
      rw [List.find?_eq_none]
      intro t ht
      simpa using hall t ht
    rw [memtype_str, hfind, this]
  refine ⟨?_, hnone, ?_, ?_⟩
  · intro t ht
    rw [memtype_str, hfind, ht]
  · intro hnames
    refine ⟨?_, hnone⟩
    intro hu t ht htype
    cases hf : h.KGSL_MEM_TYPES.find? (fun t => decide (t.type = memtype)) with
    | none =>
      rw [List.find?_eq_none] at hf
      exact hf t ht (by simpa using htype)
    | some t1 =>
      rw [memtype_str, hfind, hf] at hu
      exact hnames t1 (List.mem_of_find?_eq_some hf) hu
  · have := memtype_str_by_index_eq h.KGSL_MEM_TYPES memtype (h.KGSL_MEM_TYPES.length + 1) 0
      (by omega)
    simpa [memtype_str] using this

/-- Claim C15 at the sample table: the code 3 is `ion`, the code 7 is
`unknown`. -/
theorem memtype_str_total_sample :
    (∀ t ∈ sample_kgsl_h.KGSL_MEM_TYPES, t.str ≠ "unknown")
    ∧ memtype_str sample_kgsl_h 3 = "ion"
    ∧ (memtype_str sample_kgsl_h 7 = "unknown"
        ↔ ∀ t ∈ sample_kgsl_h.KGSL_MEM_TYPES, t.type ≠ 7)
    ∧ memtype_str sample_kgsl_h 7 = "unknown" :=
  have h3 := memtype_str_total sample_kgsl_h 3
  have h7 := memtype_str_total sample_kgsl_h 7
  ⟨by decide, h3.1 ⟨3, "ion"⟩ (by decide), h7.2.2.1 (by decide), h7.2.1 (by decide)⟩

/-! ## C17: when the scan yields end-of-sequence -/

theorem scan_pick_eq_some_iff (pos : Int) (hpos : 1 ≤ pos) (l : List kgsl_mem_entry)
    (e : kgsl_mem_entry) :
    scan_pick pos l 1 = some e ↔ l[(pos - 1).toNat]? = some e ∧ e.refcount ≠ 0 := by
  constructor
  · intro h
    obtain ⟨_, hrc, i, hi, hp⟩ := scan_pick_some pos e l 1 h
    have : (pos - 1).toNat = i := by omega
    exact ⟨by rw [this]; exact hi, hrc⟩
  · intro h
    exact scan_pick_at pos e h.2 l 1 _ h.1 (by omega)

theorem scan_pick_eq_none_iff (pos : Int) (hpos : 1 ≤ pos) (l : List kgsl_mem_entry) :
    scan_pick pos l 1 = none
      ↔ (l.length : Int) < pos ∨ ∃ e, l[(pos - 1).toNat]? = some e ∧ e.refcount = 0 := by
  constructor
  · intro h
    cases hget : l[(pos - 1).toNat]? with
    | none =>
      rw [List.getElem?_eq_none_iff] at hget
      left; omega
    | some e =>
      right
      refine ⟨e, rfl, ?_⟩
      by_contra hrc
      have := (scan_pick_eq_some_iff pos hpos l e).2 ⟨hget, hrc⟩
      rw [h] at this
      exact absurd this (by simp)
  · intro h
    cases hp : scan_pick pos l 1 with
    | none => rfl
    | some e =>
      obtain ⟨hget, hrc⟩ := (scan_pick_eq_some_iff pos hpos l e).1 hp
      rcases h with h | ⟨e1, he1, hz⟩
      · have := (List.getElem?_eq_some.1 hget).1
        omega
      · rw [hget] at he1
        cases he1
        exact absurd hz hrc

/-- Claim C17: for a target position `pos ≥ 1`, `process_mem_seq_find` returns,
and it returns end-of-sequence if and only if the registry has fewer than `pos`
entries with an id at or above the lower bound of the cursor, or the `pos`-th of
them in increasing id order has a reference count of zero; in that case the scan
does not fall through to a later entry.  An entry that it returns is the
acquirable one at exactly the requested position. -/
theorem find_null_iff (s : kgsl_process_private) (ptr : seq_ptr) (pos : Int)
    (hwf : idr_wf s.mem_idr) (hc : cursor_wf ptr) (hpos : 1 ≤ pos) :
    (∃ r, process_mem_seq_find s ptr pos = some r)
    ∧ ((∃ s1, process_mem_seq_find s ptr pos = some (s1, .NULL))
        ↔ (((idr_at_least s.mem_idr (cursor_lower_bound ptr)).length : Int) < pos
            ∨ ∃ e, (idr_at_least s.mem_idr (cursor_lower_bound ptr))[(pos - 1).toNat]? = some e
                ∧ e.refcount = 0))
    ∧ (∀ s1 d, process_mem_seq_find s ptr pos = some (s1, .entry d) →
        ∃ e, (idr_at_least s.mem_idr (cursor_lower_bound ptr))[(pos - 1).toNat]? = some e
          ∧ e.id = d ∧ e.refcount ≠ 0) := by
  have hne : ptr ≠ .NULL := by rintro rfl; exact hc
  have heq := find_eq s ptr pos hwf hne
  rw [idr_from_eq_at_least _ hwf ptr hc] at heq
  refine ⟨⟨_, heq⟩, ?_, ?_⟩
  · rw [← scan_pick_eq_none_iff pos hpos, heq]
    constructor
    · rintro ⟨s1, h⟩
      simp only [Option.some.injEq, Prod.mk.injEq] at h
      cases hp : scan_pick pos (idr_at_least s.mem_idr (cursor_lower_bound ptr)) 1 with
      | none => rfl
      | some e => rw [hp] at h; simp [ptr_of] at h
    · intro h
      rw [h]
      exact ⟨_, rfl⟩
  · intro s1 d h
    rw [heq] at h
    simp only [Option.some.injEq, Prod.mk.injEq] at h
    cases hp : scan_pick pos (idr_at_least s.mem_idr (cursor_lower_bound ptr)) 1 with
    | none => rw [hp] at h; simp [ptr_of] at h
    | some e =>
      rw [hp] at h
      simp only [ptr_of, seq_ptr.entry.injEq] at h
      obtain ⟨hget, hrc⟩ := (scan_pick_eq_some_iff pos hpos _ e).1 hp
      exact ⟨e, hget, h.2, hrc⟩

/-- Claim C17 at the registry 2, 5, 7 in which entry 5 has no reference left:
the scan for position 2 yields end-of-sequence although entry 7 is acquirable. -/
theorem find_null_iff_dying :
    idr_wf proc_dying_5.mem_idr
    ∧ (idr_at_least proc_dying_5.mem_idr (cursor_lower_bound .SEQ_START_TOKEN))[(2 - 1 : Int).toNat]?
        = some (plain_entry 5 0)
    ∧ ∃ s1, process_mem_seq_find proc_dying_5 .SEQ_START_TOKEN 2 = some (s1, .NULL) :=
  ⟨by decide, by decide,
    (find_null_iff proc_dying_5 .SEQ_START_TOKEN 2 (by decide) (by decide) (by decide)).2.1.2
      (Or.inr ⟨plain_entry 5 0, by decide, by decide⟩)⟩

/-! ## C18: the lock discipline -/

theorem lock_depth_append (a b : List kgsl_event) :
    lock_depth (a ++ b) = lock_depth a + lock_depth b := by
  induction a with
  | nil => simp [lock_depth]
  | cons ev t ih =>
    cases ev <;> rw [List.cons_append] <;> simp only [lock_depth] <;> rw [ih] <;> omega

theorem scan_trace_events (pos : Int) :
    ∀ (l : List kgsl_mem_entry) (tp : Int),
      ∃ scan, scan_trace pos l tp = scan ++ [.spin_unlock] ∧ (∀ ev ∈ scan, scan_event ev)
        ∧ lock_depth scan = 0 := by
  intro l
  induction l with
  | nil => intro tp; exact ⟨[], rfl, by simp, rfl⟩
  | cons a t ih =>
    intro tp
    obtain ⟨scan, h1, h2, h3⟩ := ih (tp + 1)
    by_cases htp : tp = pos
    · by_cases hrc : a.refcount = 0
      · refine ⟨.kgsl_mem_entry_get a.id false :: .idr_get_next (wrap_int (a.id + 1)) :: scan,
          by simp [scan_trace, htp, hrc, ← h1], ?_, by simpa [lock_depth] using h3⟩
        intro ev hev
        simp only [List.mem_cons] at hev
        rcases hev with rfl | rfl | hev
        · trivial
        · trivial
        · exact h2 ev hev
      · exact ⟨[.kgsl_mem_entry_get a.id true], by simp [scan_trace, htp, hrc],
          by intro ev hev; simp only [List.mem_singleton] at hev; rw [hev]; trivial, rfl⟩
    · refine ⟨.idr_get_next (wrap_int (a.id + 1)) :: scan,
        by simp [scan_trace, htp, h1], ?_, by simpa [lock_depth] using h3⟩
      intro ev hev
      simp only [List.mem_cons] at hev
      rcases hev with rfl | hev
      · trivial
      · exact h2 ev hev

theorem cursor_put_depth (ptr : seq_ptr) : lock_depth (cursor_put ptr) = 0 := by
  cases ptr <;> rfl

/-- The trace of one call of `process_mem_seq_find`: one lock, the scan, one
unlock, then the release of the cursor. -/
theorem find_trace_shape (s : kgsl_process_private) (ptr : seq_ptr) (pos : Int)
    (hwf : idr_wf s.mem_idr) (hne : ptr ≠ .NULL) :
    ∃ s1 y scan, process_mem_seq_find s ptr pos = some (s1, y)
      ∧ s1.trace = s.trace ++ (.spin_lock :: scan ++ [.spin_unlock] ++ cursor_put ptr)
      ∧ (∀ ev ∈ scan, scan_event ev)
      ∧ lock_depth s1.trace = lock_depth s.trace := by
  obtain ⟨scan, h1, h2, h3⟩ :=
    scan_trace_events pos (idr_from s.mem_idr (scan_start ptr)) 1
  refine ⟨_, _, .idr_get_next (scan_start ptr) :: scan, find_eq s ptr pos hwf hne, ?_, ?_, ?_⟩
  · rw [find_state_trace, h1]
    simp
  · intro ev hev
    simp only [List.mem_cons] at hev
    rcases hev with rfl | hev
    · trivial
    · exact h2 ev hev
  · rw [find_state_trace, h1]
    simp only [lock_depth_append, lock_depth, List.cons_append, h3, cursor_put_depth]
    omega

theorem stop_trace (s : kgsl_process_private) (x : seq_ptr) :
    (process_mem_seq_stop s x).trace = s.trace ++ cursor_put x
    ∧ lock_depth (process_mem_seq_stop s x).trace = lock_depth s.trace := by
  cases x <;> simp [process_mem_seq_stop, cursor_put, put_trace, lock_depth_append, lock_depth]

theorem nexts_lock (s0 : kgsl_process_private) (hwf0 : idr_wf s0.mem_idr) :
    ∀ (k : Nat) (s : kgsl_process_private) (x : seq_ptr) (pos : Int)
      (steps : List (kgsl_process_private × seq_ptr × Int)),
      pass_inv s0 s x → read_pass_nexts k s x pos = some steps →
      ∀ st ∈ steps, lock_depth st.1.trace = lock_depth s.trace := by
  intro k
  induction k with
  | zero =>
    intro s x pos steps _ h
    simp only [read_pass_nexts, Option.some.injEq] at h
    rw [← h]; simp
  | succ k ih =>
    intro s x pos steps hinv h
    by_cases hx : x = .NULL
    · simp only [read_pass_nexts, hx, if_true, Option.some.injEq] at h
      rw [← h]; simp
    · have hwf : idr_wf s.mem_idr := by rw [hinv.1]; exact idr_hold_wf _ _ hwf0
      obtain ⟨s1, y, hfind, hinv1, _⟩ := find_step_inv s0 s x 1 hwf0 hx hinv
      obtain ⟨s1', y', scan, hfind', _, _, hdepth⟩ := find_trace_shape s x 1 hwf hx
      rw [hfind] at hfind'
      simp only [Option.some.injEq, Prod.mk.injEq] at hfind'
      rw [← hfind'.1] at hdepth
      obtain ⟨rest, hrest, _⟩ := nexts_inv s0 hwf0 k s1 y (pos + 1) hinv1
      simp only [read_pass_nexts, hx, if_false, process_mem_seq_next, hfind, hrest,
        Option.some.injEq] at h
      rw [← h]
      intro st hst
      rcases List.mem_cons.1 hst with h1 | h1
      · rw [h1]; exact hdepth
      · rw [ih s1 y (pos + 1) rest hinv1 hrest st h1, hdepth]

theorem count_lock_scan (scan : List kgsl_event) (h : ∀ ev ∈ scan, scan_event ev) :
    List.count kgsl_event.spin_lock scan = 0 ∧ List.count kgsl_event.spin_unlock scan = 0 := by
  constructor
  · rw [List.count_eq_zero]
    intro hmem
    exact h _ hmem
  · rw [List.count_eq_zero]
    intro hmem
    exact h _ hmem

theorem count_lock_cursor_put (ptr : seq_ptr) :
    List.count kgsl_event.spin_lock (cursor_put ptr) = 0
    ∧ List.count kgsl_event.spin_unlock (cursor_put ptr) = 0 := by
  cases ptr <;> simp [cursor_put]

/-- Claim C18: on every path `process_mem_seq_find` locks the registry once and
unlocks it once before it returns; between the lock and the unlock it makes
only lookups in the idr and the reference acquisition; the release of the
previous entry comes after the unlock.  `process_mem_seq_stop` only releases a
reference, and `process_mem_seq_show` and `print_mem_entry` do not touch the
process at all; in a read pass each of them runs between two calls of
`process_mem_seq_find`, when the lock is as free as it was before the pass. -/
theorem lock_discipline (s : kgsl_process_private) (ptr : seq_ptr) (pos p : Int) (k : Nat)
    (hwf : idr_wf s.mem_idr) (hne : ptr ≠ .NULL) :
    (∃ s1 y scan, process_mem_seq_find s ptr pos = some (s1, y)
      ∧ s1.trace = s.trace ++ (.spin_lock :: scan ++ [.spin_unlock] ++ cursor_put ptr)
      ∧ (∀ ev ∈ scan, scan_event ev)
      ∧ List.count kgsl_event.spin_lock
          (kgsl_event.spin_lock :: scan ++ [kgsl_event.spin_unlock] ++ cursor_put ptr) = 1
      ∧ List.count kgsl_event.spin_unlock
          (kgsl_event.spin_lock :: scan ++ [kgsl_event.spin_unlock] ++ cursor_put ptr) = 1
      ∧ lock_depth s1.trace = lock_depth s.trace)
    ∧ (∀ x, (process_mem_seq_stop s x).trace = s.trace ++ cursor_put x
        ∧ lock_depth (process_mem_seq_stop s x).trace = lock_depth s.trace)
    ∧ (∃ steps, read_pass s p k = some steps
        ∧ ∀ st ∈ steps, lock_depth st.1.trace = lock_depth s.trace
          ∧ lock_depth (process_mem_seq_stop st.1 st.2.1).trace = lock_depth s.trace) := by
  refine ⟨?_, fun x => stop_trace s x, ?_⟩
  · obtain ⟨s1, y, scan, h1, h2, h3, h4⟩ := find_trace_shape s ptr pos hwf hne
    have hc := count_lock_scan scan h3
    have hp := count_lock_cursor_put ptr
    refine ⟨s1, y, scan, h1, h2, h3, ?_, ?_, h4⟩
    · simp [List.count_cons, List.count_append, hc.1, hp.1]
    · simp [List.count_cons, List.count_append, hc.2, hp.2]
  · obtain ⟨steps, hrun, _, hall⟩ := read_pass_inv s p k hwf
    refine ⟨steps, hrun, ?_⟩
    have hdepth : ∀ st ∈ steps, lock_depth st.1.trace = lock_depth s.trace := by
      unfold read_pass at hrun
      cases hst : process_mem_seq_start s p with
      | none => rw [hst] at hrun; simp at hrun
      | some r =>
        obtain ⟨s0, x0⟩ := r
        rw [hst] at hrun
        simp only at hrun
        cases hn : read_pass_nexts k s0 x0 p with
        | none => rw [hn] at hrun; simp at hrun
        | some rest =>
          rw [hn] at hrun
          simp only [Option.some.injEq] at hrun
          have hinv0 : pass_inv s s0 x0 := hall (s0, x0, p) (by rw [← hrun]; simp)
          have hd0 : lock_depth s0.trace = lock_depth s.trace := by
            by_cases hp0 : p = 0
            · simp only [process_mem_seq_start, hp0, if_true, Option.some.injEq,
                Prod.mk.injEq] at hst
              rw [← hst.1]
            · rw [process_mem_seq_start, if_neg hp0] at hst
              obtain ⟨s1', y', scan, hfind', _, _, hd⟩ :=
                find_trace_shape s .SEQ_START_TOKEN p hwf (by simp)
              rw [hst] at hfind'
              simp only [Option.some.injEq, Prod.mk.injEq] at hfind'
              rw [← hfind'.1] at hd
              exact hd
          intro st hmem
          rw [← hrun] at hmem
          rcases List.mem_cons.1 hmem with h1 | h1
          · rw [h1]; exact hd0
          · rw [nexts_lock s hwf k s0 x0 p rest hinv0 hn st h1, hd0]
    intro st hmem
    exact ⟨hdepth st hmem, by rw [(stop_trace st.1 st.2.1).2, hdepth st hmem]⟩

/-- Claim C18 at the registry 2, 5, 7: the trace of the scan from entry 2 for
position 1. -/
theorem lock_discipline_2_5_7 :
    idr_wf idr_hold_2
    ∧ (process_mem_seq_find { proc_2_5_7 with mem_idr := idr_hold_2 } (.entry 2) 1).map
          (fun r => r.1.trace)
        = some [.spin_lock, .idr_get_next 3, .kgsl_mem_entry_get 5 true, .spin_unlock,
            .kgsl_mem_entry_put 2]
    ∧ ∃ s1 y scan,
        process_mem_seq_find { proc_2_5_7 with mem_idr := idr_hold_2 } (.entry 2) 1
          = some (s1, y)
        ∧ s1.trace = ({ proc_2_5_7 with mem_idr := idr_hold_2 } : kgsl_process_private).trace
            ++ (.spin_lock :: scan ++ [.spin_unlock] ++ cursor_put (.entry 2))
        ∧ (∀ ev ∈ scan, scan_event ev) :=
  have h := (lock_discipline { proc_2_5_7 with mem_idr := idr_hold_2 } (.entry 2) 1 0 0
    (by decide) (by decide)).1
  ⟨by decide, by decide, h.choose, h.choose_spec.choose, h.choose_spec.choose_spec.choose,
    h.choose_spec.choose_spec.choose_spec.1, h.choose_spec.choose_spec.choose_spec.2.1,
    h.choose_spec.choose_spec.choose_spec.2.2.1⟩

/-! ## C19: the scan terminates -/

theorem find_iterations_loop_eq (pos : Int) (suf : List kgsl_mem_entry) :
    ∀ (pre : List kgsl_mem_entry) (fuel : Nat) (s : kgsl_process_private) (tp : Int),
      s.mem_idr = pre ++ suf → idr_wf s.mem_idr → suf.length < fuel →
      process_mem_seq_find_iterations pos fuel s suf.head? tp
        = some (scan_visits pos suf tp) := by
  induction suf with
  | nil =>
    intro pre fuel s tp _ _ hf
    obtain ⟨f, rfl⟩ : ∃ f, fuel = f + 1 := ⟨fuel - 1, by simp at hf; omega⟩
    rfl
  | cons e rest ih =>
    intro pre fuel s tp hs hwf hf
    obtain ⟨f, rfl⟩ : ∃ f, fuel = f + 1 := ⟨fuel - 1, by simp at hf; omega⟩
    have hf2 : rest.length < f := by simp at hf; omega
    have hnext := idr_next_after pre rest e (hs ▸ hwf)
    rw [← hs] at hnext
    simp only [List.head?_cons, process_mem_seq_find_iterations]
    by_cases htp : tp = pos
    · by_cases hrc : e.refcount = 0
      · have ih2 := ih (pre ++ [e]) f
          { s with trace := s.trace ++
              [.kgsl_mem_entry_get e.id false, .idr_get_next (wrap_int (e.id + 1))] }
          (tp + 1) (by simp [hs]) hwf hf2
        simp only [htp, hrc, kgsl_mem_entry_get, scan_visits, idr_get_next, record,
          if_true, List.append_assoc, List.singleton_append, hnext]
        simp only [htp] at ih2
        simp [ih2]
      · simp [htp, hrc, kgsl_mem_entry_get, scan_visits]
    · have ih2 := ih (pre ++ [e]) f
          { s with trace := s.trace ++ [.idr_get_next (wrap_int (e.id + 1))] }
          (tp + 1) (by simp [hs]) hwf hf2
      simp only [htp, scan_visits, idr_get_next, record, if_false, hnext]
      simp [ih2]

theorem find_iterations_eq (s : kgsl_process_private) (ptr : seq_ptr) (pos : Int)
    (hwf : idr_wf s.mem_idr) (hptr : ptr ≠ .NULL) :
    find_iterations s ptr pos
      = some (scan_visits pos (idr_from s.mem_idr (scan_start ptr)) 1) := by
  have key : ∀ id : Int,
      process_mem_seq_find_iterations pos (s.mem_idr.length + 1)
          (idr_get_next (spin_lock s) id).1 (idr_get_next (spin_lock s) id).2 1
        = some (scan_visits pos (idr_from s.mem_idr id) 1) := by
    intro id
    obtain ⟨pre, hpre⟩ := idr_from_split s.mem_idr id
    have hlen := idr_from_length s.mem_idr id
    rw [idr_get_next_eq]
    exact find_iterations_loop_eq pos (idr_from s.mem_idr id) pre (s.mem_idr.length + 1)
      (idr_get_next (spin_lock s) id).1 1 (by simpa [idr_get_next, spin_lock, record] using hpre)
      (by simpa [idr_get_next, spin_lock, record] using hwf) (by omega)
  cases ptr with
  | NULL => exact absurd rfl hptr
  | SEQ_START_TOKEN => simp only [find_iterations, key 0, scan_start]
  | entry c => simp only [find_iterations, key (wrap_int (c + 1)), scan_start]

theorem scan_visits_prefix (pos : Int) :
    ∀ (l : List kgsl_mem_entry) (tp : Int),
      ∃ n, n ≤ l.length ∧ scan_visits pos l tp = (l.take n).map (fun e => e.id) := by
  intro l
  induction l with
  | nil => intro tp; exact ⟨0, by simp, rfl⟩
  | cons a t ih =>
    intro tp
    by_cases hc : tp = pos ∧ a.refcount ≠ 0
    · exact ⟨1, by simp, by simp [scan_visits, hc]⟩
    · obtain ⟨n, hn, h⟩ := ih (tp + 1)
      exact ⟨n + 1, by simp; omega, by rw [scan_visits, if_neg hc, h]; simp⟩

theorem scan_visits_length_at (pos : Int) (e : kgsl_mem_entry) (he : e.refcount ≠ 0) :
    ∀ (l : List kgsl_mem_entry) (tp : Int) (i : Nat),
      l[i]? = some e → pos = tp + i → (scan_visits pos l tp).length = i + 1 := by
  intro l
  induction l with
  | nil => intro tp i h; simp at h
  | cons a t ih =>
    intro tp i h hp
    cases i with
    | zero =>
      simp at h
      subst h
      simp [scan_visits, hp, he]
    | succ j =>
      simp at h
      have hne : ¬ (tp = pos) := by push_cast at hp; omega
      simp only [scan_visits, hne, false_and, if_false, List.length_cons]
      rw [ih (tp + 1) j h (by push_cast at hp ⊢; omega)]

/-- Claim C19: on every registry, for every cursor and every target position,
the scan loop of `process_mem_seq_find` terminates (the fuel of one iteration
per slot, plus the lookup that ends the loop, is enough): the value of `id`
strictly increases from each iteration to the next, so each entry with an id at
or above the lower bound is visited at most once, in id order; the number of
iterations is at most the number of such entries, and it is `pos` when the
target entry is acquirable. -/
theorem scan_terminates (s : kgsl_process_private) (ptr : seq_ptr) (pos : Int)
    (hwf : idr_wf s.mem_idr) (hc : cursor_wf ptr) :
    (∃ r, process_mem_seq_find s ptr pos = some r)
    ∧ ∃ ids n, find_iterations s ptr pos = some ids
      ∧ n ≤ (idr_at_least s.mem_idr (cursor_lower_bound ptr)).length
      ∧ ids = ((idr_at_least s.mem_idr (cursor_lower_bound ptr)).take n).map (fun e => e.id)
      ∧ ids.Pairwise (fun a b => a < b)
      ∧ ids.Nodup
      ∧ (∀ d ∈ ids, cursor_lower_bound ptr ≤ d)
      ∧ ids.length ≤ (idr_at_least s.mem_idr (cursor_lower_bound ptr)).length
      ∧ (∀ e, 1 ≤ pos →
          (idr_at_least s.mem_idr (cursor_lower_bound ptr))[(pos - 1).toNat]? = some e →
          e.refcount ≠ 0 → (ids.length : Int) = pos) := by
  have hne : ptr ≠ .NULL := by rintro rfl; exact hc
  refine ⟨⟨_, find_eq s ptr pos hwf hne⟩, ?_⟩
  have hit := find_iterations_eq s ptr pos hwf hne
  rw [idr_from_eq_at_least _ hwf ptr hc] at hit
  obtain ⟨n, hn, hpre⟩ :=
    scan_visits_prefix pos (idr_at_least s.mem_idr (cursor_lower_bound ptr)) 1
  have hsorted : (scan_visits pos (idr_at_least s.mem_idr (cursor_lower_bound ptr)) 1).Pairwise
      (fun a b => a < b) := by
    rw [hpre, List.pairwise_map]
    exact ((List.Pairwise.filter _ hwf.1).sublist (List.take_sublist _ _))
  refine ⟨_, n, hit, hn, hpre, hsorted, hsorted.imp (fun h => by omega), ?_, ?_, ?_⟩
  · intro d hd
    rw [hpre, List.mem_map] at hd
    obtain ⟨e, he, hed⟩ := hd
    have := List.mem_of_mem_take he
    simp only [idr_at_least, List.mem_filter, decide_eq_true_eq] at this
    rw [← hed]; exact this.2
  · rw [hpre, List.length_map, List.length_take]
    omega
  · intro e hpos hget hrc
    rw [scan_visits_length_at pos e hrc _ 1 _ hget (by omega)]
    omega

/-- Claim C19 at the registry 2, 5, 7: the scan from the header token for
position 2 makes two iterations, at the ids 2 and 5. -/
theorem scan_terminates_2_5_7 :
    idr_wf proc_2_5_7.mem_idr ∧ cursor_wf .SEQ_START_TOKEN
    ∧ find_iterations proc_2_5_7 .SEQ_START_TOKEN 2 = some [2, 5]
    ∧ (∃ r, process_mem_seq_find proc_2_5_7 .SEQ_START_TOKEN 2 = some r) :=
  ⟨by decide, by decide, by decide,
    (scan_terminates proc_2_5_7 .SEQ_START_TOKEN 2 (by decide) (by decide)).1⟩

/-! ## C20: kgsl_process_init_debugfs -/

/-- Claim C20 fails as stated: when `debugfs_create_dir` returns NULL for the
per-process directory, `kgsl_process_init_debugfs` prints no warning at all; and
when the directory is created and `debugfs_create_file` returns an error pointer
for `mem`, that failure is not reported either. -/
theorem init_debugfs_silent_failures :
    (kgsl_process_init_debugfs 42 debugfs_init .NULL (.dentry 2) (.dentry 3)).warnings = []
    ∧ (kgsl_process_init_debugfs 42 debugfs_init (.dentry 1) (.ERR_PTR (-19))
        (.dentry 3)).warnings = [] := by
  decide

/-- Claim C20 as amended: for every outcome of the creation calls
`kgsl_process_init_debugfs` returns normally (it is a total function that
returns no error).  When the per-process directory cannot be created (NULL or an
error pointer), `debug_root` is set to NULL and neither file is asked for.  When
it is created, `mem` and then `sparse_mem` are both asked for in it with mode
0444, whatever the outcome for `mem`; a file whose creation returns NULL is
reported by a warning, and one whose creation returns an error pointer is not. -/
theorem init_debugfs_outcomes (pid : Int) (st : debugfs_state)
    (dir_ret mem_ret sparse_ret : dentry_ptr) :
    (kgsl_process_init_debugfs pid st dir_ret mem_ret sparse_ret).dir_calls
        = st.dir_calls ++ [String.mk ((toString pid).data.take 15)]
    ∧ (IS_ERR_OR_NULL dir_ret = true →
        (kgsl_process_init_debugfs pid st dir_ret mem_ret sparse_ret).debug_root = .NULL
        ∧ (kgsl_process_init_debugfs pid st dir_ret mem_ret sparse_ret).file_calls
            = st.file_calls)
    ∧ (IS_ERR_OR_NULL dir_ret = false →
        (kgsl_process_init_debugfs pid st dir_ret mem_ret sparse_ret).debug_root = dir_ret
        ∧ (kgsl_process_init_debugfs pid st dir_ret mem_ret sparse_ret).file_calls
            = st.file_calls ++ [⟨"mem", 0o444, dir_ret, pid⟩, ⟨"sparse_mem", 0o444, dir_ret, pid⟩]
        ∧ (kgsl_process_init_debugfs pid st dir_ret mem_ret sparse_ret).warnings
            = st.warnings
              ++ (if mem_ret = .NULL then
                    ["Unable to create 'mem' file for "
                      ++ String.mk ((toString pid).data.take 15) ++ "\n"]
                  else [])
              ++ (if sparse_ret = .NULL then
                    ["Unable to create 'sparse_mem' file for "
                      ++ String.mk ((toString pid).data.take 15) ++ "\n"]
                  else [])) := by
  refine ⟨?_, ?_, ?_⟩
  · unfold kgsl_process_init_debugfs
    cases dir_ret <;> cases mem_ret <;> cases sparse_ret <;> simp [IS_ERR_OR_NULL, WARN]
  · intro hd
    unfold kgsl_process_init_debugfs
    simp [hd]
  · intro hd
    unfold kgsl_process_init_debugfs
    cases dir_ret <;> cases mem_ret <;> cases sparse_ret <;>
      simp_all [IS_ERR_OR_NULL, WARN]

/-- Claim C20 as amended, for the process 42: the directory is created, `mem`
fails with NULL and `sparse_mem` is created. -/
theorem init_debugfs_outcomes_sample :
    IS_ERR_OR_NULL (.dentry 1) = false
    ∧ (kgsl_process_init_debugfs 42 debugfs_init (.dentry 1) .NULL (.dentry 3)).file_calls
        = [⟨"mem", 292, .dentry 1, 42⟩, ⟨"sparse_mem", 292, .dentry 1, 42⟩]
    ∧ (kgsl_process_init_debugfs 42 debugfs_init (.dentry 1) .NULL (.dentry 3)).warnings
        = ["Unable to create 'mem' file for 42\n"] :=
  have h := (init_debugfs_outcomes 42 debugfs_init (.dentry 1) .NULL (.dentry 3)).2.2 rfl
  ⟨rfl, h.2.1, by decide⟩

/-! ## C16: listing twice -/

theorem get_keeps (s : kgsl_process_private) (e : kgsl_mem_entry) :
    (kgsl_mem_entry_get s e).1.pid = s.pid
    ∧ (kgsl_mem_entry_get s e).1.refcount = s.refcount := by
  unfold kgsl_mem_entry_get
  split <;> exact ⟨rfl, rfl⟩

theorem find_loop_keeps (pos : Int) :
    ∀ (fuel : Nat) (s : kgsl_process_private) (cur : Option kgsl_mem_entry) (tp : Int)
      (r : kgsl_process_private × seq_ptr),
      process_mem_seq_find_loop pos fuel s cur tp = some r →
        r.1.pid = s.pid ∧ r.1.refcount = s.refcount := by
  intro fuel
  induction fuel with
  | zero => intro s cur tp r h; simp [process_mem_seq_find_loop] at h
  | succ n ih =>
    intro s cur tp r h
    cases cur with
    | none =>
      simp only [process_mem_seq_find_loop, Option.some.injEq] at h
      subst h
      exact ⟨rfl, rfl⟩
    | some e =>
      simp only [process_mem_seq_find_loop] at h
      by_cases htp : tp = pos
      · simp only [htp, if_true] at h
        have hk := get_keeps s e
        by_cases hg : (kgsl_mem_entry_get s e).2 = true
        · rw [if_pos hg] at h
          simp only [Option.some.injEq] at h
          subst h
          exact hk
        · rw [if_neg hg] at h
          have := ih _ _ _ _ h
          exact ⟨this.1.trans hk.1, this.2.trans hk.2⟩
      · simp only [htp, if_false, Bool.false_eq_true] at h
        have := ih _ _ _ _ h
        exact this

theorem find_keeps (s : kgsl_process_private) (ptr : seq_ptr) (pos : Int)
    (r : kgsl_process_private × seq_ptr) (h : process_mem_seq_find s ptr pos = some r) :
    r.1.pid = s.pid ∧ r.1.refcount = s.refcount := by
  cases ptr with
  | NULL => simp [process_mem_seq_find] at h
  | SEQ_START_TOKEN =>
    simp only [process_mem_seq_find] at h
    have := find_loop_keeps pos _ _ _ _ r h
    exact this
  | entry c =>
    simp only [process_mem_seq_find] at h
    split at h
    · simp at h
    · rename_i s2 found hl
      simp only [Option.some.injEq] at h
      subst h
      have := find_loop_keeps pos _ _ _ _ _ hl
      exact this

theorem listing_loop_keeps (h : kgsl_h) :
    ∀ (fuel : Nat) (s : kgsl_process_private) (ptr : seq_ptr) (pos : Int) (out : String)
      (r : kgsl_process_private × seq_ptr × Int × String),
      seq_listing_loop h fuel s ptr pos out = some r →
        r.1.pid = s.pid ∧ r.1.refcount = s.refcount := by
  intro fuel
  induction fuel with
  | zero => intro s ptr pos out r hr; simp [seq_listing_loop] at hr
  | succ n ih =>
    intro s ptr pos out r hr
    simp only [seq_listing_loop] at hr
    by_cases hp : ptr = .NULL
    · rw [if_pos hp] at hr
      simp only [Option.some.injEq] at hr
      subst hr
      exact ⟨rfl, rfl⟩
    · rw [if_neg hp] at hr
      split at hr
      · simp at hr
      · split at hr
        · simp at hr
        · rename_i shown hs priv1 ptr1 pos1 hn
          have hk : priv1.pid = s.pid ∧ priv1.refcount = s.refcount := by
            simp only [process_mem_seq_next] at hn
            split at hn
            · simp at hn
            · rename_i s1 found hf
              simp only [Option.some.injEq, Prod.mk.injEq] at hn
              have := find_keeps s ptr 1 _ hf
              rw [← hn.1]
              exact this
          have := ih _ _ _ _ _ hr
          exact ⟨this.1.trans hk.1, this.2.trans hk.2⟩

theorem stop_keeps (s : kgsl_process_private) (ptr : seq_ptr) :
    (process_mem_seq_stop s ptr).pid = s.pid
    ∧ (process_mem_seq_stop s ptr).refcount = s.refcount := by
  cases ptr <;> exact ⟨rfl, rfl⟩

theorem listing_keeps (h : kgsl_h) (s : kgsl_process_private)
    (r : kgsl_process_private × String) (hr : seq_listing h s = some r) :
    r.1.pid = s.pid ∧ r.1.refcount = s.refcount := by
  simp only [seq_listing, process_mem_seq_start, if_true] at hr
  split at hr
  · simp at hr
  · rename_i priv1 ptr1 pos1 out hl
    simp only [Option.some.injEq] at hr
    subst hr
    have h1 := listing_loop_keeps h _ _ _ _ _ _ hl
    have h2 := stop_keeps priv1 ptr1
    exact ⟨h2.1.trans h1.1, h2.2.trans h1.2⟩

theorem find_loop_live (l : List kgsl_process_private) (pid : Int) (p : kgsl_process_private)
    (hp : l.find? (fun p => decide (p.pid = pid)) = some p) (hl : p.refcount ≠ 0) :
    kgsl_process_private_find_loop l pid
      = (process_store_loop l { p with refcount := p.refcount + 1 }, some pid) := by
  induction l with
  | nil => simp at hp
  | cons a t ih =>
    unfold kgsl_process_private_find_loop process_store_loop
    by_cases ha : a.pid = pid
    · have hap : a = p := by simpa [List.find?, ha] using hp
      subst hap
      simp [ha, hl]
    · have ht : t.find? (fun p => decide (p.pid = pid)) = some p := by
        simpa [List.find?, ha] using hp
      have hpp : p.pid = pid := by simpa using List.find?_some ht
      have ha2 : ¬ a.pid = p.pid := by rw [hpp]; exact ha
      simp only [ha, ha2, if_false, ih ht]

theorem store_find (l : List kgsl_process_private) (pid : Int) (p q : kgsl_process_private)
    (hp : l.find? (fun p => decide (p.pid = pid)) = some p) (hq : q.pid = pid) :
    (process_store_loop l q).find? (fun p => decide (p.pid = pid)) = some q := by
  induction l with
  | nil => simp at hp
  | cons a t ih =>
    unfold process_store_loop
    by_cases ha : a.pid = pid
    · simp [ha, hq, List.find?]
    · have ht : t.find? (fun p => decide (p.pid = pid)) = some p := by
        simpa [List.find?, ha] using hp
      have ha2 : ¬ a.pid = q.pid := by rw [hq]; exact ha
      simp only [ha2, if_false, List.find?, ha, decide_False]
      exact ih ht

theorem store_store (l : List kgsl_process_private) (q q1 : kgsl_process_private)
    (h : q1.pid = q.pid) :
    process_store_loop (process_store_loop l q) q1 = process_store_loop l q1 := by
  induction l with
  | nil => rfl
  | cons a t ih =>
    by_cases ha : a.pid = q.pid
    · simp [process_store_loop, ha, h]
    · simp [process_store_loop, ha, h, ih]

theorem put_store (l : List kgsl_process_private) (q : kgsl_process_private)
    (h : q.refcount ≠ 1) :
    kgsl_process_private_put_loop (process_store_loop l q) q.pid
      = process_store_loop l { q with refcount := q.refcount - 1 } := by
  induction l with
  | nil => rfl
  | cons a t ih =>
    by_cases ha : a.pid = q.pid
    · simp [process_store_loop, kgsl_process_private_put_loop, ha, h]
    · simp [process_store_loop, kgsl_process_private_put_loop, ha, ih]

theorem store_registries (l : List kgsl_process_private) (pid : Int)
    (p q : kgsl_process_private)
    (hp : l.find? (fun p => decide (p.pid = pid)) = some p) (h1 : q.pid = p.pid)
    (h2 : q.refcount = p.refcount) (h3 : q.mem_idr = p.mem_idr) :
    driver_registries ⟨process_store_loop l q⟩ = driver_registries ⟨l⟩ := by
  have hpp : p.pid = pid := by simpa using List.find?_some hp
  induction l with
  | nil => rfl
  | cons a t ih =>
    by_cases ha : a.pid = pid
    · have hap : a = p := by simpa [List.find?, ha] using hp
      subst hap
      simp [driver_registries, process_store_loop, h1, h2, h3]
    · have ht : t.find? (fun p => decide (p.pid = pid)) = some p := by
        simpa [List.find?, ha] using hp
      have ha2 : ¬ a.pid = q.pid := by rw [h1, hpp]; exact ha
      have := ih ht
      simp only [driver_registries, process_store_loop, ha2, if_false, List.map_cons] at this ⊢
      rw [this]

theorem complete_listing_run (h : kgsl_h) (drv : kgsl_driver) (i_private : Nat) (f : file)
    (p : kgsl_process_private)
    (hp : process_deref drv (wrap_int i_private) = some p) (hl : p.refcount ≠ 0)
    (hwf : idr_wf p.mem_idr) (hacq : ∀ e ∈ p.mem_idr, e.refcount ≠ 0) :
    ∃ q, complete_listing h drv i_private f
        = some (process_store drv q,
            { private_data := none, seq_open_calls := f.seq_open_calls + 1 },
            mem_header ++ concat_rows ((visible_entries h p.mem_idr).map (held_row h)))
      ∧ q.pid = p.pid ∧ q.refcount = p.refcount ∧ q.mem_idr = p.mem_idr := by
  unfold complete_listing
  rw [open_unfold]
  generalize wrap_int i_private = pid at hp ⊢
  simp only [process_deref] at hp
  have hpp : p.pid = pid := by simpa using List.find?_some hp
  have hf := find_loop_live drv.process_list pid p hp hl
  have hp1 := store_find drv.process_list pid p { p with refcount := p.refcount + 1 } hp hpp
  obtain ⟨s1, hs1, hidr, _⟩ :=
    listing_content h { p with refcount := p.refcount + 1 } hwf hacq
  have hk := listing_keeps h { p with refcount := p.refcount + 1 } _ hs1
  simp only at hk hidr
  have hs1pid : s1.pid = pid := hk.1.trans hpp
  have hput := put_store drv.process_list s1 (by omega)
  subst hs1pid
  refine ⟨{ s1 with refcount := s1.refcount - 1 }, ?_, hk.1, by simp only; omega, hidr⟩
  simp only [find_eq_loop, hf, seq_open, if_true, ne_eq, not_true_eq_false, if_false,
    Option.map_some', process_deref, hp1, hs1, process_store, process_mem_release,
    seq_release, kgsl_process_private_put]
  rw [store_store _ _ _ (by simpa using hk.1), hput]

theorem deref_pid (drv : kgsl_driver) (pid : Int) (p : kgsl_process_private)
    (h : process_deref drv pid = some p) : p.pid = pid := by
  simp only [process_deref] at h
  simpa using List.find?_some h

/-- Claim C16: for a live process whose registry is well formed, has only
acquirable entries and is changed by nobody else, a complete listing (open,
start at position 0, show and next until end-of-sequence, stop, release) runs to
completion and leaves the registries of the driver (the process contexts with
their reference counts, and the entries with their ids, attributes and reference
counts) exactly as they were; a second complete listing then runs to completion
too, produces the same text as the first, and leaves the registries as they
were. -/
theorem relisting_idempotent (h : kgsl_h) (drv : kgsl_driver) (i_private : Nat) (f : file)
    (p : kgsl_process_private)
    (hp : process_deref drv (wrap_int i_private) = some p) (hl : p.refcount ≠ 0)
    (hwf : idr_wf p.mem_idr) (hacq : ∀ e ∈ p.mem_idr, e.refcount ≠ 0) :
    ∃ drv1 f1 out, complete_listing h drv i_private f = some (drv1, f1, out)
      ∧ driver_registries drv1 = driver_registries drv
      ∧ ∃ drv2 f2, complete_listing h drv1 i_private f1 = some (drv2, f2, out)
        ∧ driver_registries drv2 = driver_registries drv := by
  obtain ⟨q, hrun, hqpid, hqref, hqidr⟩ := complete_listing_run h drv i_private f p hp hl hwf hacq
  have hpp : p.pid = wrap_int i_private := deref_pid drv _ p hp
  have hreg1 : driver_registries (process_store drv q) = driver_registries drv :=
    store_registries drv.process_list (wrap_int i_private) p q hp hqpid hqref hqidr
  have hq : process_deref (process_store drv q) (wrap_int i_private) = some q :=
    store_find drv.process_list (wrap_int i_private) p q hp (hqpid.trans hpp)
  obtain ⟨q2, hrun2, hq2pid, hq2ref, hq2idr⟩ :=
    complete_listing_run h (process_store drv q) i_private
      { private_data := none, seq_open_calls := f.seq_open_calls + 1 } q hq
      (by rw [hqref]; exact hl) (by rw [hqidr]; exact hwf) (by rw [hqidr]; exact hacq)
  have hreg2 : driver_registries (process_store (process_store drv q) q2)
      = driver_registries (process_store drv q) :=
    store_registries (process_store drv q).process_list (wrap_int i_private) q q2 hq
      hq2pid hq2ref hq2idr
  rw [hqidr] at hrun2
  exact ⟨process_store drv q, { private_data := none, seq_open_calls := f.seq_open_calls + 1 },
    mem_header ++ concat_rows (List.map (held_row h) (visible_entries h p.mem_idr)),
    hrun, hreg1, process_store (process_store drv q) q2,
    { private_data := none, seq_open_calls := f.seq_open_calls + 1 + 1 },
    hrun2, hreg2.trans hreg1⟩

/-- Claim C16 at the driver whose process 42 holds a plain entry 2, a
sparse-virtual entry 5 and a plain entry 7: two complete listings one after the
other give the same text and leave the registries as they were. -/
theorem relisting_idempotent_sample :
    process_deref sparse_driver (wrap_int 42) = some proc_sparse
    ∧ ∃ drv1 f1 out, complete_listing sample_kgsl_h sparse_driver 42 fresh_file
          = some (drv1, f1, out)
      ∧ driver_registries drv1 = driver_registries sparse_driver
      ∧ ∃ drv2 f2, complete_listing sample_kgsl_h drv1 42 f1 = some (drv2, f2, out)
        ∧ driver_registries drv2 = driver_registries sparse_driver :=
  ⟨by decide,
    relisting_idempotent sample_kgsl_h sparse_driver 42 fresh_file proc_sparse (by decide)
      (by decide) (by decide) (by decide)⟩

end KgslDebugfs
